import Mathlib

/-!
# Boundary-tag implicit-free-list allocator (`mm.c`)

A shallow embedding of `mm.c` and a verification of its heap invariants.

The target is the ILP32 build of the lab: header words are `unsigned int`
(4 bytes, little endian), `size_t` and pointers are 32 bits wide.  Memory is
a byte-addressed total map; addresses are natural numbers and the null
pointer is `0`.  Arithmetic on `size_t` / `unsigned int` values is taken
modulo `2^32`; pointer arithmetic is not reduced.

The heap provider (`mem_sbrk` of memlib) is not part of the sources; it is
modelled by a break and a limit.  The only loop of `mm.c`, the search in
`find_space`, is bounded by a number of iterations; the theorems show that on
a reachable heap any bound of at least the current break is enough.
-/

namespace MM

/-! ## Definitions -/

/-- Byte-addressed memory. -/
abbrev Mem := Nat → Nat

/-- Modulus of `unsigned int` and `size_t`. -/
def WORD : Nat := 4294967296

/-- Allocator and provider state: the bytes, the provider's current break
`mem_brk`, the provider's limit `mem_max_addr`, and the global `heap_listp`. -/
structure State where
  mem : Mem
  brk : Nat
  mem_max : Nat
  heap_listp : Nat

/-- Modelled from the spec: the Heap Provider `extend(deltaBytes)` (memlib's
`mem_sbrk`, which is not part of the sources).  It grows the heap by exactly
`incr` bytes at its current end and returns the start of the new region, and
fails (`none`, the C value `(void *)-1`) when no further backing memory is
available. -/
def mem_sbrk (st : State) (incr : Nat) : Option (Nat × State) :=
  if st.brk + incr ≤ st.mem_max then some (st.brk, { st with brk := st.brk + incr })
  else none

/-- Macro `memcpy(dst, src, n)` on non-overlapping regions. -/
def memcpy (m : Mem) (dst src n : Nat) : Mem := fun a =>
  if dst ≤ a ∧ a < dst + n then m (src + (a - dst)) else m a

def ALIGNMENT : Nat := 8

def WS : Nat := 4

def DS : Nat := 8

def CHUNKSIZE : Nat := 256

/-- Macro `SUM(size, allocation)`. -/
def SUM (size allocation : Nat) : Nat := size ||| allocation

/-- Macro `PUT(p, val)`: a 4-byte little-endian store of `val` modulo `2^32`. -/
def PUT (m : Mem) (p val : Nat) : Mem := fun a =>
  if a = p then val % 256
  else if a = p + 1 then val / 256 % 256
  else if a = p + 2 then val / 65536 % 256
  else if a = p + 3 then val / 16777216 % 256
  else m a

/-- Macro `GET(p)`: a 4-byte little-endian load. -/
def GET (m : Mem) (p : Nat) : Nat :=
  m p % 256 + 256 * (m (p + 1) % 256) + 65536 * (m (p + 2) % 256)
    + 16777216 * (m (p + 3) % 256)

/-- Macro `SIZE(p)`: the word at `p` masked with `~7`. -/
def SIZE (m : Mem) (p : Nat) : Nat := GET m p &&& 4294967288

/-- Macro `ALLOC_BIT(p)`. -/
def ALLOC_BIT (m : Mem) (p : Nat) : Nat := GET m p &&& 1

/-- Macro `HEADP(bp)`. -/
def HEADP (bp : Nat) : Nat := bp - WS

/-- Macro `FOOTP(bp)`. -/
def FOOTP (m : Mem) (bp : Nat) : Nat := bp + SIZE m (HEADP bp) - DS

/-- Macro `NEXT_BLP(bp)`. -/
def NEXT_BLP (m : Mem) (bp : Nat) : Nat := bp + SIZE m (HEADP bp)

/-- Macro `PREV_BLP(bp)`. -/
def PREV_BLP (m : Mem) (bp : Nat) : Nat := bp - SIZE m (bp - DS)

/-- Macro `ALIGN(size)` on a `size_t` value. -/
def ALIGN (size : Nat) : Nat := ((size + (ALIGNMENT - 1)) % WORD) &&& 4294967288

/-- Function `coalesce`: returns the payload pointer of the merged block. -/
def coalesce (st : State) (bp : Nat) : Nat × State :=
  let m := st.mem
  let prev_alloc_bit := ALLOC_BIT m (FOOTP m (PREV_BLP m bp))
  let next_alloc_bit := ALLOC_BIT m (HEADP (NEXT_BLP m bp))
  let size := SIZE m (HEADP bp)
  if prev_alloc_bit ≠ 0 ∧ next_alloc_bit ≠ 0 then
    (bp, st)
  else if prev_alloc_bit = 0 ∧ next_alloc_bit ≠ 0 then
    let size := (size + SIZE m (HEADP (PREV_BLP m bp))) % WORD
    let m1 := PUT m (FOOTP m bp) (SUM size 0)
    let m2 := PUT m1 (HEADP (PREV_BLP m1 bp)) (SUM size 0)
    (PREV_BLP m2 bp, { st with mem := m2 })
  else if prev_alloc_bit ≠ 0 ∧ next_alloc_bit = 0 then
    let size := (size + SIZE m (HEADP (NEXT_BLP m bp))) % WORD
    let m1 := PUT m (HEADP bp) (SUM size 0)
    let m2 := PUT m1 (FOOTP m1 bp) (SUM size 0)
    (bp, { st with mem := m2 })
  else
    let size := (size + SIZE m (HEADP (PREV_BLP m bp))
      + SIZE m (FOOTP m (NEXT_BLP m bp))) % WORD
    let m1 := PUT m (HEADP (PREV_BLP m bp)) (SUM size 0)
    let m2 := PUT m1 (FOOTP m1 (NEXT_BLP m1 bp)) (SUM size 0)
    (PREV_BLP m2 bp, { st with mem := m2 })

/-- Function `extend_heap`: returns the payload pointer of the new free block
(`0` is `NULL`). -/
def extend_heap (st : State) (words : Nat) : Nat × State :=
  let size := if words % 2 = 0 then (words * WS) % WORD else ((words + 1) * WS) % WORD
  match mem_sbrk st size with
  | none => (0, st)
  | some (bp, st1) =>
    let m1 := PUT st1.mem (HEADP bp) (SUM size 0)
    let m2 := PUT m1 (FOOTP m1 bp) (SUM size 0)
    let m3 := PUT m2 (bp + size - WS) 1
    coalesce { st1 with mem := m3 } bp

/-- Function `mm_init`: returns `0` on success and `-1` on failure. -/
def mm_init (st : State) : Int × State :=
  match mem_sbrk st (4 * WS) with
  | none => (-1, { st with heap_listp := WORD - 1 })
  | some (p, st1) =>
    let m1 := PUT st1.mem p 0
    let m2 := PUT m1 (p + 4) (SUM DS 1)
    let m3 := PUT m2 (p + 8) (SUM DS 1)
    let m4 := PUT m3 (p + 12) 1
    let st2 : State := { st1 with mem := m4, heap_listp := p + DS }
    let r := extend_heap st2 (CHUNKSIZE / WS)
    if r.1 = 0 then (-1, r.2) else (0, r.2)

/-- The `while` loop of `find_space`, bounded by `fuel` iterations; `none`
means the bound was hit, `some 0` is `NULL`. -/
def find_space_loop (m : Mem) (size : Nat) : Nat → Nat → Option Nat
  | 0, _ => none
  | fuel + 1, bp =>
    if SIZE m (HEADP bp) > 0 then
      if ALLOC_BIT m (HEADP bp) = 0 ∧ SIZE m (HEADP bp) ≥ size then some bp
      else find_space_loop m size fuel (NEXT_BLP m bp)
    else some 0

/-- Function `find_space`. -/
def find_space (fuel : Nat) (st : State) (size : Nat) : Option Nat :=
  find_space_loop st.mem size fuel st.heap_listp

/-- Function `insert`. -/
def insert (st : State) (bp size : Nat) : State :=
  let m := st.mem
  let t := (SIZE m (HEADP bp) + WORD - size % WORD) % WORD
  if t < 2 * DS then
    let m1 := PUT m (HEADP bp) (SUM (SIZE m (HEADP bp)) 1)
    let m2 := PUT m1 (FOOTP m1 bp) (SUM (SIZE m1 (HEADP bp)) 1)
    { st with mem := m2 }
  else
    let m1 := PUT m (HEADP bp) (SUM size 1)
    let m2 := PUT m1 (FOOTP m1 bp) (SUM size 1)
    let bp1 := NEXT_BLP m2 bp
    let m3 := PUT m2 (HEADP bp1) (SUM t 0)
    let m4 := PUT m3 (FOOTP m3 bp1) (SUM t 0)
    { st with mem := m4 }

/-- The size adjustment at the head of `mm_malloc`. -/
def adjust (size : Nat) : Nat :=
  if size ≤ DS then 2 * DS else ALIGN ((size + DS) % WORD)

/-- Function `mm_malloc`; `none` means the search loop hit its bound. -/
def mm_malloc (fuel : Nat) (st : State) (size : Nat) : Option (Nat × State) :=
  if size = 0 then some (0, st)
  else
    let size := adjust size
    match find_space fuel st size with
    | none => none
    | some bp =>
      if bp ≠ 0 then some (bp, insert st bp size)
      else
        let more_space := if size > CHUNKSIZE then size else CHUNKSIZE
        let r := extend_heap st (more_space / WS)
        if r.1 = 0 then some (0, r.2)
        else some (r.1, insert r.2 r.1 size)

/-- Function `mm_free`. -/
def mm_free (st : State) (ptr : Nat) : State :=
  if ptr = 0 then st
  else
    let m1 := PUT st.mem (HEADP ptr) (SIZE st.mem (HEADP ptr))
    let m2 := PUT m1 (FOOTP m1 ptr) (SIZE m1 (FOOTP m1 ptr))
    (coalesce { st with mem := m2 } ptr).2

/-- Function `mm_realloc`.  The result of `mm_malloc` is used unchecked, as
in the source. -/
def mm_realloc (fuel : Nat) (st : State) (ptr size : Nat) : Option (Nat × State) :=
  if ptr = 0 then mm_malloc fuel st size
  else if size = 0 then some (0, mm_free st ptr)
  else
    match mm_malloc fuel st size with
    | none => none
    | some (newptr, st1) =>
      let old := (SIZE st1.mem (HEADP ptr) + WORD - DS) % WORD
      let m2 :=
        if old > size then memcpy st1.mem newptr ptr size
        else memcpy st1.mem newptr ptr old
      some (newptr, mm_free { st1 with mem := m2 } ptr)

/-- The walk over the implicit list from payload pointer `bp`: the visited
blocks as `(payload pointer, stored size, allocated bit)` together with the
payload pointer at which a zero size was met; `none` if `fuel` runs out. -/
def heap_walk (m : Mem) : Nat → Nat → Option (List (Nat × Nat × Nat) × Nat)
  | 0, _ => none
  | fuel + 1, bp =>
    if SIZE m (HEADP bp) > 0 then
      match heap_walk m fuel (NEXT_BLP m bp) with
      | none => none
      | some (bs, e) => some ((bp, SIZE m (HEADP bp), ALLOC_BIT m (HEADP bp)) :: bs, e)
    else some ([], bp)

/-- Sum of the stored sizes of a list of `(size, allocated bit)` blocks. -/
def total : List (Nat × Nat) → Nat
  | [] => 0
  | b :: bs => b.1 + total bs

/-- The tags of one block of size `s` and bit `a` whose header is at `h`. -/
def Blk (m : Mem) (h s a : Nat) : Prop :=
  8 ≤ s ∧ s % 8 = 0 ∧ a ≤ 1 ∧ GET m h = s + a ∧ GET m (h + s - 4) = s + a

/-- Consecutive blocks laid out from header address `h`. -/
def Seg (m : Mem) : Nat → List (Nat × Nat) → Prop
  | _, [] => True
  | h, b :: bs => Blk m h b.1 b.2 ∧ Seg m (h + b.1) bs

/-- Both tags of the block at header `h` rewritten to `(s, a)`. -/
def tag2 (m : Mem) (h s a : Nat) : Mem := PUT (PUT m h (s + a)) (h + s - 4) (s + a)

/-- The split performed by `insert` on a free block of size `s`. -/
def split (s asize : Nat) : List (Nat × Nat) :=
  if s - asize < 16 then [(s, 1)] else [(asize, 1), (s - asize, 0)]

/-- The values read by `coalesce` around a block whose header is at `hp + sp`. -/
structure Around (m : Mem) (hp sp ap s sn an : Nat) : Prop where
  sp8 : 8 ≤ sp
  spm : sp % 8 = 0
  ap1 : ap ≤ 1
  ph : GET m hp = sp + ap
  pf : GET m (hp + sp - 4) = sp + ap
  s8 : 8 ≤ s
  sm : s % 8 = 0
  bh : GET m (hp + sp) = s
  snm : sn % 8 = 0
  an1 : an ≤ 1
  nh : GET m (hp + sp + s) = sn + an

/-- Absorbing a free right neighbour: the merged size and the remaining blocks. -/
def mergeNext (s : Nat) : List (Nat × Nat) → Nat × List (Nat × Nat)
  | [] => (s, [])
  | b :: post => if b.2 = 0 then (s + b.1, post) else (s, b :: post)

/-- The block list after `coalesce` on the free block of size `s` that follows
`(sp, ap)` and precedes `post`. -/
def merge (sp ap s : Nat) (post : List (Nat × Nat)) : List (Nat × Nat) :=
  if ap = 0 then (sp + (mergeNext s post).1, 0) :: (mergeNext s post).2
  else (sp, ap) :: ((mergeNext s post).1, 0) :: (mergeNext s post).2

/-- Does a block satisfy a request of `asize` bytes? -/
def fits (asize : Nat) (b : Nat × Nat) : Prop := b.2 = 0 ∧ asize ≤ b.1

instance (asize : Nat) (b : Nat × Nat) : Decidable (fits asize b) := by
  unfold fits; infer_instance

/-- The blocks of a list laid out from header address `h`, as
`(payload pointer, stored size, allocated bit)`. -/
def layout : Nat → List (Nat × Nat) → List (Nat × Nat × Nat)
  | _, [] => []
  | h, b :: bs => (h + 4, b.1, b.2) :: layout (h + b.1) bs

/-- Payload pointers of the allocated blocks of a list laid out from `h`. -/
def allocPtrs : Nat → List (Nat × Nat) → List Nat
  | _, [] => []
  | h, b :: bs => if b.2 = 1 then (h + 4) :: allocPtrs (h + b.1) bs else allocPtrs (h + b.1) bs

/-- No two neighbouring blocks of the list are both free. -/
def NoAdjFree (bs : List (Nat × Nat)) : Prop :=
  List.Chain' (fun x y : Nat × Nat => ¬ (x.2 = 0 ∧ y.2 = 0)) bs

/-- The heap invariant: `F` is the walk from the prologue to the epilogue as
`(size, allocated bit)` pairs and `L` the pointers handed out and not yet
released; `base` is the provider's break when `mm_init` was entered. -/
structure Inv (base : Nat) (st : State) (F : List (Nat × Nat)) (L : List Nat) : Prop where
  hl : st.heap_listp = base + 8
  head : ∃ bs, F = (8, 1) :: bs
  seg : Seg st.mem (base + 4) F
  epi : GET st.mem (base + 4 + total F) = 1
  brk : st.brk = base + 4 + total F + 4
  le_max : st.brk ≤ st.mem_max
  max_lt : st.mem_max < 4294967296
  min16 : ∀ b ∈ F.tail, 16 ≤ b.1
  naf : NoAdjFree F
  nodup : L.Nodup
  live : ∀ p, p ∈ L ↔ (p ∈ allocPtrs (base + 4) F ∧ p ≠ base + 8)

/-- The number of bytes `mm_malloc` asks the provider for. -/
def growSize (asize : Nat) : Nat := if asize > CHUNKSIZE then asize else CHUNKSIZE

/-- The last block after growing: the blocks before it and its size. -/
def grownPre (pre : List (Nat × Nat)) (sp ap : Nat) : List (Nat × Nat) :=
  if ap = 0 then pre else pre ++ [(sp, ap)]

/-- The state of `mm_init` just before its call of `extend_heap`. -/
def initState (pre : State) : State :=
  { pre with
    brk := pre.brk + 16
    mem := PUT (PUT (PUT (PUT pre.mem pre.brk 0) (pre.brk + 4) (SUM DS 1)) (pre.brk + 8) (SUM DS 1))
      (pre.brk + 12) 1
    heap_listp := pre.brk + DS }

/-- Every byte of every allocated block of `F` has the same value in `m1` as in `m`. -/
def Frame (base : Nat) (F : List (Nat × Nat)) (m m1 : Mem) : Prop :=
  ∀ X s Y, F = X ++ (s, 1) :: Y →
    ∀ x, base + 4 + total X ≤ x → x < base + 4 + total X + s → m1 x = m x

/-- The state after the copy step of `mm_realloc`. -/
def copied (st1 : State) (q p size : Nat) : State :=
  { st1 with mem :=
      if (SIZE st1.mem (HEADP p) + WORD - DS) % WORD > size then memcpy st1.mem q p size
      else memcpy st1.mem q p ((SIZE st1.mem (HEADP p) + WORD - DS) % WORD) }

/-- Heaps reachable from a successful `mm_init` by valid calls, together with
the pointers handed out and not yet released.  `base` is the provider's break
on entry to `mm_init`.  Valid calls are `mm_malloc` with a size below `2^31`,
`mm_free` and `mm_realloc` on `NULL` or a live pointer (a proper `mm_realloc`
whose allocation succeeded; without that the source copies through the null
pointer), and a store by the caller into a live payload.  The provider's
limit lies inside the 32-bit address space. -/
inductive Reach (base : Nat) : State → List Nat → Prop
  | init (pre st : State) : pre.brk = base → pre.mem_max < 4294967296 →
      mm_init pre = (0, st) → Reach base st []
  | malloc (st : State) (L : List Nat) (fuel size p : Nat) (st1 : State) :
      Reach base st L → size < 2147483648 → mm_malloc fuel st size = some (p, st1) →
      Reach base st1 (if p = 0 then L else p :: L)
  | free (st : State) (L : List Nat) (p : Nat) :
      Reach base st L → p = 0 ∨ p ∈ L → Reach base (mm_free st p) (L.erase p)
  | realloc (st : State) (L : List Nat) (fuel p size q : Nat) (st1 : State) :
      Reach base st L → p = 0 ∨ p ∈ L → size < 2147483648 →
      mm_realloc fuel st p size = some (q, st1) → (p ≠ 0 → size ≠ 0 → q ≠ 0) →
      Reach base st1 (if q = 0 then L.erase p else q :: L.erase p)
  | store (st : State) (L : List Nat) (p a v : Nat) :
      Reach base st L → p ∈ L → p ≤ a → a + 8 < p + SIZE st.mem (HEADP p) →
      Reach base { st with mem := Function.update st.mem a v } L

/-- Total free heap bytes of a walk: the sum of the stored sizes of its free blocks. -/
def freeBytes (W : List (Nat × Nat × Nat)) : Nat :=
  ((W.filter (fun b => b.2.2 = 0)).map (fun b => b.2.1)).sum

/-- Sum of the sizes of the free blocks of a block list. -/
def freeTotal : List (Nat × Nat) → Nat
  | [] => 0
  | b :: bs => (if b.2 = 0 then b.1 else 0) + freeTotal bs

/-- A fresh provider: break at `4096`, one megabyte of backing memory. -/
def pre0 : State := { mem := fun _ => 0, brk := 4096, mem_max := 1052672, heap_listp := 0 }

/-- The heap right after `mm_init` on `pre0`. -/
def st0 : State := (mm_init pre0).2

/-- The heap after `mm_malloc(100)` on `st0`; the block is at `4112`. -/
def st1c : State := insert st0 4112 112

/-- The heap after a further `mm_malloc(200)`, which grows the heap; the block
is at `4224`, right after the first one. -/
def st2c : State := insert (extend_heap st1c 64).2 4224 208

/-- The heap after `mm_malloc(300)` on `st2c`, which grows the heap; the block
is at `4432`. -/
def st3c : State := insert (extend_heap st2c 78).2 4432 312

/-- A provider with exactly the 272 bytes that `mm_init` needs. -/
def pre1 : State := { mem := fun _ => 0, brk := 4096, mem_max := 4368, heap_listp := 0 }

/-- The heap right after `mm_init` on `pre1`. -/
def stA : State := (mm_init pre1).2

/-- The heap after `mm_malloc(8)` on `stA`; the block is at `4112`. -/
def stB : State := insert stA 4112 16

/-- The heap inside `mm_free(4112)` on `st1c` at the call of `coalesce`: the
tags of the block at `4112` are cleared and its right neighbour is free. -/
def stM : State := { st1c with mem := tag2 st1c.mem 4108 112 0 }

/-! ## Words and bytes -/

theorem and_one (x : Nat) : x &&& 1 = x % 2 := Nat.and_one_is_mod x

theorem mask_eq (x : Nat) (h : x < 4294967296) : x &&& 4294967288 = x / 8 * 8 := by
  apply Nat.eq_of_testBit_eq
  intro i
  rw [Nat.testBit_and]
  have h1 : (4294967288 : Nat) = 2 ^ 3 * (2 ^ 29 - 1) := by norm_num
  rw [h1, Nat.mul_comm (x / 8) 8]
  have h8 : (8 : Nat) = 2 ^ 3 := by norm_num
  rw [h8, Nat.testBit_mul_pow_two, Nat.testBit_mul_pow_two, ← Nat.shiftRight_eq_div_pow,
    Nat.testBit_shiftRight]
  by_cases hi : 3 ≤ i
  · simp only [hi, decide_True, Bool.true_and, Nat.testBit_two_pow_sub_one]
    have : 3 + (i - 3) = i := by omega
    rw [this]
    by_cases h2 : i - 3 < 29
    · simp [h2]
    · simp only [h2, decide_False, Bool.and_false]
      symm
      apply Nat.testBit_lt_two_pow
      calc x < 2 ^ 32 := h
        _ ≤ 2 ^ i := Nat.pow_le_pow_right (by norm_num) (by omega)
  · simp [hi]

theorem lor_small (s a : Nat) (hs : s % 8 = 0) (ha : a ≤ 1) : s ||| a = s + a := by
  have h : s = 2 ^ 3 * (s / 8) := by omega
  rw [h]
  exact (Nat.mul_add_lt_is_or (by omega) _).symm

theorem GET_lt (m : Mem) (p : Nat) : GET m p < 4294967296 := by
  unfold GET; omega

theorem GET_PUT_same (m : Mem) (p v : Nat) : GET (PUT m p v) p = v % 4294967296 := by
  unfold GET PUT
  simp
  omega

theorem PUT_other (m : Mem) (p v a : Nat) (h : a < p ∨ p + 4 ≤ a) : PUT m p v a = m a := by
  unfold PUT
  have h1 : a ≠ p := by omega
  have h2 : a ≠ p + 1 := by omega
  have h3 : a ≠ p + 2 := by omega
  have h4 : a ≠ p + 3 := by omega
  simp [h1, h2, h3, h4]

theorem GET_congr (m m1 : Mem) (q : Nat) (h : ∀ a, q ≤ a → a < q + 4 → m1 a = m a) :
    GET m1 q = GET m q := by
  unfold GET
  rw [h q (by omega) (by omega), h (q + 1) (by omega) (by omega),
    h (q + 2) (by omega) (by omega), h (q + 3) (by omega) (by omega)]

theorem GET_PUT_other (m : Mem) (p v q : Nat) (h : q + 4 ≤ p ∨ p + 4 ≤ q) :
    GET (PUT m p v) q = GET m q := by
  apply GET_congr
  intro a h1 h2
  exact PUT_other m p v a (by omega)

/-! ## Tag words -/

theorem SUM_eq (s a : Nat) (hs : s % 8 = 0) (ha : a ≤ 1) : SUM s a = s + a :=
  lor_small s a hs ha

theorem SUM_zero (s : Nat) : SUM s 0 = s := by
  unfold SUM; simp

theorem SIZE_eq_div (m : Mem) (p : Nat) : SIZE m p = GET m p / 8 * 8 :=
  mask_eq _ (GET_lt m p)

theorem SIZE_mod (m : Mem) (p : Nat) : SIZE m p % 8 = 0 := by
  rw [SIZE_eq_div]; omega

theorem SIZE_of (m : Mem) (p s a : Nat) (h : GET m p = s + a) (hs : s % 8 = 0) (ha : a ≤ 1) :
    SIZE m p = s := by
  rw [SIZE_eq_div, h]; omega

theorem ALLOC_of (m : Mem) (p s a : Nat) (h : GET m p = s + a) (hs : s % 8 = 0) (ha : a ≤ 1) :
    ALLOC_BIT m p = a := by
  unfold ALLOC_BIT
  rw [and_one, h]; omega

/-! ## Block lists -/

theorem total_append (xs ys : List (Nat × Nat)) : total (xs ++ ys) = total xs + total ys := by
  induction xs with
  | nil => simp [total]
  | cons b xs ih => simp [total, ih]; omega

theorem seg_append (m : Mem) (h : Nat) (xs ys : List (Nat × Nat)) :
    Seg m h (xs ++ ys) ↔ Seg m h xs ∧ Seg m (h + total xs) ys := by
  induction xs generalizing h with
  | nil => simp [Seg, total]
  | cons b xs ih =>
    show (Blk m h b.1 b.2 ∧ Seg m (h + b.1) (xs ++ ys)) ↔ _
    rw [ih]
    simp only [Seg, total, Nat.add_assoc, and_assoc]

theorem blk_frame (m m1 : Mem) (h s a : Nat)
    (hf : ∀ x, h ≤ x → x < h + s → m1 x = m x) (hb : Blk m h s a) : Blk m1 h s a := by
  obtain ⟨h1, h2, h3, h4, h5⟩ := hb
  refine ⟨h1, h2, h3, ?_, ?_⟩
  · rw [← h4]; exact GET_congr m m1 h (fun x hx1 hx2 => hf x hx1 (by omega))
  · rw [← h5]; exact GET_congr m m1 _ (fun x hx1 hx2 => hf x (by omega) (by omega))

theorem seg_frame (m m1 : Mem) (h : Nat) (bs : List (Nat × Nat))
    (hf : ∀ x, h ≤ x → x < h + total bs → m1 x = m x) (hs : Seg m h bs) : Seg m1 h bs := by
  induction bs generalizing h with
  | nil => trivial
  | cons b bs ih =>
    obtain ⟨hb, hr⟩ := hs
    simp only [total] at hf
    exact ⟨blk_frame m m1 h b.1 b.2 (fun x h1 h2 => hf x h1 (by omega)) hb,
      ih (h + b.1) (fun x h1 h2 => hf x (by omega) (by omega)) hr⟩

theorem seg_total_mod (m : Mem) (h : Nat) (bs : List (Nat × Nat)) (hs : Seg m h bs) :
    total bs % 8 = 0 := by
  induction bs generalizing h with
  | nil => rfl
  | cons b bs ih =>
    obtain ⟨hb, hr⟩ := hs
    have := ih _ hr
    have := hb.2.1
    simp only [total]; omega

theorem seg_length_le (m : Mem) (h : Nat) (bs : List (Nat × Nat)) (hs : Seg m h bs) :
    8 * bs.length ≤ total bs := by
  induction bs generalizing h with
  | nil => simp [total]
  | cons b bs ih =>
    obtain ⟨hb, hr⟩ := hs
    have := ih _ hr
    have := hb.1
    simp only [total, List.length_cons]; omega

/-- Writing both tags of a block establishes it. -/
theorem blk_put (m : Mem) (h s a : Nat) (h8 : 8 ≤ s) (hs : s % 8 = 0) (ha : a ≤ 1)
    (hlt : s + a < 4294967296) :
    Blk (PUT (PUT m h (s + a)) (h + s - 4) (s + a)) h s a := by
  refine ⟨h8, hs, ha, ?_, ?_⟩
  · rw [GET_PUT_other _ _ _ _ (by omega), GET_PUT_same, Nat.mod_eq_of_lt hlt]
  · rw [GET_PUT_same, Nat.mod_eq_of_lt hlt]

/-! ## Splitting -/

theorem tag2_other (m : Mem) (h s a x : Nat) (h8 : 8 ≤ s) (hx : x < h ∨ h + s ≤ x) :
    tag2 m h s a x = m x := by
  unfold tag2
  rw [PUT_other _ _ _ _ (by omega), PUT_other _ _ _ _ (by omega)]

theorem tag2_blk (m : Mem) (h s a : Nat) (h8 : 8 ≤ s) (hs : s % 8 = 0) (ha : a ≤ 1)
    (hlt : s + a < 4294967296) : Blk (tag2 m h s a) h s a :=
  blk_put m h s a h8 hs ha hlt

/-- The idiom `PUT(HEADP(bp), SUM(s,a)); PUT(FOOTP(bp), SUM(s,a))`. -/
theorem put_pair (m : Mem) (h s a : Nat) (h8 : 8 ≤ s) (hs : s % 8 = 0) (ha : a ≤ 1)
    (hlt : s + a < 4294967296) :
    PUT (PUT m h (SUM s a)) (FOOTP (PUT m h (SUM s a)) (h + 4)) (SUM s a) = tag2 m h s a := by
  have e1 : SIZE (PUT m h (SUM s a)) (HEADP (h + 4)) = s := by
    apply SIZE_of _ _ s a _ hs ha
    simp only [HEADP, WS, Nat.add_sub_cancel]
    rw [GET_PUT_same, SUM_eq s a hs ha, Nat.mod_eq_of_lt hlt]
  have e2 : FOOTP (PUT m h (SUM s a)) (h + 4) = h + s - 4 := by
    unfold FOOTP; rw [e1]; simp only [DS]; omega
  rw [e2, SUM_eq s a hs ha]; rfl

theorem total_split (s asize : Nat) (h : asize ≤ s) : total (split s asize) = s := by
  unfold split; split <;> simp [total]; omega

theorem insert_seg (st : State) (h s asize : Nat) (hb : Blk st.mem h s 0)
    (ha8 : asize % 8 = 0) (ha16 : 16 ≤ asize) (hle : asize ≤ s) :
    (insert st (h + 4) asize).brk = st.brk ∧
    (insert st (h + 4) asize).mem_max = st.mem_max ∧
    (insert st (h + 4) asize).heap_listp = st.heap_listp ∧
    Seg (insert st (h + 4) asize).mem h (split s asize) ∧
    ∀ x, x < h ∨ h + s ≤ x → (insert st (h + 4) asize).mem x = st.mem x := by
  obtain ⟨h1, h2, _, h4, h5⟩ := hb
  have hlt : s < 4294967296 := by have := GET_lt st.mem h; omega
  have e0 : HEADP (h + 4) = h := by simp [HEADP, WS]
  have e1 : SIZE st.mem h = s := SIZE_of _ _ s 0 h4 h2 (by omega)
  have et : (s + WORD - asize % WORD) % WORD = s - asize := by
    simp only [WORD]; omega
  unfold insert
  simp only [e0, e1, et]
  by_cases ht : s - asize < 16
  · have ht2 : s - asize < 2 * DS := by simpa [DS] using ht
    simp only [ht2, if_true, split, ht]
    have := put_pair st.mem h s 1 h1 h2 (by omega) (by omega)
    have e3 : SIZE (PUT st.mem h (SUM s 1)) h = s := by
      apply SIZE_of _ _ s 1 _ h2 (by omega)
      rw [GET_PUT_same, SUM_eq s 1 h2 (by omega), Nat.mod_eq_of_lt (by omega)]
    rw [e3, this]
    refine ⟨trivial, trivial, trivial, ⟨tag2_blk _ _ _ _ h1 h2 (by omega) (by omega), trivial⟩, ?_⟩
    intro x hx
    exact tag2_other _ _ _ _ _ h1 hx
  · have ht2 : ¬ s - asize < 2 * DS := by simpa [DS] using ht
    simp only [ht2, if_false, split, ht]
    have p1 := put_pair st.mem h asize 1 (by omega) ha8 (by omega) (by omega)
    rw [p1]
    have b1 : Blk (tag2 st.mem h asize 1) h asize 1 :=
      tag2_blk _ _ _ _ (by omega) ha8 (by omega) (by omega)
    have e3 : NEXT_BLP (tag2 st.mem h asize 1) (h + 4) = h + asize + 4 := by
      unfold NEXT_BLP
      rw [e0, SIZE_of _ _ asize 1 b1.2.2.2.1 ha8 (by omega)]; omega
    rw [e3]
    have e4 : HEADP (h + asize + 4) = h + asize := by simp [HEADP, WS]
    rw [e4]
    have p2 := put_pair (tag2 st.mem h asize 1) (h + asize) (s - asize) 0 (by omega) (by omega)
      (by omega) (by omega)
    rw [p2]
    refine ⟨trivial, trivial, trivial, ⟨?_, tag2_blk _ _ _ _ (by omega) (by omega) (by omega) (by omega),
      trivial⟩, ?_⟩
    · exact blk_frame _ _ _ _ _ (fun x hx1 hx2 => tag2_other _ _ _ _ _ (by omega) (by omega)) b1
    · intro x hx
      rw [tag2_other _ _ _ _ _ (by omega) (by omega), tag2_other _ _ _ _ _ (by omega) (by omega)]

/-! ## Coalescing -/

theorem SIZE_PUT_other (m : Mem) (p v q : Nat) (h : q + 4 ≤ p ∨ p + 4 ≤ q) :
    SIZE (PUT m p v) q = SIZE m q := by
  unfold SIZE; rw [GET_PUT_other m p v q h]

theorem around_reads (m : Mem) (hp sp ap s sn an : Nat) (A : Around m hp sp ap s sn an) :
    HEADP (hp + sp + 4) = hp + sp ∧ SIZE m (hp + sp) = s ∧
    PREV_BLP m (hp + sp + 4) = hp + 4 ∧ HEADP (hp + 4) = hp ∧ SIZE m hp = sp ∧
    FOOTP m (hp + 4) = hp + sp - 4 ∧ ALLOC_BIT m (hp + sp - 4) = ap ∧
    NEXT_BLP m (hp + sp + 4) = hp + sp + s + 4 ∧ HEADP (hp + sp + s + 4) = hp + sp + s ∧
    FOOTP m (hp + sp + 4) = hp + sp + s - 4 ∧ ALLOC_BIT m (hp + sp + s) = an ∧
    SIZE m (hp + sp + s) = sn := by
  have e0 : HEADP (hp + sp + 4) = hp + sp := by simp [HEADP, WS]
  have e1 : SIZE m (hp + sp) = s := SIZE_of _ _ s 0 A.bh A.sm (by omega)
  have e2 : hp + sp + 4 - DS = hp + sp - 4 := by simp only [DS]; omega
  have e3 : SIZE m (hp + sp - 4) = sp := SIZE_of _ _ sp ap A.pf A.spm A.ap1
  have e5 : HEADP (hp + 4) = hp := by simp [HEADP, WS]
  have e6 : SIZE m hp = sp := SIZE_of _ _ sp ap A.ph A.spm A.ap1
  have := A.sp8
  have := A.s8
  refine ⟨e0, e1, ?_, e5, e6, ?_, ALLOC_of _ _ sp ap A.pf A.spm A.ap1, ?_, by simp [HEADP, WS],
    ?_, ALLOC_of _ _ sn an A.nh A.snm A.an1, SIZE_of _ _ sn an A.nh A.snm A.an1⟩
  · unfold PREV_BLP; rw [e2, e3]; omega
  · unfold FOOTP; rw [e5, e6]; simp only [DS]; omega
  · unfold NEXT_BLP; rw [e0, e1]; omega
  · unfold FOOTP; rw [e0, e1]; simp only [DS]; omega

theorem coalesce_11 (st : State) (hp sp s sn : Nat) (A : Around st.mem hp sp 1 s sn 1) :
    coalesce st (hp + sp + 4) = (hp + sp + 4, st) := by
  obtain ⟨e0, e1, e4, e5, e6, e7, e8, e9, e10, e11, e12, e13⟩ := around_reads _ _ _ _ _ _ _ A
  unfold coalesce
  simp only [e0, e1, e4, e5, e6, e7, e8, e9, e10, e11, e12, e13]
  simp

theorem coalesce_01 (st : State) (hp sp s sn : Nat) (A : Around st.mem hp sp 0 s sn 1)
    (hlt : sp + s < 4294967296) :
    coalesce st (hp + sp + 4) =
      (hp + 4, { st with mem := PUT (PUT st.mem (hp + (sp + s) - 4) (sp + s + 0)) hp (sp + s + 0) }) := by
  have a1 := A.sp8
  have a2 := A.s8
  have f3 : (s + sp) % WORD = sp + s := by simp only [WORD]; omega
  have f4 : hp + sp + s - 4 = hp + (sp + s) - 4 := by omega
  have f5 : hp + sp + 4 - DS = hp + sp - 4 := by simp only [DS]; omega
  have f6 : hp + sp + 4 - sp = hp + 4 := by omega
  have f7 : hp + sp - 4 + 4 ≤ hp + (sp + s) - 4 ∨ hp + (sp + s) - 4 + 4 ≤ hp + sp - 4 := by omega
  have f8 : hp + sp - 4 + 4 ≤ hp ∨ hp + 4 ≤ hp + sp - 4 := by omega
  clear a1 a2 hlt
  have g0 : SIZE (PUT st.mem (hp + (sp + s) - 4) (sp + s)) (hp + sp - 4) = sp := by
    rw [SIZE_PUT_other _ _ _ _ f7]
    exact SIZE_of _ _ sp 0 A.pf A.spm (Nat.zero_le _)
  have g1 : PREV_BLP (PUT st.mem (hp + (sp + s) - 4) (sp + s)) (hp + sp + 4) = hp + 4 := by
    unfold PREV_BLP
    rw [f5, g0, f6]
  have g2 : PREV_BLP (PUT (PUT st.mem (hp + (sp + s) - 4) (sp + s)) hp (sp + s)) (hp + sp + 4)
      = hp + 4 := by
    unfold PREV_BLP
    rw [f5, SIZE_PUT_other _ _ _ _ f8, g0, f6]
  obtain ⟨e0, e1, e4, e5, e6, e7, e8, e9, e10, e11, e12, e13⟩ := around_reads _ _ _ _ _ _ _ A
  unfold coalesce
  simp only [e0, e1, e4, e5, e6, e7, e8, e9, e10, e11, e12, e13, f3, f4, SUM_zero, g1, g2,
    Nat.add_zero]
  simp

theorem coalesce_10 (st : State) (hp sp s sn : Nat) (A : Around st.mem hp sp 1 s sn 0)
    (hlt : s + sn < 4294967296) :
    coalesce st (hp + sp + 4) =
      (hp + sp + 4, { st with mem := tag2 st.mem (hp + sp) (s + sn) 0 }) := by
  have a1 := A.s8
  have a2 := A.sm
  have a3 := A.snm
  have f3 : (s + sn) % WORD = s + sn := by simp only [WORD]; omega
  have g1 := put_pair st.mem (hp + sp) (s + sn) 0 (by omega) (by omega) (by omega) (by omega)
  rw [SUM_zero] at g1
  clear a1 a2 a3 hlt
  obtain ⟨e0, e1, e4, e5, e6, e7, e8, e9, e10, e11, e12, e13⟩ := around_reads _ _ _ _ _ _ _ A
  unfold coalesce
  simp only [e0, e1, e4, e5, e6, e7, e8, e9, e10, e11, e12, e13, f3, SUM_zero, g1]
  simp

theorem coalesce_00 (st : State) (hp sp s sn : Nat) (A : Around st.mem hp sp 0 s sn 0)
    (sn8 : 8 ≤ sn) (nf : GET st.mem (hp + sp + s + sn - 4) = sn)
    (hlt : sp + s + sn < 4294967296) :
    coalesce st (hp + sp + 4) =
      (hp + 4, { st with mem := tag2 st.mem hp (sp + s + sn) 0 }) := by
  have a1 := A.sp8
  have a2 := A.s8
  have f0 : hp + sp + s + 4 + sn - DS = hp + sp + s + sn - 4 := by simp only [DS]; omega
  have f3 : (s + sp + sn) % WORD = sp + s + sn := by simp only [WORD]; omega
  have f5 : hp + sp + 4 - DS = hp + sp - 4 := by simp only [DS]; omega
  have f6 : hp + sp + 4 - sp = hp + 4 := by omega
  have f7 : hp + sp + 4 ≤ hp ∨ hp + 4 ≤ hp + sp := by omega
  have f8 : hp + sp + s + 4 ≤ hp ∨ hp + 4 ≤ hp + sp + s := by omega
  have f9 : hp + sp + s + 4 + sn - DS = hp + (sp + s + sn) - 4 := by simp only [DS]; omega
  have f10 : hp + sp - 4 + 4 ≤ hp + (sp + s + sn) - 4 ∨ hp + (sp + s + sn) - 4 + 4 ≤ hp + sp - 4 := by
    omega
  have f11 : hp + sp - 4 + 4 ≤ hp ∨ hp + 4 ≤ hp + sp - 4 := by omega
  have f12 : hp + sp + 4 + s = hp + sp + s + 4 := by omega
  clear a1 a2 hlt sn8
  have f2 : SIZE st.mem (hp + sp + s + sn - 4) = sn := SIZE_of _ _ sn 0 nf A.snm (Nat.zero_le _)
  obtain ⟨e0, e1, e4, e5, e6, e7, e8, e9, e10, e11, e12, e13⟩ := around_reads _ _ _ _ _ _ _ A
  have f1 : FOOTP st.mem (hp + sp + s + 4) = hp + sp + s + sn - 4 := by
    unfold FOOTP; rw [e10, e13, f0]
  have g1 : NEXT_BLP (PUT st.mem hp (sp + s + sn)) (hp + sp + 4) = hp + sp + s + 4 := by
    unfold NEXT_BLP
    rw [e0, SIZE_PUT_other _ _ _ _ f7, e1, f12]
  have g2 : FOOTP (PUT st.mem hp (sp + s + sn)) (hp + sp + s + 4) = hp + (sp + s + sn) - 4 := by
    unfold FOOTP
    rw [e10, SIZE_PUT_other _ _ _ _ f8, e13, f9]
  have g3 : PREV_BLP (PUT (PUT st.mem hp (sp + s + sn)) (hp + (sp + s + sn) - 4) (sp + s + sn))
      (hp + sp + 4) = hp + 4 := by
    unfold PREV_BLP
    rw [f5, SIZE_PUT_other _ _ _ _ f10, SIZE_PUT_other _ _ _ _ f11,
      SIZE_of _ _ sp 0 A.pf A.spm (Nat.zero_le _), f6]
  unfold coalesce
  simp only [e0, e1, e4, e5, e6, e7, e8, e9, e10, e11, e12, e13, f1, f2, f3, SUM_zero, g1, g2, g3]
  simp [tag2]

theorem total_mergeNext (s : Nat) (post : List (Nat × Nat)) :
    (mergeNext s post).1 + total (mergeNext s post).2 = s + total post := by
  cases post with
  | nil => rfl
  | cons b post =>
    by_cases hb : b.2 = 0
    · simp only [mergeNext, hb, if_true, total]; omega
    · simp only [mergeNext, hb, if_false, total]

theorem total_merge (sp ap s : Nat) (post : List (Nat × Nat)) :
    total (merge sp ap s post) = sp + s + total post := by
  have := total_mergeNext s post
  unfold merge
  split <;> simp only [total] <;> omega

theorem blk_put_rev (m : Mem) (h s a : Nat) (h8 : 8 ≤ s) (hs : s % 8 = 0) (ha : a ≤ 1)
    (hlt : s + a < 4294967296) :
    Blk (PUT (PUT m (h + s - 4) (s + a)) h (s + a)) h s a := by
  refine ⟨h8, hs, ha, ?_, ?_⟩
  · rw [GET_PUT_same, Nat.mod_eq_of_lt hlt]
  · rw [GET_PUT_other _ _ _ _ (by omega), GET_PUT_same, Nat.mod_eq_of_lt hlt]

/-- The header word after a block followed by `post` and the epilogue. -/
theorem next_word (m : Mem) (h s : Nat) (post : List (Nat × Nat))
    (hpost : Seg m h post) (hepi : GET m (h + total post) = 1) :
    ∃ sn an, sn % 8 = 0 ∧ an ≤ 1 ∧ GET m h = sn + an ∧
      (an ≠ 0 → mergeNext s post = (s, post)) ∧
      (an = 0 → ∃ post1, post = (sn, 0) :: post1 ∧ mergeNext s post = (s + sn, post1)) := by
  cases post with
  | nil =>
    refine ⟨0, 1, rfl, le_refl _, ?_, fun _ => rfl, by simp⟩
    simpa [total] using hepi
  | cons b post =>
    obtain ⟨⟨n1, n2, n3, n4, n5⟩, -⟩ := hpost
    refine ⟨b.1, b.2, n2, n3, n4, ?_, ?_⟩
    · intro hb; simp [mergeNext, hb]
    · intro hb
      refine ⟨post, ?_, by simp [mergeNext, hb]⟩
      rw [← hb]

theorem coalesce_seg (st : State) (hp sp ap s : Nat) (post : List (Nat × Nat))
    (hseg : Seg st.mem hp ((sp, ap) :: (s, 0) :: post))
    (hepi : GET st.mem (hp + sp + s + total post) = 1)
    (hlt : hp + sp + s + total post < 4294967296) :
    (coalesce st (hp + sp + 4)).1 = (if ap = 0 then hp + 4 else hp + sp + 4) ∧
    (coalesce st (hp + sp + 4)).2.brk = st.brk ∧
    (coalesce st (hp + sp + 4)).2.mem_max = st.mem_max ∧
    (coalesce st (hp + sp + 4)).2.heap_listp = st.heap_listp ∧
    Seg (coalesce st (hp + sp + 4)).2.mem hp (merge sp ap s post) ∧
    ∀ x, x < (if ap = 0 then hp else hp + sp) ∨ hp + sp + (mergeNext s post).1 ≤ x →
      (coalesce st (hp + sp + 4)).2.mem x = st.mem x := by
  obtain ⟨⟨p1, p2, p3, p4, p5⟩, ⟨b1, b2, -, b4, b5⟩, hpost⟩ := hseg
  simp only [Nat.add_zero] at p1 p2 p3 p4 p5 b1 b2 b4 b5 hpost
  obtain ⟨sn, an, n2, n3, n4, hm1, hm0⟩ := next_word st.mem (hp + sp + s) s post hpost hepi
  have A : Around st.mem hp sp ap s sn an := ⟨p1, p2, p3, p4, p5, b1, b2, b4, n2, n3, n4⟩
  have hap : ap = 0 ∨ ap = 1 := by omega
  have han : an = 0 ∨ an = 1 := by omega
  rcases hap with hap | hap <;> rcases han with han | han
  · obtain ⟨post1, hpe, hmn⟩ := hm0 han
    subst hap han hpe
    obtain ⟨⟨m1, -, -, -, m5⟩, hrest⟩ := hpost
    simp only [Nat.add_zero, total] at m1 m5 hrest hlt
    rw [coalesce_00 st hp sp s sn A m1 m5 (by omega)]
    refine ⟨rfl, rfl, rfl, rfl, ?_, ?_⟩
    · simp only [merge, if_true, hmn, Seg]
      refine ⟨?_, ?_⟩
      · have := tag2_blk st.mem hp (sp + s + sn) 0 (by omega) (by omega) (by omega) (by omega)
        simpa [Nat.add_assoc] using this
      · rw [← Nat.add_assoc, ← Nat.add_assoc]
        exact seg_frame _ _ _ _ (fun x hx1 hx2 => tag2_other _ _ _ _ _ (by omega) (by omega)) hrest
    · intro x hx
      simp only [if_true, hmn] at hx
      exact tag2_other _ _ _ _ _ (by omega) (by omega)
  · have hmn := hm1 (by omega)
    subst hap han
    rw [coalesce_01 st hp sp s sn A (by omega)]
    refine ⟨rfl, rfl, rfl, rfl, ?_, ?_⟩
    · simp only [merge, if_true, hmn, Seg]
      refine ⟨blk_put_rev st.mem hp (sp + s) 0 (by omega) (by omega) (by omega) (by omega), ?_⟩
      rw [← Nat.add_assoc]
      refine seg_frame _ _ _ _ (fun x hx1 hx2 => ?_) hpost
      rw [PUT_other _ _ _ _ (by omega), PUT_other _ _ _ _ (by omega)]
    · intro x hx
      simp only [if_true, hmn] at hx
      show PUT _ _ _ x = _
      rw [PUT_other _ _ _ _ (by omega), PUT_other _ _ _ _ (by omega)]
  · obtain ⟨post1, hpe, hmn⟩ := hm0 han
    subst hap han hpe
    obtain ⟨⟨m1, -, -, -, m5⟩, hrest⟩ := hpost
    simp only [Nat.add_zero, total] at m1 m5 hrest hlt
    rw [coalesce_10 st hp sp s sn A (by omega)]
    refine ⟨rfl, rfl, rfl, rfl, ?_, ?_⟩
    · simp only [merge, hmn, Seg]
      refine ⟨?_, ?_, ?_⟩
      · exact blk_frame _ _ _ _ _ (fun x hx1 hx2 => tag2_other _ _ _ _ _ (by omega) (by omega))
          ⟨p1, p2, p3, p4, p5⟩
      · exact tag2_blk st.mem (hp + sp) (s + sn) 0 (by omega) (by omega) (by omega) (by omega)
      · rw [← Nat.add_assoc]
        exact seg_frame _ _ _ _ (fun x hx1 hx2 => tag2_other _ _ _ _ _ (by omega) (by omega)) hrest
    · intro x hx
      simp only [hmn] at hx
      exact tag2_other _ _ _ _ _ (by omega) (by simpa using hx)
  · have hmn := hm1 (by omega)
    subst hap han
    rw [coalesce_11 st hp sp s sn A]
    refine ⟨rfl, rfl, rfl, rfl, ?_, fun x _ => rfl⟩
    simp only [merge, hmn, Seg]
    exact ⟨⟨p1, p2, p3, p4, p5⟩, ⟨b1, b2, by omega, b4, b5⟩, hpost⟩

/-! ## Release, growth and search on block lists -/

theorem mm_free_seg (st : State) (hp sp ap s : Nat) (post : List (Nat × Nat))
    (hseg : Seg st.mem hp ((sp, ap) :: (s, 1) :: post))
    (hepi : GET st.mem (hp + sp + s + total post) = 1)
    (hlt : hp + sp + s + total post < 4294967296) :
    (mm_free st (hp + sp + 4)).brk = st.brk ∧
    (mm_free st (hp + sp + 4)).mem_max = st.mem_max ∧
    (mm_free st (hp + sp + 4)).heap_listp = st.heap_listp ∧
    Seg (mm_free st (hp + sp + 4)).mem hp (merge sp ap s post) ∧
    GET (mm_free st (hp + sp + 4)).mem (hp + sp + s + total post) = 1 ∧
    ∀ x, x < (if ap = 0 then hp else hp + sp) ∨ hp + sp + (mergeNext s post).1 ≤ x →
      (mm_free st (hp + sp + 4)).mem x = st.mem x := by
  obtain ⟨hP, ⟨b1, b2, -, b4, b5⟩, hpost⟩ := hseg
  simp only at hP b1 b2 b4 b5 hpost
  have hP1 := hP.1
  have e0 : HEADP (hp + sp + 4) = hp + sp := by simp [HEADP, WS]
  have e1 : SIZE st.mem (hp + sp) = s := SIZE_of _ _ s 1 b4 b2 (by omega)
  have e2 : FOOTP (PUT st.mem (hp + sp) s) (hp + sp + 4) = hp + sp + s - 4 := by
    unfold FOOTP
    rw [e0, SIZE_of _ _ s 0 (by rw [GET_PUT_same]; omega) b2 (by omega)]
    simp only [DS]; omega
  have e3 : SIZE (PUT st.mem (hp + sp) s) (hp + sp + s - 4) = s := by
    rw [SIZE_PUT_other _ _ _ _ (by omega)]
    exact SIZE_of _ _ s 1 b5 b2 (by omega)
  have hm : mm_free st (hp + sp + 4) =
      (coalesce { st with mem := tag2 st.mem (hp + sp) s 0 } (hp + sp + 4)).2 := by
    unfold mm_free
    rw [if_neg (by omega)]
    simp only [e0, e1, e2, e3, tag2, Nat.add_zero]
  have hmn := total_mergeNext s post
  have hseg1 : Seg (tag2 st.mem (hp + sp) s 0) hp ((sp, ap) :: (s, 0) :: post) := by
    refine ⟨?_, tag2_blk _ _ _ _ b1 b2 (by omega) (by omega), ?_⟩
    · exact blk_frame _ _ _ _ _ (fun x hx1 hx2 => tag2_other _ _ _ _ _ b1 (by omega)) hP
    · exact seg_frame _ _ _ _ (fun x hx1 hx2 => tag2_other _ _ _ _ _ b1 (by omega)) hpost
  have hepi1 : GET (tag2 st.mem (hp + sp) s 0) (hp + sp + s + total post) = 1 := by
    exact (GET_congr _ _ _ (fun x hx1 hx2 => tag2_other _ _ _ _ _ b1 (by omega))).trans hepi
  obtain ⟨-, c2, c3, c4, c5, c6⟩ :=
    coalesce_seg { st with mem := tag2 st.mem (hp + sp) s 0 } hp sp ap s post hseg1 hepi1 hlt
  rw [hm]
  refine ⟨c2, c3, c4, c5, ?_, ?_⟩
  · exact (GET_congr _ _ _ (fun x hx1 hx2 => c6 x (by omega))).trans hepi1
  · intro x hx
    rw [c6 x hx]
    refine tag2_other _ _ _ _ _ b1 ?_
    have : hp + sp + s ≤ hp + sp + (mergeNext s post).1 := by
      cases post with
      | nil => simp [mergeNext]
      | cons b post =>
        by_cases hb : b.2 = 0 <;> simp [mergeNext, hb]
    split at hx <;> omega

theorem extend_heap_fail (st : State) (words E : Nat)
    (hE : (if words % 2 = 0 then (words * WS) % WORD else ((words + 1) * WS) % WORD) = E)
    (hfail : st.mem_max < st.brk + E) : extend_heap st words = (0, st) := by
  unfold extend_heap
  simp only [hE, mem_sbrk]
  rw [if_neg (by omega)]

theorem extend_heap_seg (st : State) (hp sp ap words E : Nat)
    (hE : (if words % 2 = 0 then (words * WS) % WORD else ((words + 1) * WS) % WORD) = E)
    (hE8 : 8 ≤ E) (hEm : E % 8 = 0)
    (hseg : Seg st.mem hp [(sp, ap)]) (hbrk : st.brk = hp + sp + 4)
    (hok : st.brk + E ≤ st.mem_max) (hmax : st.mem_max < 4294967296) :
    (extend_heap st words).1 = (if ap = 0 then hp + 4 else hp + sp + 4) ∧
    (extend_heap st words).2.brk = st.brk + E ∧
    (extend_heap st words).2.mem_max = st.mem_max ∧
    (extend_heap st words).2.heap_listp = st.heap_listp ∧
    Seg (extend_heap st words).2.mem hp (merge sp ap E []) ∧
    GET (extend_heap st words).2.mem (hp + sp + E) = 1 ∧
    ∀ x, x < (if ap = 0 then hp else hp + sp) → (extend_heap st words).2.mem x = st.mem x := by
  obtain ⟨hP, -⟩ := hseg
  simp only at hP
  have hP1 := hP.1
  have e0 : HEADP (hp + sp + 4) = hp + sp := by simp [HEADP, WS]
  have e1 := put_pair st.mem (hp + sp) E 0 hE8 hEm (by omega) (by omega)
  have e2 : hp + sp + 4 + E - WS = hp + sp + E := by simp only [WS]; omega
  have hm : extend_heap st words =
      coalesce { st with brk := st.brk + E, mem := PUT (tag2 st.mem (hp + sp) E 0) (hp + sp + E) 1 }
        (hp + sp + 4) := by
    unfold extend_heap
    simp only [hE, mem_sbrk]
    rw [if_pos hok]
    simp only [hbrk, e0, e1, e2]
  have hseg1 : Seg (PUT (tag2 st.mem (hp + sp) E 0) (hp + sp + E) 1) hp
      ((sp, ap) :: (E, 0) :: []) := by
    refine ⟨?_, ?_, trivial⟩
    · refine blk_frame _ _ _ _ _ (fun x hx1 hx2 => ?_) hP
      rw [PUT_other _ _ _ _ (by omega), tag2_other _ _ _ _ _ hE8 (by omega)]
    · refine blk_frame _ _ _ _ _ (fun x hx1 hx2 => ?_)
        (tag2_blk st.mem (hp + sp) E 0 hE8 hEm (by omega) (by omega))
      rw [PUT_other _ _ _ _ (by simp only at hx2; omega)]
  have hepi1 : GET (PUT (tag2 st.mem (hp + sp) E 0) (hp + sp + E) 1) (hp + sp + E + total []) = 1 := by
    simp only [total, Nat.add_zero]
    rw [GET_PUT_same]
  obtain ⟨c1, c2, c3, c4, c5, c6⟩ :=
    coalesce_seg { st with brk := st.brk + E, mem := PUT (tag2 st.mem (hp + sp) E 0) (hp + sp + E) 1 }
      hp sp ap E [] hseg1 hepi1 (by simp only [total]; omega)
  rw [hm]
  refine ⟨c1, c2, c3, c4, c5, ?_, ?_⟩
  · simp only [total, Nat.add_zero] at hepi1
    exact (GET_congr _ _ _ (fun x hx1 hx2 => c6 x (by simp only [mergeNext]; omega))).trans hepi1
  · intro x hx
    rw [c6 x (Or.inl hx)]
    show PUT _ _ _ x = _
    rw [PUT_other _ _ _ _ (by split at hx <;> omega),
      tag2_other _ _ _ _ _ hE8 (by split at hx <;> omega)]

theorem find_none (m : Mem) (asize fuel h : Nat) (bs : List (Nat × Nat))
    (hseg : Seg m h bs) (hepi : GET m (h + total bs) = 1)
    (hno : ∀ b ∈ bs, ¬ fits asize b) (hf : bs.length < fuel) :
    find_space_loop m asize fuel (h + 4) = some 0 := by
  induction bs generalizing h fuel with
  | nil =>
    obtain ⟨f, rfl⟩ : ∃ f, fuel = f + 1 := ⟨fuel - 1, by simp at hf; omega⟩
    simp only [total, Nat.add_zero] at hepi
    have e0 : HEADP (h + 4) = h := by simp [HEADP, WS]
    have : SIZE m h = 0 := SIZE_of _ _ 0 1 (by simpa using hepi) rfl (le_refl _)
    simp [find_space_loop, e0, this]
  | cons b bs ih =>
    obtain ⟨f, rfl⟩ : ∃ f, fuel = f + 1 := ⟨fuel - 1, by simp at hf; omega⟩
    obtain ⟨⟨b1, b2, b3, b4, b5⟩, hrest⟩ := hseg
    have e0 : HEADP (h + 4) = h := by simp [HEADP, WS]
    have e1 : SIZE m h = b.1 := SIZE_of _ _ _ _ b4 b2 b3
    have e2 : ALLOC_BIT m h = b.2 := ALLOC_of _ _ _ _ b4 b2 b3
    have hnb : ¬ (b.2 = 0 ∧ asize ≤ b.1) := hno b (List.mem_cons_self _ _)
    have e3 : NEXT_BLP m (h + 4) = h + b.1 + 4 := by
      unfold NEXT_BLP; rw [e0, e1]; omega
    simp only [find_space_loop, e0, e1, e2, e3, ge_iff_le, hnb, if_false]
    rw [if_pos (by omega)]
    apply ih _ _ hrest
    · simpa [total, Nat.add_assoc] using hepi
    · intro c hc; exact hno c (List.mem_cons_of_mem _ hc)
    · simpa using hf

theorem find_some (m : Mem) (asize fuel h s : Nat) (pre post : List (Nat × Nat))
    (hseg : Seg m h (pre ++ (s, 0) :: post))
    (hno : ∀ b ∈ pre, ¬ fits asize b) (hfit : asize ≤ s) (hf : pre.length < fuel) :
    find_space_loop m asize fuel (h + 4) = some (h + total pre + 4) := by
  induction pre generalizing h fuel with
  | nil =>
    obtain ⟨f, rfl⟩ : ∃ f, fuel = f + 1 := ⟨fuel - 1, by simp at hf; omega⟩
    obtain ⟨⟨b1, b2, b3, b4, b5⟩, hrest⟩ := hseg
    simp only at b1 b2 b3 b4 b5
    have e0 : HEADP (h + 4) = h := by simp [HEADP, WS]
    have e1 : SIZE m h = s := SIZE_of _ _ _ _ b4 b2 b3
    have e2 : ALLOC_BIT m h = 0 := ALLOC_of _ _ _ _ b4 b2 b3
    simp only [find_space_loop, e0, e1, e2, total, Nat.add_zero]
    rw [if_pos (by omega)]
    simp [hfit]
  | cons b bs ih =>
    obtain ⟨f, rfl⟩ : ∃ f, fuel = f + 1 := ⟨fuel - 1, by simp at hf; omega⟩
    obtain ⟨⟨b1, b2, b3, b4, b5⟩, hrest⟩ := hseg
    have e0 : HEADP (h + 4) = h := by simp [HEADP, WS]
    have e1 : SIZE m h = b.1 := SIZE_of _ _ _ _ b4 b2 b3
    have e2 : ALLOC_BIT m h = b.2 := ALLOC_of _ _ _ _ b4 b2 b3
    have hnb : ¬ (b.2 = 0 ∧ asize ≤ b.1) := hno b (List.mem_cons_self _ _)
    have e3 : NEXT_BLP m (h + 4) = h + b.1 + 4 := by
      unfold NEXT_BLP; rw [e0, e1]; omega
    simp only [find_space_loop, e0, e1, e2, e3, ge_iff_le, hnb, if_false]
    rw [if_pos (by omega)]
    rw [ih f (h + b.1) hrest (fun c hc => hno c (List.mem_cons_of_mem _ hc)) (by simpa using hf)]
    simp only [total, Nat.add_assoc]

theorem heap_walk_seg (m : Mem) (fuel h : Nat) (bs : List (Nat × Nat))
    (hseg : Seg m h bs) (hepi : GET m (h + total bs) = 1) (hf : bs.length < fuel) :
    heap_walk m fuel (h + 4) = some (layout h bs, h + total bs + 4) := by
  induction bs generalizing h fuel with
  | nil =>
    obtain ⟨f, rfl⟩ : ∃ f, fuel = f + 1 := ⟨fuel - 1, by simp at hf; omega⟩
    simp only [total, Nat.add_zero] at hepi
    have e0 : HEADP (h + 4) = h := by simp [HEADP, WS]
    have : SIZE m h = 0 := SIZE_of _ _ 0 1 (by simpa using hepi) rfl (le_refl _)
    simp [heap_walk, e0, this, layout, total]
  | cons b bs ih =>
    obtain ⟨f, rfl⟩ : ∃ f, fuel = f + 1 := ⟨fuel - 1, by simp at hf; omega⟩
    obtain ⟨⟨b1, b2, b3, b4, b5⟩, hrest⟩ := hseg
    have e0 : HEADP (h + 4) = h := by simp [HEADP, WS]
    have e1 : SIZE m h = b.1 := SIZE_of _ _ _ _ b4 b2 b3
    have e2 : ALLOC_BIT m h = b.2 := ALLOC_of _ _ _ _ b4 b2 b3
    have e3 : NEXT_BLP m (h + 4) = h + b.1 + 4 := by
      unfold NEXT_BLP; rw [e0, e1]; omega
    simp only [heap_walk, e0, e1, e2, e3]
    rw [if_pos (by omega), ih f (h + b.1) hrest (by simpa [total, Nat.add_assoc] using hepi)
      (by simpa using hf)]
    simp only [layout, total, Nat.add_assoc]

/-! ## Live pointers and adjacency on block lists -/

theorem allocPtrs_append (h : Nat) (xs ys : List (Nat × Nat)) :
    allocPtrs h (xs ++ ys) = allocPtrs h xs ++ allocPtrs (h + total xs) ys := by
  induction xs generalizing h with
  | nil => simp [allocPtrs, total]
  | cons b xs ih =>
    show allocPtrs h (b :: (xs ++ ys)) = _
    simp only [allocPtrs, total, ih, Nat.add_assoc]
    split <;> simp

theorem allocPtrs_bounds (m : Mem) (h : Nat) (bs : List (Nat × Nat)) (hs : Seg m h bs) (p : Nat)
    (hp : p ∈ allocPtrs h bs) : h + 4 ≤ p ∧ p + 4 ≤ h + total bs := by
  induction bs generalizing h with
  | nil => simp [allocPtrs] at hp
  | cons b bs ih =>
    obtain ⟨hb, hr⟩ := hs
    have hb1 := hb.1
    have hl := seg_length_le m _ bs hr
    simp only [allocPtrs] at hp
    simp only [total]
    by_cases h1 : b.2 = 1
    · rw [if_pos h1] at hp
      rcases List.mem_cons.1 hp with rfl | hp
      · omega
      · have := ih _ hr hp; omega
    · rw [if_neg h1] at hp
      have := ih _ hr hp; omega

theorem allocPtrs_split (h : Nat) (bs : List (Nat × Nat)) (p : Nat) (hp : p ∈ allocPtrs h bs) :
    ∃ pre s post, bs = pre ++ (s, 1) :: post ∧ p = h + total pre + 4 := by
  induction bs generalizing h with
  | nil => simp [allocPtrs] at hp
  | cons b bs ih =>
    simp only [allocPtrs] at hp
    have key : p ∈ allocPtrs (h + b.1) bs →
        ∃ pre s post, b :: bs = pre ++ (s, 1) :: post ∧ p = h + total pre + 4 := by
      intro hp
      obtain ⟨pre, s, post, e1, e2⟩ := ih _ hp
      exact ⟨b :: pre, s, post, by rw [e1]; rfl, by simp only [total]; omega⟩
    by_cases h1 : b.2 = 1
    · rw [if_pos h1] at hp
      rcases List.mem_cons.1 hp with rfl | hp
      · exact ⟨[], b.1, bs, by rw [← h1]; rfl, by simp [total]⟩
      · exact key hp
    · rw [if_neg h1] at hp
      exact key hp

theorem naf_split (xs : List (Nat × Nat)) (y : Nat × Nat) (ys : List (Nat × Nat)) :
    NoAdjFree (xs ++ y :: ys) ↔ NoAdjFree (xs ++ [y]) ∧ NoAdjFree (y :: ys) :=
  List.chain'_split

theorem naf_cons2 (x y : Nat × Nat) (ys : List (Nat × Nat)) :
    NoAdjFree (x :: y :: ys) ↔ ¬ (x.2 = 0 ∧ y.2 = 0) ∧ NoAdjFree (y :: ys) :=
  List.chain'_cons

theorem naf_single (x : Nat × Nat) : NoAdjFree [x] := List.chain'_singleton x

theorem naf_tail (x : Nat × Nat) (ys : List (Nat × Nat)) (h : NoAdjFree (x :: ys)) :
    NoAdjFree ys := List.Chain'.tail h

/-- Prepending an allocated block keeps the property. -/
theorem naf_cons_alloc (x : Nat × Nat) (ys : List (Nat × Nat)) (hx : x.2 ≠ 0)
    (h : NoAdjFree ys) : NoAdjFree (x :: ys) := by
  cases ys with
  | nil => exact naf_single x
  | cons y ys => exact (naf_cons2 x y ys).2 ⟨fun h => hx h.1, h⟩

/-- Appending after an allocated last block keeps the property. -/
theorem naf_snoc_alloc (xs : List (Nat × Nat)) (x y : Nat × Nat) (hx : x.2 ≠ 0 ∨ y.2 ≠ 0)
    (h : NoAdjFree (xs ++ [x])) : NoAdjFree (xs ++ [x, y]) := by
  have : xs ++ [x, y] = xs ++ x :: [y] := rfl
  rw [this, naf_split]
  exact ⟨h, (naf_cons2 x y []).2 ⟨fun h => by omega, naf_single y⟩⟩

theorem naf_split_block (pre post : List (Nat × Nat)) (s asize : Nat)
    (h : NoAdjFree (pre ++ (s, 0) :: post)) : NoAdjFree (pre ++ split s asize ++ post) := by
  rw [naf_split] at h
  obtain ⟨h1, h2⟩ := h
  have hpre : ∀ a : Nat, NoAdjFree (pre ++ [(a, 1)]) := by
    intro a
    rcases List.eq_nil_or_concat pre with rfl | ⟨pre1, x, rfl⟩
    · exact naf_single _
    · rw [List.concat_eq_append, List.append_assoc] at h1 ⊢
      rw [show [x] ++ [(a, 1)] = x :: [(a, 1)] from rfl, naf_split]
      rw [show [x] ++ [(s, 0)] = x :: [(s, 0)] from rfl, naf_split] at h1
      exact ⟨h1.1, (naf_cons2 _ _ _).2 ⟨by simp, naf_single _⟩⟩
  have hpost : ∀ a : Nat, NoAdjFree ((a, 0) :: post) := by
    intro a
    cases post with
    | nil => exact naf_single _
    | cons y ys =>
      rw [naf_cons2] at h2 ⊢
      exact h2
  unfold split
  split
  · rw [List.append_assoc]
    show NoAdjFree (pre ++ (s, 1) :: post)
    rw [naf_split]
    exact ⟨hpre s, naf_cons_alloc _ _ (by simp) (naf_tail _ _ h2)⟩
  · rw [List.append_assoc]
    show NoAdjFree (pre ++ (asize, 1) :: (s - asize, 0) :: post)
    rw [naf_split]
    exact ⟨hpre asize, naf_cons_alloc _ _ (by simp) (hpost _)⟩

theorem naf_merge (pre post : List (Nat × Nat)) (sp ap s : Nat)
    (h1 : NoAdjFree (pre ++ [(sp, ap)])) (h2 : NoAdjFree post) :
    NoAdjFree (pre ++ merge sp ap s post) := by
  -- the merged free block and what follows it
  have hnext : ∀ a : Nat, NoAdjFree ((a + (mergeNext s post).1, 0) :: (mergeNext s post).2) ∧
      NoAdjFree (((mergeNext s post).1, 0) :: (mergeNext s post).2) := by
    intro a
    cases post with
    | nil => exact ⟨naf_single _, naf_single _⟩
    | cons y ys =>
      by_cases hy : y.2 = 0
      · simp only [mergeNext, hy, if_true]
        cases ys with
        | nil => exact ⟨naf_single _, naf_single _⟩
        | cons z zs =>
          rw [naf_cons2] at h2
          have hz : ¬ ((0 : Nat) = 0 ∧ z.2 = 0) := by
            intro hh; exact h2.1 ⟨hy, hh.2⟩
          exact ⟨(naf_cons2 _ _ _).2 ⟨hz, h2.2⟩, (naf_cons2 _ _ _).2 ⟨hz, h2.2⟩⟩
      · simp only [mergeNext, hy, if_false]
        exact ⟨(naf_cons2 _ _ _).2 ⟨fun hh => hy hh.2, h2⟩,
          (naf_cons2 _ _ _).2 ⟨fun hh => hy hh.2, h2⟩⟩
  have hpre : ∀ a : Nat, NoAdjFree (pre ++ [(a, ap)]) := by
    intro a
    rcases List.eq_nil_or_concat pre with rfl | ⟨pre1, x, rfl⟩
    · exact naf_single _
    · rw [List.concat_eq_append, List.append_assoc] at h1 ⊢
      rw [show [x] ++ [(a, ap)] = x :: [(a, ap)] from rfl, naf_split]
      rw [show [x] ++ [(sp, ap)] = x :: [(sp, ap)] from rfl, naf_split] at h1
      exact ⟨h1.1, (naf_cons2 _ _ _).2 ⟨((naf_cons2 _ _ _).1 h1.2).1, naf_single _⟩⟩
  unfold merge
  by_cases hap : ap = 0
  · rw [if_pos hap, naf_split]
    subst hap
    exact ⟨hpre _, (hnext sp).1⟩
  · rw [if_neg hap, naf_split]
    exact ⟨hpre _, naf_cons_alloc _ _ hap (hnext 0).2⟩

/-! ## The heap invariant -/

theorem adjust_small (size : Nat) (h : size ≤ 8) : adjust size = 16 := by
  simp [adjust, DS, h]

theorem adjust_large (size : Nat) (h : 8 < size) (hlt : size < 2147483648) :
    adjust size = (size + 15) / 8 * 8 := by
  have h1 : ¬ size ≤ DS := by simp only [DS]; omega
  have h2 : (size + DS) % WORD = size + 8 := by simp only [DS, WORD]; omega
  have h3 : (size + 8 + (ALIGNMENT - 1)) % WORD = size + 15 := by
    simp only [ALIGNMENT, WORD]; omega
  unfold adjust
  rw [if_neg h1, h2]
  unfold ALIGN
  rw [h3, mask_eq _ (by omega)]

theorem adjust_facts (size : Nat) (hlt : size < 2147483648) :
    adjust size % 8 = 0 ∧ 16 ≤ adjust size ∧ adjust size < 2147483648 + 16 ∧
      size + 8 ≤ adjust size := by
  by_cases h : size ≤ 8
  · rw [adjust_small size h]; omega
  · rw [adjust_large size (by omega) hlt]; omega

/-- Every handed-out pointer names an allocated block that has a predecessor. -/
theorem live_split (base : Nat) (st : State) (F : List (Nat × Nat)) (L : List Nat)
    (I : Inv base st F L) (p : Nat) (hp : p ∈ L) :
    ∃ pre sp ap s post, F = pre ++ (sp, ap) :: (s, 1) :: post ∧
      p = base + 4 + total pre + sp + 4 := by
  obtain ⟨h1, h2⟩ := (I.live p).1 hp
  obtain ⟨pre, s, post, e1, e2⟩ := allocPtrs_split _ _ _ h1
  rcases List.eq_nil_or_concat pre with rfl | ⟨pre1, x, rfl⟩
  · simp only [total] at e2; omega
  · refine ⟨pre1, x.1, x.2, s, post, ?_, ?_⟩
    · rw [e1, List.concat_eq_append, List.append_assoc]; rfl
    · rw [e2, List.concat_eq_append, total_append]; simp only [total]; omega

theorem head_of_split (bs pre X : List (Nat × Nat)) (x : Nat × Nat)
    (h : (8, 1) :: bs = pre ++ x :: X) (hx : x.2 = 1 → pre ≠ []) :
    ∃ pre1, pre = (8, 1) :: pre1 := by
  cases pre with
  | nil =>
    simp only [List.nil_append, List.cons.injEq] at h
    have : x.2 = 1 := by rw [← h.1]
    exact absurd rfl (hx this)
  | cons y ys =>
    simp only [List.cons_append, List.cons.injEq] at h
    exact ⟨ys, by rw [h.1]⟩

theorem allocPtrs_mergeNext (h s : Nat) (post : List (Nat × Nat)) :
    allocPtrs (h + (mergeNext s post).1) (mergeNext s post).2 = allocPtrs (h + s) post := by
  cases post with
  | nil => rfl
  | cons b post =>
    by_cases hb : b.2 = 0
    · have hb1 : ¬ b.2 = 1 := by omega
      have z : ¬ (0 : Nat) = 1 := by omega
      simp only [mergeNext, hb, if_true, allocPtrs, hb1, z, if_false, Nat.add_assoc]
    · simp only [mergeNext, hb, if_false]

theorem allocPtrs_merge (h sp ap s : Nat) (post : List (Nat × Nat)) :
    allocPtrs h (merge sp ap s post) =
      (if ap = 1 then [h + 4] else []) ++ allocPtrs (h + sp + s) post := by
  have e := allocPtrs_mergeNext (h + sp) s post
  unfold merge
  by_cases h0 : ap = 0
  · have h1 : ¬ ap = 1 := by omega
    have z : ¬ (0 : Nat) = 1 := by omega
    rw [if_pos h0, if_neg h1]
    simp only [allocPtrs, z, if_false, List.nil_append]
    rw [← e, Nat.add_assoc]
  · rw [if_neg h0]
    have z : ¬ (0 : Nat) = 1 := by omega
    by_cases h1 : ap = 1
    · simp only [allocPtrs, h1, if_true, z, if_false, List.singleton_append, e]
    · simp only [allocPtrs, h1, if_false, z, List.nil_append, e]

theorem allocPtrs_split_block (h s asize : Nat) (hle : asize ≤ s) (post : List (Nat × Nat)) :
    allocPtrs h (split s asize ++ post) = (h + 4) :: allocPtrs (h + s) post := by
  unfold split
  have z : ¬ (0 : Nat) = 1 := by omega
  split
  · show allocPtrs h ((s, 1) :: post) = _
    simp only [allocPtrs, if_true]
  · show allocPtrs h ((asize, 1) :: (s - asize, 0) :: post) = _
    simp only [allocPtrs, if_true, z, if_false, Nat.add_assoc]
    rw [Nat.add_sub_cancel' hle]

theorem mem_merge_min16 (sp ap s : Nat) (post : List (Nat × Nat)) (h16 : 16 ≤ s)
    (hpost : ∀ b ∈ post, 16 ≤ b.1) (b : Nat × Nat) (hb : b ∈ merge sp ap s post) :
    b = (sp, ap) ∨ 16 ≤ b.1 := by
  have h1 : 16 ≤ (mergeNext s post).1 ∧ ∀ c ∈ (mergeNext s post).2, 16 ≤ c.1 := by
    cases post with
    | nil => exact ⟨h16, by simp [mergeNext]⟩
    | cons y ys =>
      by_cases hy : y.2 = 0
      · simp only [mergeNext, hy, if_true]
        exact ⟨by omega, fun c hc => hpost c (List.mem_cons_of_mem _ hc)⟩
      · simp only [mergeNext, hy, if_false]
        exact ⟨h16, hpost⟩
  unfold merge at hb
  split at hb
  · rcases List.mem_cons.1 hb with rfl | hb
    · right; simp only; omega
    · right; exact h1.2 b hb
  · rcases List.mem_cons.1 hb with rfl | hb
    · left; rfl
    · rcases List.mem_cons.1 hb with rfl | hb
      · right; exact h1.1
      · right; exact h1.2 b hb

/-! ## Release preserves the invariant -/

theorem mem_logic (A B C D E : Prop) (hA : A → ¬ C) (hB : B → ¬ C) (hD : D → ¬ C) :
    (¬ C ∧ (A ∨ B ∨ C ∨ D) ∧ E) ↔ ((A ∨ B ∨ D) ∧ E) := by
  tauto

theorem free_spec (base : Nat) (st : State) (L : List Nat)
    (pre : List (Nat × Nat)) (sp ap s : Nat) (post : List (Nat × Nat))
    (I : Inv base st (pre ++ (sp, ap) :: (s, 1) :: post) L) :
    Inv base (mm_free st (base + 4 + total pre + sp + 4)) (pre ++ merge sp ap s post)
      (L.erase (base + 4 + total pre + sp + 4)) ∧
    (mm_free st (base + 4 + total pre + sp + 4)).brk = st.brk ∧
    ∀ x, x < base + 4 + total pre + (if ap = 0 then 0 else sp) ∨
        base + 4 + total pre + sp + (mergeNext s post).1 ≤ x →
      (mm_free st (base + 4 + total pre + sp + 4)).mem x = st.mem x := by
  have hseg := (seg_append _ _ _ _).1 I.seg
  obtain ⟨hs1, hs2⟩ := hseg
  have htot : total (pre ++ (sp, ap) :: (s, 1) :: post) = total pre + sp + s + total post := by
    rw [total_append]; simp only [total]; omega
  have hepi := I.epi
  have hbrk := I.brk
  rw [htot] at hepi hbrk
  have hepi' : GET st.mem (base + 4 + total pre + sp + s + total post) = 1 := by
    rw [← hepi]; congr 1; omega
  have hmax := I.max_lt
  have hle := I.le_max
  obtain ⟨c1, c2, c3, c4, c5, c6⟩ := mm_free_seg st (base + 4 + total pre) sp ap s post hs2 hepi'
    (by omega)
  have hP := hs2.1
  have hB := hs2.2.1
  have hsp8 : 8 ≤ sp := hP.1
  have hap1 : ap ≤ 1 := hP.2.2.1
  have hs8 : 8 ≤ s := hB.1
  have hframe : ∀ x, x < base + 4 + total pre + (if ap = 0 then 0 else sp) ∨
        base + 4 + total pre + sp + (mergeNext s post).1 ≤ x →
      (mm_free st (base + 4 + total pre + sp + 4)).mem x = st.mem x := by
    intro x hx
    apply c6
    split at hx <;> rename_i h0
    · rw [if_pos h0]; omega
    · rw [if_neg h0]; omega
  refine ⟨?_, c1, hframe⟩
  have htot' : total (pre ++ merge sp ap s post) = total pre + sp + s + total post := by
    rw [total_append, total_merge]; omega
  -- the predecessor is the prologue or a proper block
  obtain ⟨bs, hbs⟩ := I.head
  have hpre : (pre = [] ∧ sp = 8 ∧ ap = 1) ∨ ∃ pre1, pre = (8, 1) :: pre1 := by
    cases pre with
    | nil =>
      simp only [List.nil_append, List.cons.injEq, Prod.mk.injEq] at hbs
      exact Or.inl ⟨rfl, hbs.1.1, hbs.1.2⟩
    | cons y ys =>
      simp only [List.cons_append, List.cons.injEq] at hbs
      exact Or.inr ⟨ys, by rw [hbs.1]⟩
  have hmin := I.min16
  have hs16 : 16 ≤ s := by
    rcases hpre with ⟨rfl, -, -⟩ | ⟨pre1, rfl⟩
    · exact hmin (s, 1) (by simp)
    · exact hmin (s, 1) (by simp)
  have hpost16 : ∀ b ∈ post, 16 ≤ b.1 := by
    intro b hb
    rcases hpre with ⟨rfl, -, -⟩ | ⟨pre1, rfl⟩
    · exact hmin b (by simp [hb])
    · exact hmin b (by simp [hb])
  refine ⟨c3.trans I.hl, ?_, ?_, ?_, ?_, ?_, ?_, ?_, ?_, ?_, ?_⟩
  · rcases hpre with ⟨rfl, rfl, rfl⟩ | ⟨pre1, rfl⟩
    · refine ⟨((mergeNext s post).1, 0) :: (mergeNext s post).2, ?_⟩
      simp [merge]
    · exact ⟨_, List.cons_append _ _ _⟩
  · rw [seg_append]
    refine ⟨seg_frame _ _ _ _ (fun x hx1 hx2 => hframe x (Or.inl (by omega))) hs1, c4⟩
  · rw [htot', ← c5]; congr 1; omega
  · rw [htot', c1, hbrk]
  · rw [c1, c2]; exact hle
  · rw [c2]; exact hmax
  · intro b hb
    rcases hpre with ⟨rfl, rfl, rfl⟩ | ⟨pre1, rfl⟩
    · simp only [merge, one_ne_zero, if_false, List.nil_append, List.tail_cons] at hb
      have := mem_merge_min16 8 1 s post hs16 hpost16 b
        (by simp only [merge, one_ne_zero, if_false]; exact List.mem_cons_of_mem _ hb)
      rcases List.mem_cons.1 hb with rfl | hb2
      · rcases this with h | h
        · simp only [Prod.mk.injEq] at h; omega
        · exact h
      · cases post with
        | nil => simp [mergeNext] at hb2
        | cons y ys =>
          by_cases hy : y.2 = 0
          · simp only [mergeNext, hy, if_true] at hb2
            exact hpost16 b (List.mem_cons_of_mem _ hb2)
          · simp only [mergeNext, hy, if_false] at hb2
            exact hpost16 b hb2
    · simp only [List.cons_append, List.tail_cons] at hb hmin
      rcases List.mem_append.1 hb with hb | hb
      · exact hmin b (List.mem_append_left _ hb)
      · rcases mem_merge_min16 sp ap s post hs16 hpost16 b hb with h | h
        · rw [h]; exact hmin (sp, ap) (by simp)
        · exact h
  · have hn := I.naf
    rw [naf_split] at hn
    refine naf_merge pre post sp ap s hn.1 ?_
    exact naf_tail _ _ (naf_tail _ _ hn.2)
  · exact I.nodup.erase _
  · intro q
    rw [I.nodup.mem_erase_iff, I.live q, allocPtrs_append, allocPtrs_append, allocPtrs_merge]
    have hb1 := fun q hq => allocPtrs_bounds st.mem (base + 4) pre hs1 q hq
    have hb2 := fun q hq => allocPtrs_bounds st.mem _ post hs2.2.2 q hq
    simp only at hb2
    have e : allocPtrs (base + 4 + total pre) ((sp, ap) :: (s, 1) :: post) =
        (if ap = 1 then [base + 4 + total pre + 4] else []) ++
          (base + 4 + total pre + sp + 4) :: allocPtrs (base + 4 + total pre + sp + s) post := by
      simp only [allocPtrs, if_true]
      split <;> simp
    rw [e]
    simp only [List.mem_append, List.mem_cons]
    have hA : q ∈ allocPtrs (base + 4) pre → q ≠ base + 4 + total pre + sp + 4 := by
      intro h; have := hb1 q h; omega
    have hB : q ∈ (if ap = 1 then [base + 4 + total pre + 4] else []) →
        q ≠ base + 4 + total pre + sp + 4 := by
      intro h
      split at h
      · simp only [List.mem_singleton] at h; omega
      · simp at h
    have hD : q ∈ allocPtrs (base + 4 + total pre + sp + s) post →
        q ≠ base + 4 + total pre + sp + 4 := by
      intro h; have := hb2 q h; omega
    exact mem_logic _ _ _ _ _ hA hB hD

/-! ## Installing a block preserves the invariant -/

theorem mem_logic2 (A C D E : Prop) (hC : C → E) :
    (C ∨ (A ∨ D) ∧ E) ↔ ((A ∨ C ∨ D) ∧ E) := by
  tauto

theorem insert_inv (base : Nat) (st : State) (L : List Nat)
    (pre : List (Nat × Nat)) (s : Nat) (post : List (Nat × Nat)) (asize : Nat)
    (I : Inv base st (pre ++ (s, 0) :: post) L)
    (ha8 : asize % 8 = 0) (ha16 : 16 ≤ asize) (hle : asize ≤ s) :
    Inv base (insert st (base + 4 + total pre + 4) asize) (pre ++ split s asize ++ post)
      ((base + 4 + total pre + 4) :: L) ∧
    (insert st (base + 4 + total pre + 4) asize).brk = st.brk ∧
    ∀ x, x < base + 4 + total pre ∨ base + 4 + total pre + s ≤ x →
      (insert st (base + 4 + total pre + 4) asize).mem x = st.mem x := by
  obtain ⟨hs1, hB, hs3⟩ := (seg_append _ _ _ _).1 I.seg
  simp only at hB hs3
  have htot : total (pre ++ (s, 0) :: post) = total pre + s + total post := by
    rw [total_append]; simp only [total]; omega
  have htot' : total (pre ++ split s asize ++ post) = total pre + s + total post := by
    rw [total_append, total_append, total_split s asize hle]
  have hepi := I.epi
  have hbrk := I.brk
  rw [htot] at hepi hbrk
  obtain ⟨c1, c2, c3, c4, c6⟩ := insert_seg st (base + 4 + total pre) s asize hB ha8 ha16 hle
  refine ⟨?_, c1, c6⟩
  obtain ⟨bs, hbs⟩ := I.head
  obtain ⟨pre1, rfl⟩ := head_of_split bs pre post (s, 0) hbs.symm (by simp)
  have hmin := I.min16
  simp only [List.cons_append, List.tail_cons, total] at hmin
  have hs16 : 16 ≤ s := hmin (s, 0) (by simp)
  have hb1 := fun q hq => allocPtrs_bounds st.mem (base + 4) _ hs1 q hq
  have hb2 := fun q hq => allocPtrs_bounds st.mem _ post hs3 q hq
  have hz : ¬ (0 : Nat) = 1 := by omega
  have hpL : base + 4 + total ((8, 1) :: pre1) + 4 ∉ L := by
    intro hp
    have := ((I.live _).1 hp).1
    rw [allocPtrs_append] at this
    simp only [allocPtrs, hz, if_false, List.mem_append] at this hb1
    rcases this with h | h
    · have := hb1 _ h; omega
    · have := hb2 _ h; omega
  refine ⟨c3.trans I.hl, ⟨pre1 ++ split s asize ++ post, rfl⟩, ?_, ?_, ?_, ?_, ?_, ?_, ?_, ?_, ?_⟩
  · rw [List.append_assoc, seg_append, seg_append, total_split s asize hle]
    refine ⟨seg_frame _ _ _ _ (fun x hx1 hx2 => c6 x (Or.inl (by omega))) hs1, c4, ?_⟩
    exact seg_frame _ _ _ _ (fun x hx1 hx2 => c6 x (Or.inr (by omega))) hs3
  · rw [htot']
    exact (GET_congr _ _ _ (fun x hx1 hx2 => c6 x (Or.inr (by omega)))).trans hepi
  · rw [htot', c1, hbrk]
  · rw [c1, c2]; exact I.le_max
  · rw [c2]; exact I.max_lt
  · intro b hb
    simp only [List.cons_append, List.tail_cons, List.mem_append] at hb
    rcases hb with (hb | hb) | hb
    · exact hmin b (List.mem_append_left _ hb)
    · unfold split at hb
      split at hb
      · simp only [List.mem_singleton] at hb; rw [hb]; exact hs16
      · simp only [List.mem_cons, List.mem_singleton, List.not_mem_nil, or_false] at hb
        rcases hb with rfl | rfl
        · exact ha16
        · simp only; omega
    · exact hmin b (List.mem_append_right _ (List.mem_cons_of_mem _ hb))
  · exact naf_split_block _ _ _ _ I.naf
  · exact List.nodup_cons.2 ⟨hpL, I.nodup⟩
  · intro q
    rw [List.mem_cons, I.live q, List.append_assoc, allocPtrs_append, allocPtrs_append,
      allocPtrs_split_block _ _ _ hle]
    simp only [allocPtrs, hz, if_false, List.mem_append, List.mem_cons]
    refine mem_logic2 _ _ _ _ ?_
    intro h
    simp only [total] at h
    omega

/-! ## Growing the heap preserves the invariant -/

theorem extend_inv (base : Nat) (st : State) (L : List Nat)
    (pre : List (Nat × Nat)) (sp ap words E : Nat)
    (I : Inv base st (pre ++ [(sp, ap)]) L)
    (hE : (if words % 2 = 0 then (words * WS) % WORD else ((words + 1) * WS) % WORD) = E)
    (hE16 : 16 ≤ E) (hEm : E % 8 = 0) (hok : st.brk + E ≤ st.mem_max) :
    Inv base (extend_heap st words).2 (pre ++ merge sp ap E []) L ∧
    (extend_heap st words).1 = (base + 4 + total pre + (if ap = 0 then 0 else sp) + 4) ∧
    (extend_heap st words).2.brk = st.brk + E ∧
    ∀ x, x < base + 4 + total pre + (if ap = 0 then 0 else sp) →
      (extend_heap st words).2.mem x = st.mem x := by
  obtain ⟨hs1, hs2⟩ := (seg_append _ _ _ _).1 I.seg
  have htot : total (pre ++ [(sp, ap)]) = total pre + sp := by
    rw [total_append]; simp only [total]; omega
  have htot' : total (pre ++ merge sp ap E []) = total pre + sp + E := by
    rw [total_append, total_merge]; simp only [total]; omega
  have hbrk := I.brk
  rw [htot] at hbrk
  obtain ⟨c1, c2, c3, c4, c5, c6, c7⟩ := extend_heap_seg st (base + 4 + total pre) sp ap words E hE
    (by omega) hEm hs2 (by omega) hok I.max_lt
  have hframe : ∀ x, x < base + 4 + total pre + (if ap = 0 then 0 else sp) →
      (extend_heap st words).2.mem x = st.mem x := by
    intro x hx
    apply c7
    split at hx <;> rename_i h0
    · rw [if_pos h0]; omega
    · rw [if_neg h0]; omega
  refine ⟨?_, ?_, c2, hframe⟩
  swap
  · rw [c1]; split <;> omega
  obtain ⟨bs, hbs⟩ := I.head
  have hpre : (pre = [] ∧ sp = 8 ∧ ap = 1) ∨ ∃ pre1, pre = (8, 1) :: pre1 := by
    cases pre with
    | nil =>
      simp only [List.nil_append, List.cons.injEq, Prod.mk.injEq] at hbs
      exact Or.inl ⟨rfl, hbs.1.1, hbs.1.2⟩
    | cons y ys =>
      simp only [List.cons_append, List.cons.injEq] at hbs
      exact Or.inr ⟨ys, by rw [hbs.1]⟩
  have hmin := I.min16
  refine ⟨c4.trans I.hl, ?_, ?_, ?_, ?_, ?_, ?_, ?_, ?_, I.nodup, ?_⟩
  · rcases hpre with ⟨rfl, rfl, rfl⟩ | ⟨pre1, rfl⟩
    · refine ⟨((mergeNext E []).1, 0) :: (mergeNext E []).2, ?_⟩
      simp [merge]
    · exact ⟨_, List.cons_append _ _ _⟩
  · rw [seg_append]
    exact ⟨seg_frame _ _ _ _ (fun x hx1 hx2 => hframe x (by omega)) hs1, c5⟩
  · rw [htot', ← c6]; congr 1; omega
  · rw [htot', c2, hbrk]; omega
  · rw [c2, c3]; exact hok
  · rw [c3]; exact I.max_lt
  · intro b hb
    rcases hpre with ⟨rfl, rfl, rfl⟩ | ⟨pre1, rfl⟩
    · simp [merge, mergeNext] at hb
      rw [hb]; exact hE16
    · simp only [List.cons_append, List.tail_cons] at hb hmin
      rcases List.mem_append.1 hb with hb | hb
      · exact hmin b (List.mem_append_left _ hb)
      · rcases mem_merge_min16 sp ap E [] hE16 (by simp) b hb with h | h
        · rw [h]; exact hmin (sp, ap) (by simp)
        · exact h
  · exact naf_merge pre [] sp ap E I.naf List.chain'_nil
  · intro q
    rw [I.live q, allocPtrs_append, allocPtrs_append, allocPtrs_merge]
    simp only [allocPtrs, List.append_nil]

/-! ## `mm_malloc` on a heap that satisfies the invariant -/

theorem growSize_facts (asize : Nat) (h8 : asize % 8 = 0) (hlt : asize < 2147483648 + 16) :
    growSize asize % 8 = 0 ∧ 256 ≤ growSize asize ∧ asize ≤ growSize asize ∧
    (if (growSize asize / WS) % 2 = 0 then (growSize asize / WS * WS) % WORD
      else ((growSize asize / WS + 1) * WS) % WORD) = growSize asize := by
  have h1 : growSize asize % 8 = 0 ∧ 256 ≤ growSize asize ∧ asize ≤ growSize asize ∧
      growSize asize < 2147483648 + 16 := by
    unfold growSize CHUNKSIZE; split <;> omega
  refine ⟨h1.1, h1.2.1, h1.2.2.1, ?_⟩
  generalize growSize asize = E at h1
  simp only [WS, WORD]
  rw [if_pos (by omega)]
  omega

theorem first_fit_split (asize : Nat) (F : List (Nat × Nat)) (h : ∃ b ∈ F, fits asize b) :
    ∃ pre s post, F = pre ++ (s, 0) :: post ∧ (∀ b ∈ pre, ¬ fits asize b) ∧ asize ≤ s := by
  induction F with
  | nil => simp at h
  | cons b bs ih =>
    by_cases hb : fits asize b
    · refine ⟨[], b.1, bs, ?_, by simp, hb.2⟩
      rw [← hb.1]; rfl
    · obtain ⟨c, hc, hfc⟩ := h
      have hc' : c ∈ bs := by
        rcases List.mem_cons.1 hc with rfl | h
        · exact absurd hfc hb
        · exact h
      obtain ⟨pre, s, post, e1, e2, e3⟩ := ih ⟨c, hc', hfc⟩
      refine ⟨b :: pre, s, post, by rw [e1]; rfl, ?_, e3⟩
      intro d hd
      rcases List.mem_cons.1 hd with rfl | h
      · exact hb
      · exact e2 d h

theorem inv_fuel (base : Nat) (st : State) (F : List (Nat × Nat)) (L : List Nat)
    (I : Inv base st F L) : F.length < st.brk := by
  have := seg_length_le _ _ _ I.seg
  have := I.brk
  omega

theorem malloc_fit (base : Nat) (st : State) (L : List Nat)
    (pre : List (Nat × Nat)) (s : Nat) (post : List (Nat × Nat)) (fuel size : Nat)
    (I : Inv base st (pre ++ (s, 0) :: post) L) (hsize : size ≠ 0)
    (hno : ∀ b ∈ pre, ¬ fits (adjust size) b) (hfit : adjust size ≤ s) (hfuel : st.brk ≤ fuel) :
    mm_malloc fuel st size = some (base + 4 + total pre + 4,
      insert st (base + 4 + total pre + 4) (adjust size)) := by
  have hf := inv_fuel _ _ _ _ I
  have hfind : find_space fuel st (adjust size) = some (base + 4 + total pre + 4) := by
    unfold find_space
    rw [I.hl]
    exact find_some st.mem (adjust size) fuel (base + 4) s pre post I.seg hno hfit
      (by simp only [List.length_append, List.length_cons] at hf; omega)
  unfold mm_malloc
  rw [if_neg hsize]
  simp only [hfind]
  rw [if_pos (by omega)]

theorem malloc_nofit (base : Nat) (st : State) (F : List (Nat × Nat)) (L : List Nat)
    (fuel size : Nat) (I : Inv base st F L) (hsize : size ≠ 0)
    (hno : ∀ b ∈ F, ¬ fits (adjust size) b) (hfuel : st.brk ≤ fuel) :
    mm_malloc fuel st size =
      (if (extend_heap st (growSize (adjust size) / WS)).1 = 0
        then some (0, (extend_heap st (growSize (adjust size) / WS)).2)
        else some ((extend_heap st (growSize (adjust size) / WS)).1,
          insert (extend_heap st (growSize (adjust size) / WS)).2
            (extend_heap st (growSize (adjust size) / WS)).1 (adjust size))) := by
  have hf := inv_fuel _ _ _ _ I
  have hfind : find_space fuel st (adjust size) = some 0 := by
    unfold find_space
    rw [I.hl]
    exact find_none st.mem (adjust size) fuel (base + 4) F I.seg I.epi hno (by omega)
  unfold mm_malloc
  rw [if_neg hsize]
  simp only [hfind, ne_eq, not_true_eq_false, if_false, growSize]

theorem malloc_fail (base : Nat) (st : State) (F : List (Nat × Nat)) (L : List Nat)
    (fuel size : Nat) (I : Inv base st F L) (hlt : size < 2147483648)
    (hno : ∀ b ∈ F, ¬ fits (adjust size) b) (hfuel : st.brk ≤ fuel)
    (hfail : st.mem_max < st.brk + growSize (adjust size)) :
    mm_malloc fuel st size = some (0, st) := by
  by_cases hsize : size = 0
  · subst hsize; rfl
  · obtain ⟨a1, a2, a3, a4⟩ := adjust_facts size hlt
    obtain ⟨g1, g2, g3, g4⟩ := growSize_facts (adjust size) a1 a3
    rw [malloc_nofit base st F L fuel size I hsize hno hfuel,
      extend_heap_fail st _ _ g4 hfail]
    rfl

theorem malloc_grow (base : Nat) (st : State) (L : List Nat)
    (pre : List (Nat × Nat)) (sp ap fuel size : Nat)
    (I : Inv base st (pre ++ [(sp, ap)]) L) (hsize : size ≠ 0) (hlt : size < 2147483648)
    (hno : ∀ b ∈ pre ++ [(sp, ap)], ¬ fits (adjust size) b) (hfuel : st.brk ≤ fuel)
    (hok : st.brk + growSize (adjust size) ≤ st.mem_max) :
    ∃ st1, mm_malloc fuel st size =
        some (base + 4 + total pre + (if ap = 0 then 0 else sp) + 4, st1) ∧
      Inv base st1
        (grownPre pre sp ap ++
          split ((if ap = 0 then sp else 0) + growSize (adjust size)) (adjust size) ++ [])
        ((base + 4 + total pre + (if ap = 0 then 0 else sp) + 4) :: L) ∧
      st1.brk = st.brk + growSize (adjust size) ∧
      ∀ x, x < base + 4 + total pre + (if ap = 0 then 0 else sp) → st1.mem x = st.mem x := by
  obtain ⟨a1, a2, a3, a4⟩ := adjust_facts size hlt
  obtain ⟨g1, g2, g3, g4⟩ := growSize_facts (adjust size) a1 a3
  obtain ⟨e1, e2, e3, e4⟩ := extend_inv base st L pre sp ap _ _ I g4 (by omega) g1 hok
  have hm := malloc_nofit base st _ L fuel size I hsize hno hfuel
  rw [e2] at hm
  rw [if_neg (by omega)] at hm
  refine ⟨_, hm, ?_⟩
  generalize growSize (adjust size) = E at *
  generalize extend_heap st (E / WS) = r at *
  by_cases h0 : ap = 0
  · subst h0
    simp only [if_true, Nat.add_zero, grownPre] at *
    have e1' : Inv base r.2 (pre ++ (sp + E, 0) :: []) L := by
      simpa [merge, mergeNext] using e1
    obtain ⟨i1, i2, i3⟩ := insert_inv base r.2 L pre (sp + E) [] (adjust size) e1' a1 a2 (by omega)
    refine ⟨i1, by rw [i2, e3], ?_⟩
    intro x hx
    rw [i3 x (Or.inl hx), e4 x hx]
  · have e1' : Inv base r.2 ((pre ++ [(sp, ap)]) ++ (E, 0) :: []) L := by
      simpa [merge, mergeNext, h0] using e1
    simp only [h0, if_false, Nat.zero_add, grownPre] at e4 ⊢
    have ht : total (pre ++ [(sp, ap)]) = total pre + sp := by
      rw [total_append]; simp [total]
    obtain ⟨i1, i2, i3⟩ := insert_inv base r.2 L (pre ++ [(sp, ap)]) E [] (adjust size) e1' a1 a2 g3
    rw [ht, ← Nat.add_assoc] at i1 i2 i3
    refine ⟨i1, by rw [i2, e3], ?_⟩
    intro x hx
    rw [i3 x (Or.inl hx), e4 x hx]

/-! ## Initialisation -/

theorem mm_init_eq (pre : State) (h : pre.brk + 16 ≤ pre.mem_max) :
    mm_init pre = (if (extend_heap (initState pre) (CHUNKSIZE / WS)).1 = 0
      then (-1, (extend_heap (initState pre) (CHUNKSIZE / WS)).2)
      else (0, (extend_heap (initState pre) (CHUNKSIZE / WS)).2)) := by
  unfold mm_init mem_sbrk
  have : pre.brk + 4 * WS ≤ pre.mem_max := by simpa [WS] using h
  rw [if_pos this]
  rfl

theorem mm_init_fail1 (pre : State) (h : pre.mem_max < pre.brk + 16) :
    mm_init pre = (-1, { pre with heap_listp := WORD - 1 }) := by
  unfold mm_init mem_sbrk
  have : ¬ pre.brk + 4 * WS ≤ pre.mem_max := by simp only [WS]; omega
  rw [if_neg this]

theorem initState_inv (pre : State) (h : pre.brk + 16 ≤ pre.mem_max)
    (hmax : pre.mem_max < 4294967296) : Inv pre.brk (initState pre) [(8, 1)] [] := by
  have hs : SUM DS 1 = 9 := by decide
  have g1 : GET (initState pre).mem (pre.brk + 4) = 9 := by
    simp only [initState, hs]
    rw [GET_PUT_other _ _ _ _ (by omega), GET_PUT_other _ _ _ _ (by omega), GET_PUT_same]
  have g2 : GET (initState pre).mem (pre.brk + 8) = 9 := by
    simp only [initState, hs]
    rw [GET_PUT_other _ _ _ _ (by omega), GET_PUT_same]
  have g3 : GET (initState pre).mem (pre.brk + 12) = 1 := by
    simp only [initState, hs]
    rw [GET_PUT_same]
  refine ⟨rfl, ⟨[], rfl⟩, ⟨⟨le_refl _, rfl, le_refl _, g1, ?_⟩, trivial⟩, ?_, ?_, ?_, hmax, ?_,
    naf_single _, List.nodup_nil, ?_⟩
  · simpa using g2
  · simpa [total] using g3
  · simp [total, initState]
  · simpa [initState] using h
  · simp
  · intro p; simp [allocPtrs]

theorem mm_init_inv (pre st : State) (hmax : pre.mem_max < 4294967296)
    (h : mm_init pre = (0, st)) :
    Inv pre.brk st [(8, 1), (256, 0)] [] ∧ st.brk = pre.brk + 272 := by
  by_cases h1 : pre.brk + 16 ≤ pre.mem_max
  · have hI := initState_inv pre h1 hmax
    have hE : (if (CHUNKSIZE / WS) % 2 = 0 then (CHUNKSIZE / WS * WS) % WORD
        else ((CHUNKSIZE / WS + 1) * WS) % WORD) = 256 := by decide
    rw [mm_init_eq pre h1] at h
    by_cases h2 : (initState pre).brk + 256 ≤ (initState pre).mem_max
    · obtain ⟨e1, e2, e3, e4⟩ := extend_inv pre.brk (initState pre) [] [] 8 1 _ 256 hI hE
        (by omega) (by omega) h2
      rw [e2, if_neg (by omega)] at h
      have hst : (extend_heap (initState pre) (CHUNKSIZE / WS)).2 = st := (Prod.mk.inj h).2
      rw [hst] at e1 e3
      refine ⟨by simpa [merge, mergeNext] using e1, ?_⟩
      rw [e3]; simp [initState]
    · rw [extend_heap_fail _ _ 256 hE (by omega)] at h
      simp at h
  · rw [mm_init_fail1 pre (by omega)] at h
    simp at h

theorem mm_init_ok (pre : State) (h : pre.brk + 272 ≤ pre.mem_max)
    (hmax : pre.mem_max < 4294967296) : (mm_init pre).1 = 0 := by
  have hI := initState_inv pre (by omega) hmax
  have hE : (if (CHUNKSIZE / WS) % 2 = 0 then (CHUNKSIZE / WS * WS) % WORD
      else ((CHUNKSIZE / WS + 1) * WS) % WORD) = 256 := by decide
  rw [mm_init_eq pre (by omega)]
  have h2 : (initState pre).brk + 256 ≤ (initState pre).mem_max := by
    simp only [initState]; omega
  obtain ⟨e1, e2, e3, e4⟩ := extend_inv pre.brk (initState pre) [] [] 8 1 _ 256 hI hE
    (by omega) (by omega) h2
  rw [e2, if_neg (by omega)]

/-! ## Writes into a payload -/

theorem inv_payload (base : Nat) (st : State) (L : List Nat) (m1 : Mem)
    (pre : List (Nat × Nat)) (s a : Nat) (post : List (Nat × Nat))
    (I : Inv base st (pre ++ (s, a) :: post) L)
    (hf : ∀ x, x < base + 4 + total pre + 4 ∨ base + 4 + total pre + s - 4 ≤ x → m1 x = st.mem x) :
    Inv base { st with mem := m1 } (pre ++ (s, a) :: post) L := by
  obtain ⟨hs1, hB, hs3⟩ := (seg_append _ _ _ _).1 I.seg
  simp only at hB hs3
  have hs8 := hB.1
  have htot : total (pre ++ (s, a) :: post) = total pre + s + total post := by
    rw [total_append]; simp only [total]; omega
  refine ⟨I.hl, I.head, ?_, ?_, I.brk, I.le_max, I.max_lt, I.min16, I.naf, I.nodup, I.live⟩
  · rw [seg_append]
    refine ⟨seg_frame _ _ _ _ (fun x hx1 hx2 => hf x (Or.inl (by omega))) hs1, ?_,
      seg_frame _ _ _ _ (fun x hx1 hx2 => hf x (Or.inr (by omega))) hs3⟩
    obtain ⟨b1, b2, b3, b4, b5⟩ := hB
    refine ⟨b1, b2, b3, ?_, ?_⟩
    · exact (GET_congr _ _ _ (fun x hx1 hx2 => hf x (Or.inl (by omega)))).trans b4
    · exact (GET_congr _ _ _ (fun x hx1 hx2 => hf x (Or.inr (by omega)))).trans b5
  · refine (GET_congr _ _ _ (fun x hx1 hx2 => hf x (Or.inr ?_))).trans I.epi
    rw [htot] at hx1; omega

/-! ## Frames: allocated blocks are left alone -/

theorem split_disjoint (pre : List (Nat × Nat)) (x : Nat × Nat) (post pre2 : List (Nat × Nat))
    (y : Nat × Nat) (post2 : List (Nat × Nat)) (h : pre ++ x :: post = pre2 ++ y :: post2) :
    (pre = pre2 ∧ x = y ∧ post = post2) ∨ total pre + x.1 ≤ total pre2 ∨
      total pre2 + y.1 ≤ total pre := by
  rcases List.append_eq_append_iff.1 h with ⟨a, h1, h2⟩ | ⟨c, h1, h2⟩
  · cases a with
    | nil =>
      simp only [List.nil_append, List.cons.injEq] at h2
      simp only [List.append_nil] at h1
      exact Or.inl ⟨h1.symm, h2.1, h2.2⟩
    | cons z zs =>
      simp only [List.cons_append, List.cons.injEq] at h2
      right; left
      rw [h1, total_append, h2.1]
      simp only [total]; omega
  · cases c with
    | nil =>
      simp only [List.nil_append, List.cons.injEq] at h2
      simp only [List.append_nil] at h1
      exact Or.inl ⟨h1, h2.1.symm, h2.2.symm⟩
    | cons z zs =>
      simp only [List.cons_append, List.cons.injEq] at h2
      right; right
      rw [h1, total_append, h2.1]
      simp only [total]; omega

theorem frame_refl (base : Nat) (F : List (Nat × Nat)) (m : Mem) : Frame base F m m :=
  fun _ _ _ _ _ _ _ => rfl

/-- A change confined to one free block is a frame. -/
theorem frame_of_free (base : Nat) (m m1 : Mem) (pre : List (Nat × Nat)) (s : Nat)
    (post : List (Nat × Nat))
    (hf : ∀ x, x < base + 4 + total pre ∨ base + 4 + total pre + s ≤ x → m1 x = m x) :
    Frame base (pre ++ (s, 0) :: post) m m1 := by
  intro X s1 Y hF x hx1 hx2
  rcases split_disjoint _ _ _ _ _ _ hF with ⟨-, h, -⟩ | h | h
  · simp at h
  · simp only at h; exact hf x (Or.inr (by omega))
  · simp only at h; exact hf x (Or.inl (by omega))

/-- A change confined to the tail of the heap from a point that leaves every
allocated block below it is a frame. -/
theorem frame_of_tail (base : Nat) (m m1 : Mem) (pre : List (Nat × Nat)) (sp ap : Nat)
    (hf : ∀ x, x < base + 4 + total pre + (if ap = 0 then 0 else sp) → m1 x = m x) :
    Frame base (pre ++ [(sp, ap)]) m m1 := by
  intro X s1 Y hF x hx1 hx2
  apply hf
  rcases split_disjoint _ _ _ _ _ _ hF with ⟨h1, h2, -⟩ | h | h
  · simp only [Prod.mk.injEq] at h2
    rw [if_neg (by omega), h1, h2.1]; exact hx2
  · have := congrArg total hF
    rw [total_append, total_append] at this
    simp only [total] at this h
    split <;> omega
  · simp only at h; omega

theorem split_head (s asize : Nat) : ∃ S R, split s asize = (S, 1) :: R ∧
    (asize ≤ s → asize ≤ S ∧ S < asize + 16 ∧ S ≤ s) := by
  unfold split
  split
  · exact ⟨s, [], rfl, fun h => by omega⟩
  · exact ⟨asize, [(s - asize, 0)], rfl, fun h => by omega⟩

theorem find_space_loop_mono (m : Mem) (size fuel fuel1 bp r : Nat) (hle : fuel ≤ fuel1)
    (h : find_space_loop m size fuel bp = some r) : find_space_loop m size fuel1 bp = some r := by
  induction fuel generalizing fuel1 bp with
  | zero => simp [find_space_loop] at h
  | succ f ih =>
    obtain ⟨g, rfl⟩ : ∃ g, fuel1 = g + 1 := ⟨fuel1 - 1, by omega⟩
    simp only [find_space_loop] at h ⊢
    split
    · rename_i h1
      rw [if_pos h1] at h
      split
      · rename_i h2
        rw [if_pos h2] at h; exact h
      · rename_i h2
        rw [if_neg h2] at h
        exact ih g _ (by omega) h
    · rename_i h1
      rw [if_neg h1] at h; exact h

theorem mm_malloc_mono (fuel fuel1 : Nat) (st : State) (size : Nat) (r : Nat × State)
    (hle : fuel ≤ fuel1) (h : mm_malloc fuel st size = some r) :
    mm_malloc fuel1 st size = some r := by
  unfold mm_malloc at h ⊢
  by_cases h0 : size = 0
  · rw [if_pos h0] at h ⊢; exact h
  · rw [if_neg h0] at h ⊢
    cases hf : find_space fuel st (adjust size) with
    | none => simp [hf] at h
    | some bp =>
      have : find_space fuel1 st (adjust size) = some bp :=
        find_space_loop_mono _ _ _ _ _ _ hle hf
      simp only [hf] at h
      simp only [this]
      exact h

/-- The general effect of `mm_malloc` on a heap that satisfies the invariant. -/
theorem malloc_inv (base : Nat) (st : State) (F : List (Nat × Nat)) (L : List Nat)
    (fuel size : Nat) (I : Inv base st F L) (hlt : size < 2147483648) (hfuel : st.brk ≤ fuel) :
    ∃ p st1 F1, mm_malloc fuel st size = some (p, st1) ∧
      Inv base st1 F1 (if p = 0 then L else p :: L) ∧ Frame base F st.mem st1.mem ∧
      (p = 0 → st1 = st) ∧
      (p ≠ 0 → ∃ G S R, F1 = G ++ (S, 1) :: R ∧ p = base + 4 + total G + 4 ∧
        adjust size ≤ S ∧ S < adjust size + 16) := by
  by_cases hsize : size = 0
  · subst hsize
    exact ⟨0, st, F, rfl, by simpa using I, frame_refl _ _ _, fun _ => rfl, fun h => absurd rfl h⟩
  obtain ⟨a1, a2, a3, a4⟩ := adjust_facts size hlt
  by_cases hfit : ∃ b ∈ F, fits (adjust size) b
  · obtain ⟨pre, s, post, rfl, hno, hle⟩ := first_fit_split _ _ hfit
    obtain ⟨i1, i2, i3⟩ := insert_inv base st L pre s post (adjust size) I a1 a2 hle
    obtain ⟨S, R, hS, hS2⟩ := split_head s (adjust size)
    refine ⟨_, _, pre ++ split s (adjust size) ++ post,
      malloc_fit base st L pre s post fuel size I hsize hno hle hfuel, ?_,
      frame_of_free _ _ _ _ _ _ i3, fun h => by omega, fun _ => ?_⟩
    · have hp0 : base + 4 + total pre + 4 ≠ 0 := by omega
      rw [if_neg hp0]; exact i1
    · refine ⟨pre, S, R ++ post, ?_, rfl, (hS2 hle).1, (hS2 hle).2.1⟩
      rw [hS, List.append_assoc]; rfl
  · have hno : ∀ b ∈ F, ¬ fits (adjust size) b := fun b hb hf => hfit ⟨b, hb, hf⟩
    by_cases hok : st.brk + growSize (adjust size) ≤ st.mem_max
    · obtain ⟨bs, hbs⟩ := I.head
      rcases List.eq_nil_or_concat F with h | ⟨pre, x, h⟩
      · rw [h] at hbs; simp at hbs
      · rw [List.concat_eq_append] at h
        obtain ⟨sp, ap⟩ := x
        subst h
        obtain ⟨st1, h1, h2, h3, h4⟩ := malloc_grow base st L pre sp ap fuel size I hsize hlt hno
          hfuel hok
        obtain ⟨g1, g2, g3, g4⟩ := growSize_facts (adjust size) a1 a3
        obtain ⟨S, R, hS, hS2⟩ := split_head ((if ap = 0 then sp else 0) + growSize (adjust size))
          (adjust size)
        have hS3 := hS2 (by omega)
        refine ⟨_, st1, grownPre pre sp ap ++
            split ((if ap = 0 then sp else 0) + growSize (adjust size)) (adjust size) ++ [],
          h1, ?_, frame_of_tail _ _ _ _ _ _ h4, fun h => by omega, fun _ => ?_⟩
        · have hp0 : (base + 4 + total pre + if ap = 0 then 0 else sp) + 4 ≠ 0 := by omega
          rw [if_neg hp0]; exact h2
        · refine ⟨grownPre pre sp ap, S, R, ?_, ?_, hS3.1, hS3.2.1⟩
          · rw [hS, List.append_nil]
          · unfold grownPre
            split
            · simp
            · rw [total_append]; simp [total]; omega
    · refine ⟨0, st, F, malloc_fail base st F L fuel size I hlt hno hfuel (by omega), ?_,
        frame_refl _ _ _, fun _ => rfl, fun h => absurd rfl h⟩
      simpa using I

theorem seg_pos (m : Mem) (h : Nat) (F : List (Nat × Nat)) (hs : Seg m h F) :
    ∀ b ∈ F, 8 ≤ b.1 := by
  induction F generalizing h with
  | nil => simp
  | cons c cs ih =>
    intro b hb
    rcases List.mem_cons.1 hb with rfl | hb
    · exact hs.1.1
    · exact ih _ hs.2 b hb

/-- The region rewritten by `mm_free` misses every other allocated block. -/
theorem free_frame (base : Nat) (m m1 : Mem) (pre : List (Nat × Nat)) (sp ap s : Nat)
    (post : List (Nat × Nat))
    (hpos : ∀ b ∈ pre ++ (sp, ap) :: (s, 1) :: post, 8 ≤ b.1)
    (hf : ∀ x, x < base + 4 + total pre + (if ap = 0 then 0 else sp) ∨
        base + 4 + total pre + sp + (mergeNext s post).1 ≤ x → m1 x = m x)
    (X : List (Nat × Nat)) (s1 : Nat) (Y : List (Nat × Nat))
    (hF : pre ++ (sp, ap) :: (s, 1) :: post = X ++ (s1, 1) :: Y)
    (hne : total X ≠ total pre + sp) :
    ∀ x, base + 4 + total X ≤ x → x < base + 4 + total X + s1 → m1 x = m x := by
  intro x hx1 hx2
  have hs1 : 8 ≤ s1 := hpos (s1, 1) (by rw [hF]; simp)
  have hsp : 8 ≤ sp := hpos (sp, ap) (by simp)
  have h1 : (pre ++ [(sp, ap)]) ++ (s, 1) :: post = X ++ (s1, 1) :: Y := by
    rw [← hF, List.append_assoc]; rfl
  have ht1 : total (pre ++ [(sp, ap)]) = total pre + sp := by
    rw [total_append]; simp [total]
  rcases split_disjoint _ _ _ _ _ _ h1 with ⟨h, -, -⟩ | h | h
  · rw [← h, ht1] at hne; exact absurd rfl hne
  · -- the block lies after the released one
    rw [ht1] at h
    simp only at h
    apply hf; right
    cases post with
    | nil => simp only [mergeNext]; omega
    | cons y ys =>
      by_cases hy : y.2 = 0
      · simp only [mergeNext, hy, if_true]
        have h2 : (pre ++ [(sp, ap), (s, 1)]) ++ y :: ys = X ++ (s1, 1) :: Y := by
          rw [← hF, List.append_assoc]; rfl
        have ht2 : total (pre ++ [(sp, ap), (s, 1)]) = total pre + sp + s := by
          rw [total_append]; simp [total]; omega
        rcases split_disjoint _ _ _ _ _ _ h2 with ⟨-, h3, -⟩ | h3 | h3
        · rw [h3] at hy; simp at hy
        · rw [ht2] at h3; omega
        · rw [ht2] at h3; simp only at h3; omega
      · simp only [mergeNext, hy, if_false]; omega
  · -- the block lies before the released one
    rw [ht1] at h
    simp only at h
    apply hf; left
    by_cases h0 : ap = 0
    · rw [if_pos h0]
      rcases split_disjoint _ _ _ _ _ _ hF with ⟨-, h3, -⟩ | h3 | h3
      · simp only [Prod.mk.injEq] at h3; omega
      · simp only at h3; omega
      · simp only at h3; omega
    · rw [if_neg h0]; omega

theorem mm_realloc_mono (fuel fuel1 : Nat) (st : State) (ptr size : Nat) (r : Nat × State)
    (hle : fuel ≤ fuel1) (h : mm_realloc fuel st ptr size = some r) :
    mm_realloc fuel1 st ptr size = some r := by
  unfold mm_realloc at h ⊢
  by_cases h0 : ptr = 0
  · rw [if_pos h0] at h ⊢; exact mm_malloc_mono _ _ _ _ _ hle h
  · rw [if_neg h0] at h ⊢
    by_cases h1 : size = 0
    · rw [if_pos h1] at h ⊢; exact h
    · rw [if_neg h1] at h ⊢
      cases hm : mm_malloc fuel st size with
      | none => simp [hm] at h
      | some r1 =>
        have := mm_malloc_mono _ _ _ _ _ hle hm
        simp only [hm] at h
        simp only [this]
        exact h

theorem mm_realloc_eq (fuel : Nat) (st : State) (p size q : Nat) (st1 : State)
    (hp : p ≠ 0) (hsize : size ≠ 0) (hm : mm_malloc fuel st size = some (q, st1)) :
    mm_realloc fuel st p size = some (q, mm_free (copied st1 q p size) p) := by
  unfold mm_realloc
  rw [if_neg hp, if_neg hsize]
  simp only [hm, copied]

theorem copied_mem (st1 : State) (q p size s : Nat) (hs : SIZE st1.mem (HEADP p) = s)
    (h8 : 8 ≤ s) (hlt : s < 4294967296) :
    (copied st1 q p size).mem = memcpy st1.mem q p (min (s - 8) size) := by
  have : (s + WORD - DS) % WORD = s - 8 := by simp only [WORD, DS]; omega
  simp only [copied, hs, this]
  by_cases h : s - 8 > size
  · rw [if_pos h, Nat.min_eq_right (by omega)]
  · rw [if_neg h, Nat.min_eq_left (by omega)]

theorem mergeNext_ge (s : Nat) (post : List (Nat × Nat)) : s ≤ (mergeNext s post).1 := by
  cases post with
  | nil => simp [mergeNext]
  | cons y ys => by_cases hy : y.2 = 0 <;> simp [mergeNext, hy]

/-- The free block that results from a merge. -/
theorem merge_free_block (pre : List (Nat × Nat)) (sp ap s : Nat) (post : List (Nat × Nat)) :
    ∃ G S R, pre ++ merge sp ap s post = G ++ (S, 0) :: R ∧
      total G = total pre + (if ap = 0 then 0 else sp) ∧
      S = (if ap = 0 then sp else 0) + (mergeNext s post).1 ∧ R = (mergeNext s post).2 := by
  unfold merge
  by_cases h0 : ap = 0
  · simp only [h0, if_true]
    exact ⟨pre, _, _, rfl, by omega, rfl, rfl⟩
  · simp only [h0, if_false]
    refine ⟨pre ++ [(sp, ap)], _, _, by rw [List.append_assoc]; rfl, ?_, by omega, rfl⟩
    rw [total_append]; simp [total]

theorem inv_blk (base : Nat) (st : State) (L : List Nat) (pre : List (Nat × Nat)) (s a : Nat)
    (post : List (Nat × Nat)) (I : Inv base st (pre ++ (s, a) :: post) L) :
    Blk st.mem (base + 4 + total pre) s a :=
  ((seg_append _ _ _ _).1 I.seg).2.1

theorem blk_reads (m : Mem) (h s a : Nat) (hb : Blk m h s a) :
    SIZE m (HEADP (h + 4)) = s ∧ ALLOC_BIT m (HEADP (h + 4)) = a ∧
    FOOTP m (h + 4) = h + s - 4 ∧ ALLOC_BIT m (FOOTP m (h + 4)) = a := by
  obtain ⟨b1, b2, b3, b4, b5⟩ := hb
  have e0 : HEADP (h + 4) = h := by simp [HEADP, WS]
  have e1 : SIZE m h = s := SIZE_of _ _ _ _ b4 b2 b3
  have e2 : FOOTP m (h + 4) = h + s - 4 := by
    unfold FOOTP; rw [e0, e1]; simp only [DS]; omega
  rw [e2, e0]
  exact ⟨e1, ALLOC_of _ _ _ _ b4 b2 b3, rfl, ALLOC_of _ _ _ _ b5 b2 b3⟩

/-! ## `mm_realloc` on a heap that satisfies the invariant -/

theorem copied_fields (st1 : State) (q p size : Nat) :
    (copied st1 q p size).brk = st1.brk ∧ (copied st1 q p size).mem_max = st1.mem_max ∧
      (copied st1 q p size).heap_listp = st1.heap_listp := by
  unfold copied; exact ⟨rfl, rfl, rfl⟩

theorem inv_payload_st (base : Nat) (st st2 : State) (L : List Nat)
    (pre : List (Nat × Nat)) (s a : Nat) (post : List (Nat × Nat))
    (I : Inv base st (pre ++ (s, a) :: post) L)
    (hb : st2.brk = st.brk) (hm : st2.mem_max = st.mem_max) (hl : st2.heap_listp = st.heap_listp)
    (hf : ∀ x, x < base + 4 + total pre + 4 ∨ base + 4 + total pre + s - 4 ≤ x →
      st2.mem x = st.mem x) :
    Inv base st2 (pre ++ (s, a) :: post) L := by
  have := inv_payload base st L st2.mem pre s a post I hf
  have e : st2 = { st with mem := st2.mem } := by
    cases st2; cases st; simp only at hb hm hl; simp only [hb, hm, hl]
  rw [e]; exact this

theorem memcpy_other (m : Mem) (dst src n x : Nat) (h : x < dst ∨ dst + n ≤ x) :
    memcpy m dst src n x = m x := by
  have : ¬ (dst ≤ x ∧ x < dst + n) := by omega
  simp only [memcpy, this, if_false]

theorem memcpy_in (m : Mem) (dst src n i : Nat) (h : i < n) :
    memcpy m dst src n (dst + i) = m (src + i) := by
  have : dst ≤ dst + i ∧ dst + i < dst + n := by omega
  simp only [memcpy, this, and_self, if_true, Nat.add_sub_cancel_left]

theorem realloc_spec (base : Nat) (st : State) (F : List (Nat × Nat)) (L : List Nat)
    (fuel p size q : Nat) (st1 : State)
    (I : Inv base st F L) (hp : p ∈ L) (hsize : size ≠ 0) (hlt : size < 2147483648)
    (hfuel : st.brk ≤ fuel) (hm : mm_malloc fuel st size = some (q, st1)) (hq : q ≠ 0) :
    ∃ F2 S, mm_realloc fuel st p size = some (q, mm_free (copied st1 q p size) p) ∧
      Inv base (mm_free (copied st1 q p size) p) F2 (q :: L.erase p) ∧ q ≠ p ∧
      (∀ i, i < min (SIZE st.mem (HEADP p) - 8) size →
        (mm_free (copied st1 q p size) p).mem (q + i) = st.mem (p + i)) ∧
      Blk (mm_free (copied st1 q p size) p).mem (q - 4) S 1 ∧ 4 ≤ q ∧ adjust size ≤ S ∧
      (∃ G T R, F2 = G ++ (T, 0) :: R ∧ base + 4 + total G + 4 ≤ p ∧
        p + SIZE st.mem (HEADP p) ≤ base + 4 + total G + 4 + T) := by
  obtain ⟨a1, a2, a3, a4⟩ := adjust_facts size hlt
  obtain ⟨q', st1', F1, hm', I1, hfr, -, hq'⟩ := malloc_inv base st F L fuel size I hlt hfuel
  rw [hm] at hm'
  obtain ⟨rfl, rfl⟩ := Prod.mk.inj (Option.some.inj hm')
  rw [if_neg hq] at I1
  obtain ⟨G, S, R, rfl, hqe, hS1, hS2⟩ := hq' hq
  clear hq' hm'
  have hp0 : p ≠ 0 := by
    intro h
    have := allocPtrs_bounds _ _ _ I.seg p ((I.live p).1 hp).1
    omega
  have hqp : q ≠ p := by
    intro h
    have := (List.nodup_cons.1 I1.nodup).1
    rw [h] at this
    exact this hp
  -- the old block, unchanged by the allocation
  obtain ⟨pre, sp, ap, s, post, rfl, hpe⟩ := live_split base st _ L I p hp
  have hBp : Blk st.mem (base + 4 + total (pre ++ [(sp, ap)])) s 1 :=
    inv_blk base st L (pre ++ [(sp, ap)]) s 1 post (by rw [List.append_assoc]; exact I)
  have htp : total (pre ++ [(sp, ap)]) = total pre + sp := by
    rw [total_append]; simp [total]
  rw [htp, ← Nat.add_assoc] at hBp
  have hpfr : ∀ x, base + 4 + total pre + sp ≤ x → x < base + 4 + total pre + sp + s →
      st1.mem x = st.mem x := by
    have := hfr (pre ++ [(sp, ap)]) s post (by rw [List.append_assoc]; rfl)
    rw [htp, ← Nat.add_assoc] at this
    intro x h1 h2
    exact this x (by omega) (by omega)
  have hBp1 : Blk st1.mem (base + 4 + total pre + sp) s 1 := blk_frame _ _ _ _ _ hpfr hBp
  have hs8 := hBp.1
  have hslt : s < 4294967296 := by
    have := GET_lt st.mem (base + 4 + total pre + sp)
    have := hBp.2.2.2.1
    omega
  have hsz : SIZE st.mem (HEADP p) = s := by rw [hpe]; exact (blk_reads _ _ _ _ hBp).1
  have hsz1 : SIZE st1.mem (HEADP p) = s := by rw [hpe]; exact (blk_reads _ _ _ _ hBp1).1
  have hcm := copied_mem st1 q p size s hsz1 hs8 hslt
  -- the copy stays inside the new payload
  have hBq := inv_blk base st1 (q :: L) G S 1 R I1
  have hIc : Inv base (copied st1 q p size) (G ++ (S, 1) :: R) (q :: L) := by
    obtain ⟨k1, k2, k3⟩ := copied_fields st1 q p size
    refine inv_payload_st base st1 (copied st1 q p size) (q :: L) G S 1 R I1 k1 k2 k3 ?_
    intro x hx
    rw [hcm]
    have := Nat.min_le_right (s - 8) size
    exact memcpy_other _ _ _ _ _ (by omega)
  -- release of the old block
  have hp1 : p ∈ q :: L := List.mem_cons_of_mem _ hp
  obtain ⟨pre1, sp1, ap1, s1, post1, hF1, hpe1⟩ := live_split base _ _ _ hIc p hp1
  rw [hF1] at hIc
  obtain ⟨f1, f2, f3⟩ := free_spec base (copied st1 q p size) (q :: L) pre1 sp1 ap1 s1 post1 hIc
  rw [← hpe1] at f1 f2 f3
  have herase : (q :: L).erase p = q :: L.erase p := List.erase_cons_tail (by simpa using hqp)
  rw [herase] at f1
  have hpos := seg_pos _ _ _ hIc.seg
  have hfq : ∀ x, base + 4 + total G ≤ x → x < base + 4 + total G + S →
      (mm_free (copied st1 q p size) p).mem x = (copied st1 q p size).mem x :=
    free_frame base _ _ pre1 sp1 ap1 s1 post1 hpos f3 G S R hF1.symm (by omega)
  have hBq2 : Blk (copied st1 q p size).mem (base + 4 + total G) S 1 :=
    inv_blk base _ (q :: L) G S 1 R (by rw [← hF1] at hIc; exact hIc)
  have hBq3 := blk_frame _ _ _ _ _ hfq hBq2
  have hS8 := hBq.1
  -- the old block has the same size in the intermediate heap
  have hBp2 : Blk (copied st1 q p size).mem (base + 4 + total pre1 + sp1) s1 1 := by
    have := inv_blk base _ (q :: L) (pre1 ++ [(sp1, ap1)]) s1 1 post1
      (by rw [List.append_assoc]; exact hIc)
    rw [total_append] at this
    simpa [total, Nat.add_assoc] using this
  have hdis : total G + S ≤ total pre1 + sp1 ∨ total pre1 + sp1 + s1 ≤ total G := by
    have h1 : G ++ (S, 1) :: R = (pre1 ++ [(sp1, ap1)]) ++ (s1, 1) :: post1 := by
      rw [hF1, List.append_assoc]; rfl
    have ht1 : total (pre1 ++ [(sp1, ap1)]) = total pre1 + sp1 := by
      rw [total_append]; simp [total]
    rcases split_disjoint _ _ _ _ _ _ h1 with ⟨h, -, -⟩ | h | h
    · rw [h, ht1] at hqe; omega
    · rw [ht1] at h; exact Or.inl h
    · rw [ht1] at h; exact Or.inr h
  have hs1 : s1 = s := by
    have e1 := (blk_reads _ _ _ _ hBp2).1
    rw [← hpe1] at e1
    have e0 : GET (copied st1 q p size).mem (HEADP p) = GET st1.mem (HEADP p) := by
      refine GET_congr _ _ _ (fun x hx1 hx2 => ?_)
      rw [hcm]
      have := Nat.min_le_right (s - 8) size
      simp only [HEADP, WS] at hx1 hx2
      have := hBp2.1
      exact memcpy_other _ _ _ _ _ (by omega)
    have e2 : SIZE (copied st1 q p size).mem (HEADP p) = SIZE st1.mem (HEADP p) := by
      unfold SIZE; rw [e0]
    rw [e2, hsz1] at e1
    exact e1.symm
  obtain ⟨G2, T, R2, hG2, hT1, hT2, -⟩ := merge_free_block pre1 sp1 ap1 s1 post1
  have hmn := mergeNext_ge s1 post1
  refine ⟨_, S, mm_realloc_eq fuel st p size q st1 hp0 hsize hm, f1, hqp, ?_, ?_, by omega, hS1,
    ⟨G2, T, R2, hG2, ?_, ?_⟩⟩
  · intro i hi
    rw [hsz] at hi
    rw [hfq (q + i) (by omega) (by have := Nat.min_le_right (s - 8) size; omega), hcm,
      memcpy_in _ _ _ _ _ hi]
    exact hpfr (p + i) (by omega) (by have := Nat.min_le_left (s - 8) size; omega)
  · have : q - 4 = base + 4 + total G := by omega
    rw [this]; exact hBq3
  · rw [hT1]; split <;> omega
  · rw [hsz, hT1, hT2, ← hs1]; split <;> omega

/-! ## Reachable heaps -/

theorem inv_zero_not_live (base : Nat) (st : State) (F : List (Nat × Nat)) (L : List Nat)
    (I : Inv base st F L) : 0 ∉ L := by
  intro h
  have := allocPtrs_bounds _ _ _ I.seg 0 ((I.live 0).1 h).1
  omega

theorem free_inv (base : Nat) (st : State) (F : List (Nat × Nat)) (L : List Nat) (p : Nat)
    (I : Inv base st F L) (hp : p = 0 ∨ p ∈ L) :
    ∃ F1, Inv base (mm_free st p) F1 (L.erase p) := by
  rcases hp with rfl | hp
  · refine ⟨F, ?_⟩
    rw [List.erase_of_not_mem (inv_zero_not_live base st F L I)]
    exact I
  · obtain ⟨pre, sp, ap, s, post, rfl, rfl⟩ := live_split base st F L I p hp
    exact ⟨_, (free_spec base st L pre sp ap s post I).1⟩

theorem store_inv (base : Nat) (st : State) (F : List (Nat × Nat)) (L : List Nat) (p a v : Nat)
    (I : Inv base st F L) (hp : p ∈ L) (h1 : p ≤ a) (h2 : a + 8 < p + SIZE st.mem (HEADP p)) :
    Inv base { st with mem := Function.update st.mem a v } F L := by
  obtain ⟨pre, sp, ap, s, post, rfl, rfl⟩ := live_split base st F L I p hp
  have I2 : Inv base st ((pre ++ [(sp, ap)]) ++ (s, 1) :: post) L := by
    rw [List.append_assoc]; exact I
  have ht : total (pre ++ [(sp, ap)]) = total pre + sp := by
    rw [total_append]; simp [total]
  have hB := inv_blk base st L _ s 1 post I2
  rw [ht, ← Nat.add_assoc] at hB
  rw [(blk_reads _ _ _ _ hB).1] at h2
  have := inv_payload base st L (Function.update st.mem a v) _ s 1 post I2 (by
    intro x hx
    rw [ht] at hx
    exact Function.update_noteq (by omega) _ _)
  rw [List.append_assoc] at this
  exact this

theorem realloc_inv (base : Nat) (st : State) (F : List (Nat × Nat)) (L : List Nat)
    (fuel p size q : Nat) (st1 : State) (I : Inv base st F L) (hp : p = 0 ∨ p ∈ L)
    (hlt : size < 2147483648) (hfuel : st.brk ≤ fuel)
    (hr : mm_realloc fuel st p size = some (q, st1)) (hq : p ≠ 0 → size ≠ 0 → q ≠ 0) :
    ∃ F1, Inv base st1 F1 (if q = 0 then L.erase p else q :: L.erase p) := by
  by_cases hp0 : p = 0
  · subst hp0
    rw [List.erase_of_not_mem (inv_zero_not_live base st F L I)]
    have hm : mm_malloc fuel st size = some (q, st1) := by
      unfold mm_realloc at hr; rw [if_pos rfl] at hr; exact hr
    obtain ⟨q', st1', F1, hm', I1, -⟩ := malloc_inv base st F L fuel size I hlt hfuel
    rw [hm] at hm'
    obtain ⟨rfl, rfl⟩ := Prod.mk.inj (Option.some.inj hm')
    exact ⟨F1, I1⟩
  · have hpL : p ∈ L := by rcases hp with h | h; exact absurd h hp0; exact h
    by_cases hs0 : size = 0
    · have : mm_realloc fuel st p size = some (0, mm_free st p) := by
        unfold mm_realloc; rw [if_neg hp0, if_pos hs0]
      rw [this] at hr
      obtain ⟨rfl, rfl⟩ := Prod.mk.inj (Option.some.inj hr)
      rw [if_pos rfl]
      exact free_inv base st F L p I (Or.inr hpL)
    · obtain ⟨q', st1', F1, hm', -⟩ := malloc_inv base st F L fuel size I hlt hfuel
      have hr2 := mm_realloc_eq fuel st p size q' st1' hp0 hs0 hm'
      rw [hr2] at hr
      obtain ⟨rfl, rfl⟩ := Prod.mk.inj (Option.some.inj hr)
      have hq0 := hq hp0 hs0
      obtain ⟨F2, S, -, I2, -⟩ := realloc_spec base st F L fuel p size q' st1' I hpL hs0 hlt hfuel
        hm' hq0
      rw [if_neg hq0]
      exact ⟨F2, I2⟩

/-- Every reachable heap satisfies the invariant. -/
theorem reach_inv (base : Nat) (st : State) (L : List Nat) (h : Reach base st L) :
    ∃ F, Inv base st F L := by
  induction h with
  | init pre st hb hmax hi =>
    rw [← hb]
    exact ⟨_, (mm_init_inv pre st hmax hi).1⟩
  | malloc st L fuel size p st1 _ hlt hm ih =>
    obtain ⟨F, I⟩ := ih
    have hm2 := mm_malloc_mono fuel (max fuel st.brk) st size _ (le_max_left _ _) hm
    obtain ⟨q', st1', F1, hm', I1, -⟩ := malloc_inv base st F L (max fuel st.brk) size I hlt
      (le_max_right _ _)
    rw [hm2] at hm'
    obtain ⟨rfl, rfl⟩ := Prod.mk.inj (Option.some.inj hm')
    exact ⟨F1, I1⟩
  | free st L p _ hp ih =>
    obtain ⟨F, I⟩ := ih
    exact free_inv base st F L p I hp
  | realloc st L fuel p size q st1 _ hp hlt hr hq ih =>
    obtain ⟨F, I⟩ := ih
    have hr2 := mm_realloc_mono fuel (max fuel st.brk) st p size _ (le_max_left _ _) hr
    exact realloc_inv base st F L (max fuel st.brk) p size q st1 I hp hlt (le_max_right _ _) hr2 hq
  | store st L p a v _ hp h1 h2 ih =>
    obtain ⟨F, I⟩ := ih
    exact ⟨F, store_inv base st F L p a v I hp h1 h2⟩

/-- The walk of a heap that satisfies the invariant. -/
theorem inv_walk (base : Nat) (st : State) (F : List (Nat × Nat)) (L : List Nat)
    (I : Inv base st F L) (fuel : Nat) (hfuel : st.brk ≤ fuel) :
    heap_walk st.mem fuel st.heap_listp = some (layout (base + 4) F, st.brk) := by
  have hf := inv_fuel _ _ _ _ I
  rw [I.hl, I.brk]
  exact heap_walk_seg st.mem fuel (base + 4) F I.seg I.epi (by omega)

/-! ## Walks and the reuse scenario -/

theorem layout_append (h : Nat) (xs ys : List (Nat × Nat)) :
    layout h (xs ++ ys) = layout h xs ++ layout (h + total xs) ys := by
  induction xs generalizing h with
  | nil => simp [layout, total]
  | cons b xs ih =>
    show layout h (b :: (xs ++ ys)) = _
    simp only [layout, total, ih, Nat.add_assoc, List.cons_append]

theorem layout_mem (h : Nat) (bs : List (Nat × Nat)) (b : Nat × Nat × Nat)
    (hb : b ∈ layout h bs) : (b.2.1, b.2.2) ∈ bs ∧ h + 4 ≤ b.1 := by
  induction bs generalizing h with
  | nil => simp [layout] at hb
  | cons c cs ih =>
    simp only [layout] at hb
    rcases List.mem_cons.1 hb with rfl | hb
    · exact ⟨List.mem_cons_self _ _, le_refl _⟩
    · have := ih _ hb
      exact ⟨List.mem_cons_of_mem _ this.1, by omega⟩

/-- The scenario of the first-fit reuse, from any provider state on which
`mm_init` succeeds. -/
theorem scenario_reuse (pre st0 : State) (fuel : Nat) (hmax : pre.mem_max < 4294967296)
    (hi : mm_init pre = (0, st0)) (hfuel : pre.brk + 528 ≤ fuel) :
    ∃ p1 st1 p2 st2 p3 st3, mm_malloc fuel st0 100 = some (p1, st1) ∧
      mm_malloc fuel st1 200 = some (p2, st2) ∧
      mm_malloc fuel (mm_free st2 p1) 50 = some (p3, st3) ∧ p1 ≠ 0 ∧ p3 = p1 := by
  obtain ⟨I0, hb0⟩ := mm_init_inv pre st0 hmax hi
  have ha1 : adjust 100 = 112 := by decide
  have ha2 : adjust 200 = 208 := by decide
  have ha3 : adjust 50 = 64 := by decide
  have hg2 : growSize 208 = 256 := by decide
  have hnf : ∀ a : Nat, ∀ b ∈ [((8 : Nat), (1 : Nat))], ¬ fits a b := by
    intro a b hb
    simp only [List.mem_singleton] at hb
    rw [hb]; unfold fits; simp
  -- first allocation: split of the initial free block
  have I0' : Inv pre.brk st0 ([(8, 1)] ++ (256, 0) :: []) [] := I0
  have m1 := malloc_fit pre.brk st0 [] [(8, 1)] 256 [] fuel 100 I0' (by decide) (hnf _)
    (by rw [ha1]; decide) (by omega)
  obtain ⟨i1, b1, -⟩ := insert_inv pre.brk st0 [] [(8, 1)] 256 [] (adjust 100) I0'
    (by rw [ha1]) (by rw [ha1]; decide) (by rw [ha1]; decide)
  rw [ha1] at m1 i1 b1
  have e1 : total [((8 : Nat), (1 : Nat))] = 8 := rfl
  rw [e1] at m1 i1 b1
  have hs1 : split 256 112 = [(112, 1), (144, 0)] := by decide
  rw [hs1] at i1
  generalize insert st0 (pre.brk + 4 + 8 + 4) 112 = st1 at m1 i1 b1
  -- second allocation: grows the heap when the provider allows it
  have hno2 : ∀ b ∈ [((8 : Nat), (1 : Nat)), (112, 1)] ++ [(144, 0)], ¬ fits (adjust 200) b := by
    intro b hb
    rw [ha2]
    simp only [List.cons_append, List.nil_append, List.mem_cons, List.mem_singleton,
      List.not_mem_nil, or_false] at hb
    rcases hb with rfl | rfl | rfl <;> unfold fits <;> simp
  have i1' : Inv pre.brk st1 ([(8, 1), (112, 1)] ++ [(144, 0)]) [pre.brk + 4 + 8 + 4] := i1
  have key : ∃ p2 st2 post, mm_malloc fuel st1 200 = some (p2, st2) ∧
      Inv pre.brk st2 ([] ++ (8, 1) :: (112, 1) :: post) (if p2 = 0 then [pre.brk + 4 + 8 + 4]
        else [p2, pre.brk + 4 + 8 + 4]) ∧
      st2.brk ≤ pre.brk + 528 ∧ (∃ x y, merge 8 1 112 post = (8, 1) :: (x, 0) :: y ∧ 64 ≤ x) := by
    by_cases hok : st1.brk + growSize (adjust 200) ≤ st1.mem_max
    · obtain ⟨st2, h1, h2, h3, -⟩ := malloc_grow pre.brk st1 _ [(8, 1), (112, 1)] 144 0 fuel 200
        i1' (by decide) (by decide) hno2 (by omega) hok
      rw [ha2, hg2] at h2 h3
      have hs2 : split ((if (0 : Nat) = 0 then 144 else 0) + 256) 208 = [(208, 1), (192, 0)] := by
        decide
      rw [hs2] at h2
      refine ⟨_, st2, [(208, 1), (192, 0)], h1, ?_, by omega, 112, [(208, 1), (192, 0)],
        by decide, by decide⟩
      rw [if_neg (by simp)]
      exact h2
    · refine ⟨0, st1, [(144, 0)], ?_, by simpa using i1, by omega, 256, [], by decide,
        by decide⟩
      exact malloc_fail pre.brk st1 _ _ fuel 200 i1' (by decide) hno2 (by omega) (by omega)
  obtain ⟨p2, st2, post, m2, i2, b2, x, y, hmg, hx⟩ := key
  -- release of the first block and the third allocation
  obtain ⟨i3, b3, -⟩ := free_spec pre.brk st2 _ [] 8 1 112 post i2
  have e0 : total ([] : List (Nat × Nat)) = 0 := rfl
  rw [e0, hmg] at i3
  rw [e0] at b3
  have i3' : Inv pre.brk (mm_free st2 (pre.brk + 4 + 0 + 8 + 4)) ([(8, 1)] ++ (x, 0) :: y)
      ((if p2 = 0 then [pre.brk + 4 + 8 + 4] else [p2, pre.brk + 4 + 8 + 4]).erase
        (pre.brk + 4 + 0 + 8 + 4)) := i3
  have m3 := malloc_fit pre.brk _ _ [(8, 1)] x y fuel 50 i3' (by decide) (hnf _)
    (by rw [ha3]; exact hx) (by omega)
  rw [e1] at m3
  refine ⟨_, st1, p2, st2, _, _, m1, m2, m3, by omega, rfl⟩

theorem layout_split (h : Nat) (F : List (Nat × Nat)) (b : Nat × Nat × Nat)
    (hb : b ∈ layout h F) :
    ∃ pre post, F = pre ++ (b.2.1, b.2.2) :: post ∧ b.1 = h + total pre + 4 := by
  induction F generalizing h with
  | nil => simp [layout] at hb
  | cons c cs ih =>
    simp only [layout] at hb
    rcases List.mem_cons.1 hb with rfl | hb
    · exact ⟨[], cs, rfl, by simp [total]⟩
    · obtain ⟨pre, post, e1, e2⟩ := ih _ hb
      exact ⟨c :: pre, post, by rw [e1]; rfl, by rw [e2]; simp only [total]; omega⟩

theorem layout_chain (h : Nat) (F : List (Nat × Nat)) (hF : NoAdjFree F) :
    List.Chain' (fun x y : Nat × Nat × Nat => ¬ (x.2.2 = 0 ∧ y.2.2 = 0)) (layout h F) := by
  induction F generalizing h with
  | nil => exact List.chain'_nil
  | cons c cs ih =>
    cases cs with
    | nil => exact List.chain'_singleton _
    | cons d ds =>
      rw [naf_cons2] at hF
      simp only [layout]
      rw [List.chain'_cons]
      refine ⟨hF.1, ?_⟩
      have := ih (h + c.1) hF.2
      simpa [layout] using this

theorem allocPtrs_head (m : Mem) (h : Nat) (post : List (Nat × Nat)) (hs : Seg m h post)
    (hm : h + 4 ∈ allocPtrs h post) : ∃ s2 post2, post = (s2, 1) :: post2 := by
  cases post with
  | nil => simp [allocPtrs] at hm
  | cons c cs =>
    by_cases hc : c.2 = 1
    · exact ⟨c.1, cs, by rw [← hc]⟩
    · simp only [allocPtrs, hc, if_false] at hm
      have := allocPtrs_bounds m _ cs hs.2 _ hm
      have := hs.1.1
      omega

/-- Two live blocks that are neighbours in the address order. -/
theorem live_pair_split (base : Nat) (st : State) (F : List (Nat × Nat)) (L : List Nat)
    (I : Inv base st F L) (p q : Nat) (hp : p ∈ L) (hq : q ∈ L)
    (hn : q = NEXT_BLP st.mem p) :
    ∃ pre sp ap s1 s2 post, F = pre ++ (sp, ap) :: (s1, 1) :: (s2, 1) :: post ∧
      p = base + 4 + total pre + sp + 4 ∧ q = p + s1 ∧ SIZE st.mem (HEADP q) = s2 := by
  obtain ⟨pre, sp, ap, s1, post, rfl, rfl⟩ := live_split base st F L I p hp
  obtain ⟨hs1, hP, hB, hs3⟩ := (seg_append _ _ _ _).1 I.seg
  simp only at hP hB hs3
  have hn1 : NEXT_BLP st.mem (base + 4 + total pre + sp + 4) = base + 4 + total pre + sp + 4 + s1 := by
    unfold NEXT_BLP; rw [(blk_reads _ _ _ _ hB).1]
  rw [hn1] at hn
  have hq1 := ((I.live q).1 hq).1
  rw [allocPtrs_append] at hq1
  have hb1 := fun x hx => allocPtrs_bounds st.mem (base + 4) pre hs1 x hx
  have hb3 := fun x hx => allocPtrs_bounds st.mem _ post hs3 x hx
  have hP1 := hP.1
  have hB1 := hB.1
  have hmem : q ∈ allocPtrs (base + 4 + total pre + sp + s1) post := by
    simp only [allocPtrs, if_true, List.mem_append] at hq1
    rcases hq1 with h | h
    · have := hb1 q h; omega
    · split at h
      · rcases List.mem_cons.1 h with h | h
        · omega
        · rcases List.mem_cons.1 h with h | h
          · omega
          · exact h
      · rcases List.mem_cons.1 h with h | h
        · omega
        · exact h
  have hq2 : q = base + 4 + total pre + sp + s1 + 4 := by omega
  rw [hq2] at hmem
  obtain ⟨s2, post2, rfl⟩ := allocPtrs_head st.mem _ post hs3 hmem
  refine ⟨pre, sp, ap, s1, s2, post2, rfl, rfl, hn, ?_⟩
  rw [hq2]
  exact (blk_reads _ _ _ _ hs3.1).1

/-- Releasing two neighbouring live blocks, lower address first. -/
theorem free_pair (base : Nat) (st : State) (L : List Nat)
    (pre : List (Nat × Nat)) (sp ap s1 s2 : Nat) (post : List (Nat × Nat))
    (I : Inv base st (pre ++ (sp, ap) :: (s1, 1) :: (s2, 1) :: post) L) :
    ∃ G T R, Inv base
        (mm_free (mm_free st (base + 4 + total pre + sp + 4)) (base + 4 + total pre + sp + 4 + s1))
        (G ++ (T, 0) :: R)
        ((L.erase (base + 4 + total pre + sp + 4)).erase (base + 4 + total pre + sp + 4 + s1)) ∧
      base + 4 + total G + 4 ≤ base + 4 + total pre + sp + 4 ∧
      base + 4 + total pre + sp + 4 + s1 + s2 ≤ base + 4 + total G + 4 + T ∧
      (mm_free (mm_free st (base + 4 + total pre + sp + 4))
        (base + 4 + total pre + sp + 4 + s1)).brk = st.brk := by
  obtain ⟨i1, k1, -⟩ := free_spec base st L pre sp ap s1 ((s2, 1) :: post) I
  have hmn : mergeNext s1 ((s2, 1) :: post) = (s1, (s2, 1) :: post) := by
    simp [mergeNext]
  have hmn2 := mergeNext_ge s2 post
  by_cases h0 : ap = 0
  · have e : pre ++ merge sp ap s1 ((s2, 1) :: post) = pre ++ (sp + s1, 0) :: (s2, 1) :: post := by
      simp only [merge, hmn, h0, if_true]
    rw [e] at i1
    obtain ⟨i2, k2, -⟩ := free_spec base _ _ pre (sp + s1) 0 s2 post i1
    have e2 : base + 4 + total pre + (sp + s1) + 4 = base + 4 + total pre + sp + 4 + s1 := by omega
    rw [e2] at i2 k2
    refine ⟨pre, _, _, by simpa only [merge, if_true] using i2, by omega, by omega, ?_⟩
    rw [k2, k1]
  · have e : pre ++ merge sp ap s1 ((s2, 1) :: post) =
        (pre ++ [(sp, ap)]) ++ (s1, 0) :: (s2, 1) :: post := by
      simp only [merge, hmn, h0, if_false, List.append_assoc, List.singleton_append]
    rw [e] at i1
    obtain ⟨i2, k2, -⟩ := free_spec base _ _ (pre ++ [(sp, ap)]) s1 0 s2 post i1
    have ht : total (pre ++ [(sp, ap)]) = total pre + sp := by
      rw [total_append]; simp [total]
    have e2 : base + 4 + (total pre + sp) + s1 + 4 = base + 4 + total pre + sp + 4 + s1 := by omega
    rw [ht, e2] at i2 k2
    refine ⟨pre ++ [(sp, ap)], _, _, by simpa only [merge, if_true] using i2, by rw [ht]; omega,
      by rw [ht]; omega, ?_⟩
    rw [k2, k1]

/-! ## Free bytes -/

theorem freeBytes_layout (h : Nat) (F : List (Nat × Nat)) :
    freeBytes (layout h F) = freeTotal F := by
  induction F generalizing h with
  | nil => rfl
  | cons c cs ih =>
    have := ih (h + c.1)
    unfold freeBytes at this ⊢
    simp only [layout, freeTotal]
    by_cases hc : c.2 = 0
    · simp [List.filter_cons, hc, this]
    · simp [List.filter_cons, hc, this]

theorem freeTotal_append (xs ys : List (Nat × Nat)) :
    freeTotal (xs ++ ys) = freeTotal xs + freeTotal ys := by
  induction xs with
  | nil => simp [freeTotal]
  | cons b xs ih =>
    show freeTotal (b :: (xs ++ ys)) = _
    simp only [freeTotal, ih]; omega

theorem freeTotal_mergeNext (s : Nat) (post : List (Nat × Nat)) :
    (mergeNext s post).1 + freeTotal (mergeNext s post).2 = s + freeTotal post := by
  cases post with
  | nil => rfl
  | cons b post =>
    by_cases hb : b.2 = 0
    · simp only [mergeNext, hb, if_true, freeTotal]; omega
    · simp only [mergeNext, hb, if_false, freeTotal]

theorem freeTotal_merge (sp ap s : Nat) (post : List (Nat × Nat)) :
    freeTotal (merge sp ap s post) = (if ap = 0 then sp else 0) + s + freeTotal post := by
  have := freeTotal_mergeNext s post
  unfold merge
  by_cases h0 : ap = 0
  · simp only [h0, if_true, freeTotal]; omega
  · simp only [h0, if_false, freeTotal, if_true]; omega

theorem freeTotal_split (s asize : Nat) (hle : asize ≤ s) :
    ∃ S Rs, split s asize = (S, 1) :: Rs ∧ S + freeTotal Rs = s ∧ asize ≤ S := by
  unfold split
  split
  · exact ⟨s, [], rfl, by simp [freeTotal], hle⟩
  · exact ⟨asize, [(s - asize, 0)], rfl, by simp [freeTotal]; omega, le_refl _⟩

/-- Releasing a block right after it was installed gives back the free bytes
that the installation consumed. -/
theorem free_after_split (base : Nat) (st1 : State) (L1 : List Nat)
    (G : List (Nat × Nat)) (gs asize : Nat) (R : List (Nat × Nat))
    (I : Inv base st1 (G ++ split gs asize ++ R) L1) (hle : asize ≤ gs) (h16 : 16 ≤ asize) :
    ∃ F2, Inv base (mm_free st1 (base + 4 + total G + 4)) F2 (L1.erase (base + 4 + total G + 4)) ∧
      (mm_free st1 (base + 4 + total G + 4)).brk = st1.brk ∧
      freeTotal F2 = freeTotal G + gs + freeTotal R := by
  obtain ⟨S, Rs, hS, hS2, hS3⟩ := freeTotal_split gs asize hle
  rw [hS] at I
  obtain ⟨bs, hbs⟩ := I.head
  rcases List.eq_nil_or_concat G with rfl | ⟨pre1, x, rfl⟩
  · simp only [List.nil_append, List.cons_append, List.cons.injEq, Prod.mk.injEq] at hbs
    omega
  · obtain ⟨sp1, ap1⟩ := x
    rw [List.concat_eq_append] at I ⊢
    have I' : Inv base st1 (pre1 ++ (sp1, ap1) :: (S, 1) :: (Rs ++ R)) L1 := by
      simpa [List.append_assoc] using I
    have ht : total (pre1 ++ [(sp1, ap1)]) = total pre1 + sp1 := by
      rw [total_append]; simp [total]
    obtain ⟨f1, f2, -⟩ := free_spec base st1 L1 pre1 sp1 ap1 S (Rs ++ R) I'
    have e : base + 4 + total (pre1 ++ [(sp1, ap1)]) + 4 = base + 4 + total pre1 + sp1 + 4 := by
      rw [ht]; omega
    rw [e]
    refine ⟨_, f1, f2, ?_⟩
    rw [freeTotal_append, freeTotal_merge, freeTotal_append, freeTotal_append]
    simp only [freeTotal]
    omega

/-- Two blocks of a walk are the same block or occupy disjoint address ranges. -/
theorem layout_disjoint (h : Nat) (F : List (Nat × Nat)) (b c : Nat × Nat × Nat)
    (hb : b ∈ layout h F) (hc : c ∈ layout h F) :
    b = c ∨ b.1 + b.2.1 ≤ c.1 ∨ c.1 + c.2.1 ≤ b.1 := by
  obtain ⟨pre, post, e1, e2⟩ := layout_split h F b hb
  obtain ⟨pre2, post2, e3, e4⟩ := layout_split h F c hc
  rw [e1] at e3
  rcases split_disjoint _ _ _ _ _ _ e3 with ⟨h1, h2, -⟩ | h1 | h1
  · left
    simp only [Prod.mk.injEq] at h2
    rw [h1] at e2
    exact Prod.ext (by rw [e2, e4]) (Prod.ext h2.1 h2.2)
  · right; left; simp only at h1; omega
  · right; right; simp only at h1; omega

/-! ## Concrete heaps used to instantiate the theorems -/

theorem reach_st0 : Reach 4096 st0 [] :=
  Reach.init pre0 st0 rfl (by decide) (Prod.ext (by decide) rfl)

theorem malloc_st0 : mm_malloc 5000 st0 100 = some (4112, st1c) := by rfl

theorem malloc_st1c : mm_malloc 5000 st1c 200 = some (4224, st2c) := by rfl

theorem reach_st1c : Reach 4096 st1c [4112] :=
  Reach.malloc st0 [] 5000 100 4112 st1c reach_st0 (by decide) malloc_st0

theorem reach_st2c : Reach 4096 st2c [4224, 4112] :=
  Reach.malloc st1c [4112] 5000 200 4224 st2c reach_st1c (by decide) malloc_st1c

/-! ## Claims -/

theorem adjust_unique (size adjusted : Nat) (hlt : size < 2147483648)
    (h1 : size ≤ 8 → adjusted = 16)
    (h2 : 8 < size → adjusted % 8 = 0 ∧ size + 8 ≤ adjusted ∧
      ∀ k, k % 8 = 0 → size + 8 ≤ k → adjusted ≤ k) : adjusted = adjust size := by
  by_cases h : size ≤ 8
  · rw [adjust_small size h, h1 h]
  · obtain ⟨a, b, c⟩ := h2 (by omega)
    have := c ((size + 15) / 8 * 8) (by omega) (by omega)
    rw [adjust_large size (by omega) hlt]
    omega

/-- C1: on a reachable heap `mm_malloc(size)` with `0 < size < 2^31` returns, and
when the result `p` is not null the block at `p` has the allocated bit set in
header and footer and a stored size `S` that is a multiple of 8 with
`adjusted ≤ S < adjusted + 16`, where `adjusted` is 16 for `size ≤ 8` and
otherwise the least multiple of 8 that is at least `size + 8`; hence the
payload capacity `S - 8` is at least `size`. -/
theorem C1_malloc_block (base : Nat) (st : State) (L : List Nat) (fuel size : Nat)
    (hR : Reach base st L) (_h0 : 0 < size) (hlt : size < 2147483648) (hfuel : st.brk ≤ fuel) :
    ∃ p st1, mm_malloc fuel st size = some (p, st1) ∧
      (p ≠ 0 →
        ALLOC_BIT st1.mem (HEADP p) = 1 ∧ ALLOC_BIT st1.mem (FOOTP st1.mem p) = 1 ∧
        SIZE st1.mem (HEADP p) % 8 = 0 ∧
        ∀ adjusted, (size ≤ 8 → adjusted = 16) →
          (8 < size → adjusted % 8 = 0 ∧ size + 8 ≤ adjusted ∧
            ∀ k, k % 8 = 0 → size + 8 ≤ k → adjusted ≤ k) →
          adjusted ≤ SIZE st1.mem (HEADP p) ∧ SIZE st1.mem (HEADP p) < adjusted + 16 ∧
            size ≤ SIZE st1.mem (HEADP p) - 8) := by
  obtain ⟨F, I⟩ := reach_inv base st L hR
  obtain ⟨p, st1, F1, hm, I1, -, -, hp⟩ := malloc_inv base st F L fuel size I hlt hfuel
  refine ⟨p, st1, hm, fun hp0 => ?_⟩
  obtain ⟨G, S, R, rfl, rfl, hS1, hS2⟩ := hp hp0
  have hB := inv_blk base st1 _ G S 1 R I1
  obtain ⟨r1, r2, r3, r4⟩ := blk_reads _ _ _ _ hB
  refine ⟨r2, r4, ?_, ?_⟩
  · rw [r1]; exact hB.2.1
  · intro adjusted h1 h2
    have := adjust_unique size adjusted hlt h1 h2
    have := (adjust_facts size hlt).2.2.2
    rw [r1]
    omega

theorem C1_malloc_block_witness :
    Reach 4096 st0 [] ∧ 0 < 100 ∧ 100 < 2147483648 ∧ st0.brk ≤ 5000 ∧
    ∃ p st1, mm_malloc 5000 st0 100 = some (p, st1) ∧
      (p ≠ 0 →
        ALLOC_BIT st1.mem (HEADP p) = 1 ∧ ALLOC_BIT st1.mem (FOOTP st1.mem p) = 1 ∧
        SIZE st1.mem (HEADP p) % 8 = 0 ∧
        ∀ adjusted, (100 ≤ 8 → adjusted = 16) →
          (8 < 100 → adjusted % 8 = 0 ∧ 100 + 8 ≤ adjusted ∧
            ∀ k, k % 8 = 0 → 100 + 8 ≤ k → adjusted ≤ k) →
          adjusted ≤ SIZE st1.mem (HEADP p) ∧ SIZE st1.mem (HEADP p) < adjusted + 16 ∧
            100 ≤ SIZE st1.mem (HEADP p) - 8) :=
  ⟨reach_st0, by decide, by decide, by decide,
    C1_malloc_block 4096 st0 [] 5000 100 reach_st0 (by decide) (by decide) (by decide)⟩

/-- C2: first fit.  On a reachable heap, if some free block of the walk has a
stored size of at least `adjusted` then `mm_malloc(size)` returns the payload
pointer of the lowest-address such block, its result state is that of `insert`
on the unchanged heap and the break is unchanged, so nothing is obtained from
the provider.  In particular, after `mm_init`, `p1 = mm_malloc(100)`,
`p2 = mm_malloc(200)`, `mm_free(p1)`, `p3 = mm_malloc(50)` we get `p3 = p1`. -/
theorem C2_first_fit (base : Nat) (st : State) (L : List Nat) (fuel size adjusted : Nat)
    (hR : Reach base st L) (h0 : 0 < size) (hlt : size < 2147483648) (hfuel : st.brk ≤ fuel)
    (h1 : size ≤ 8 → adjusted = 16)
    (h2 : 8 < size → adjusted % 8 = 0 ∧ size + 8 ≤ adjusted ∧
      ∀ k, k % 8 = 0 → size + 8 ≤ k → adjusted ≤ k) :
    (∃ W e, heap_walk st.mem fuel st.heap_listp = some (W, e) ∧
      ((∃ b ∈ W, b.2.2 = 0 ∧ adjusted ≤ b.2.1) →
        ∃ p st1, mm_malloc fuel st size = some (p, st1) ∧ p ≠ 0 ∧
          st1 = insert st p adjusted ∧ st1.brk = st.brk ∧
          (∃ b ∈ W, b.1 = p ∧ b.2.2 = 0 ∧ adjusted ≤ b.2.1) ∧
          ∀ b ∈ W, b.2.2 = 0 → adjusted ≤ b.2.1 → p ≤ b.1)) ∧
    (∀ (pre s0 : State) (fuel1 : Nat), pre.mem_max < 4294967296 → mm_init pre = (0, s0) →
      pre.brk + 528 ≤ fuel1 →
      ∃ p1 st1 p2 st2 p3 st3, mm_malloc fuel1 s0 100 = some (p1, st1) ∧
        mm_malloc fuel1 st1 200 = some (p2, st2) ∧
        mm_malloc fuel1 (mm_free st2 p1) 50 = some (p3, st3) ∧ p1 ≠ 0 ∧ p3 = p1) := by
  refine ⟨?_, fun pre s0 fuel1 => scenario_reuse pre s0 fuel1⟩
  obtain ⟨F, I⟩ := reach_inv base st L hR
  have ha := adjust_unique size adjusted hlt h1 h2
  obtain ⟨a1, a2, a3, a4⟩ := adjust_facts size hlt
  refine ⟨_, _, inv_walk base st F L I fuel hfuel, ?_⟩
  rintro ⟨b, hb, hb0, hbs⟩
  have hfit : ∃ c ∈ F, fits (adjust size) c :=
    ⟨(b.2.1, b.2.2), (layout_mem _ _ _ hb).1, hb0, by rw [← ha]; exact hbs⟩
  obtain ⟨pre, s, post, rfl, hno, hle⟩ := first_fit_split _ _ hfit
  obtain ⟨i1, i2, -⟩ := insert_inv base st L pre s post (adjust size) I a1 a2 hle
  have hm := malloc_fit base st L pre s post fuel size I (by omega) hno hle hfuel
  rw [ha]
  refine ⟨_, _, hm, by omega, rfl, i2, ?_, ?_⟩
  · refine ⟨(base + 4 + total pre + 4, s, 0), ?_, rfl, rfl, hle⟩
    rw [layout_append]
    exact List.mem_append_right _ (List.mem_cons_self _ _)
  · intro c hc hc0 hcs
    rw [layout_append] at hc
    rcases List.mem_append.1 hc with hc | hc
    · exact absurd ⟨hc0, hcs⟩ (hno _ (layout_mem _ _ _ hc).1)
    · simp only [layout] at hc
      rcases List.mem_cons.1 hc with rfl | hc
      · exact le_refl _
      · have := (layout_mem _ _ _ hc).2
        omega

theorem C2_first_fit_witness :
    Reach 4096 st0 [] ∧ 0 < 50 ∧ 50 < 2147483648 ∧ st0.brk ≤ 5000 ∧
    ((50 : Nat) ≤ 8 → (64 : Nat) = 16) ∧
    ((8 : Nat) < 50 → 64 % 8 = 0 ∧ 50 + 8 ≤ 64 ∧ ∀ k, k % 8 = 0 → 50 + 8 ≤ k → 64 ≤ k) ∧
    ((∃ W e, heap_walk st0.mem 5000 st0.heap_listp = some (W, e) ∧
      ((∃ b ∈ W, b.2.2 = 0 ∧ 64 ≤ b.2.1) →
        ∃ p st1, mm_malloc 5000 st0 50 = some (p, st1) ∧ p ≠ 0 ∧
          st1 = insert st0 p 64 ∧ st1.brk = st0.brk ∧
          (∃ b ∈ W, b.1 = p ∧ b.2.2 = 0 ∧ 64 ≤ b.2.1) ∧
          ∀ b ∈ W, b.2.2 = 0 → 64 ≤ b.2.1 → p ≤ b.1)) ∧
    (∀ (pre s0 : State) (fuel1 : Nat), pre.mem_max < 4294967296 → mm_init pre = (0, s0) →
      pre.brk + 528 ≤ fuel1 →
      ∃ p1 st1 p2 st2 p3 st3, mm_malloc fuel1 s0 100 = some (p1, st1) ∧
        mm_malloc fuel1 st1 200 = some (p2, st2) ∧
        mm_malloc fuel1 (mm_free st2 p1) 50 = some (p3, st3) ∧ p1 ≠ 0 ∧ p3 = p1)) :=
  ⟨reach_st0, by decide, by decide, by decide, by decide,
    fun _ => ⟨by decide, by decide, fun k hk1 hk2 => by omega⟩,
    C2_first_fit 4096 st0 [] 5000 50 64 reach_st0 (by decide) (by decide) (by decide) (by decide)
      (fun _ => ⟨by decide, by decide, fun k hk1 hk2 => by omega⟩)⟩

/-- C3 (invariant I2): on a reachable heap no two neighbouring blocks of the
walk are both free; and after releasing two address-adjacent live blocks
(lower first) the walk still has this property and contains one free block
that covers both original blocks, which is the only block of the walk that
meets their address range. -/
theorem C3_no_adjacent_free (base : Nat) (st : State) (L : List Nat) (fuel : Nat)
    (hR : Reach base st L) (hfuel : st.brk ≤ fuel) :
    (∃ W e, heap_walk st.mem fuel st.heap_listp = some (W, e) ∧
      List.Chain' (fun x y : Nat × Nat × Nat => ¬ (x.2.2 = 0 ∧ y.2.2 = 0)) W) ∧
    (∀ p q, p ∈ L → q ∈ L → q = NEXT_BLP st.mem p →
      ∃ W2 e2, heap_walk (mm_free (mm_free st p) q).mem fuel
          (mm_free (mm_free st p) q).heap_listp = some (W2, e2) ∧
        List.Chain' (fun x y : Nat × Nat × Nat => ¬ (x.2.2 = 0 ∧ y.2.2 = 0)) W2 ∧
        ∃ b ∈ W2, b.2.2 = 0 ∧ b.1 ≤ p ∧ q + SIZE st.mem (HEADP q) ≤ b.1 + b.2.1 ∧
          ∀ c ∈ W2, c.1 < q + SIZE st.mem (HEADP q) → p < c.1 + c.2.1 → c = b) := by
  obtain ⟨F, I⟩ := reach_inv base st L hR
  refine ⟨⟨_, _, inv_walk base st F L I fuel hfuel, layout_chain _ _ I.naf⟩, ?_⟩
  intro p q hp hq hn
  obtain ⟨pre, sp, ap, s1, s2, post, rfl, rfl, rfl, hsz⟩ :=
    live_pair_split base st F L I p q hp hq hn
  obtain ⟨G, T, R, I2, h1, h2, hb⟩ := free_pair base st L pre sp ap s1 s2 post I
  have hmem : (base + 4 + total G + 4, T, 0) ∈ layout (base + 4) (G ++ (T, 0) :: R) := by
    rw [layout_append]
    exact List.mem_append_right _ (List.mem_cons_self _ _)
  refine ⟨_, _, inv_walk base _ _ _ I2 fuel (by rw [hb]; exact hfuel), layout_chain _ _ I2.naf,
    (base + 4 + total G + 4, T, 0), hmem, rfl, h1, by rw [hsz]; exact h2, ?_⟩
  intro c hc hc1 hc2
  rw [hsz] at hc1
  rcases layout_disjoint _ _ _ _ hc hmem with h | h | h
  · exact h
  · simp only at h; omega
  · simp only at h; omega

theorem C3_no_adjacent_free_witness :
    Reach 4096 st2c [4224, 4112] ∧ st2c.brk ≤ 5000 ∧
    ((∃ W e, heap_walk st2c.mem 5000 st2c.heap_listp = some (W, e) ∧
      List.Chain' (fun x y : Nat × Nat × Nat => ¬ (x.2.2 = 0 ∧ y.2.2 = 0)) W) ∧
    (∀ p q, p ∈ [4224, 4112] → q ∈ [4224, 4112] → q = NEXT_BLP st2c.mem p →
      ∃ W2 e2, heap_walk (mm_free (mm_free st2c p) q).mem 5000
          (mm_free (mm_free st2c p) q).heap_listp = some (W2, e2) ∧
        List.Chain' (fun x y : Nat × Nat × Nat => ¬ (x.2.2 = 0 ∧ y.2.2 = 0)) W2 ∧
        ∃ b ∈ W2, b.2.2 = 0 ∧ b.1 ≤ p ∧ q + SIZE st2c.mem (HEADP q) ≤ b.1 + b.2.1 ∧
          ∀ c ∈ W2, c.1 < q + SIZE st2c.mem (HEADP q) → p < c.1 + c.2.1 → c = b)) :=
  ⟨reach_st2c, by decide, C3_no_adjacent_free 4096 st2c [4224, 4112] 5000 reach_st2c (by decide)⟩

theorem layout_blk (base : Nat) (st : State) (F : List (Nat × Nat)) (L : List Nat)
    (I : Inv base st F L) (b : Nat × Nat × Nat) (hb : b ∈ layout (base + 4) F) :
    Blk st.mem (HEADP b.1) b.2.1 b.2.2 := by
  obtain ⟨pre, post, rfl, e⟩ := layout_split _ _ _ hb
  have := inv_blk base st L pre _ _ post I
  rw [e]
  simpa [HEADP, WS] using this

/-- C4 (invariant I1): on a reachable heap every block met in the walk from the
prologue to the epilogue has a footer word, at block start + stored size - 4,
equal to its header word. -/
theorem C4_header_footer_agree (base : Nat) (st : State) (L : List Nat) (fuel : Nat)
    (hR : Reach base st L) (hfuel : st.brk ≤ fuel) :
    ∃ W e, heap_walk st.mem fuel st.heap_listp = some (W, e) ∧
      ∀ b ∈ W, GET st.mem (HEADP b.1 + b.2.1 - 4) = GET st.mem (HEADP b.1) ∧
        SIZE st.mem (HEADP b.1 + b.2.1 - 4) = SIZE st.mem (HEADP b.1) ∧
        ALLOC_BIT st.mem (HEADP b.1 + b.2.1 - 4) = ALLOC_BIT st.mem (HEADP b.1) := by
  obtain ⟨F, I⟩ := reach_inv base st L hR
  refine ⟨_, _, inv_walk base st F L I fuel hfuel, ?_⟩
  intro b hb
  obtain ⟨-, -, -, h4, h5⟩ := layout_blk base st F L I b hb
  have : GET st.mem (HEADP b.1 + b.2.1 - 4) = GET st.mem (HEADP b.1) := by rw [h4, h5]
  refine ⟨this, ?_, ?_⟩
  · unfold SIZE; rw [this]
  · unfold ALLOC_BIT; rw [this]

theorem C4_header_footer_agree_witness :
    Reach 4096 st2c [4224, 4112] ∧ st2c.brk ≤ 5000 ∧
    ∃ W e, heap_walk st2c.mem 5000 st2c.heap_listp = some (W, e) ∧
      ∀ b ∈ W, GET st2c.mem (HEADP b.1 + b.2.1 - 4) = GET st2c.mem (HEADP b.1) ∧
        SIZE st2c.mem (HEADP b.1 + b.2.1 - 4) = SIZE st2c.mem (HEADP b.1) ∧
        ALLOC_BIT st2c.mem (HEADP b.1 + b.2.1 - 4) = ALLOC_BIT st2c.mem (HEADP b.1) :=
  ⟨reach_st2c, by decide, C4_header_footer_agree 4096 st2c [4224, 4112] 5000 reach_st2c (by decide)⟩

theorem layout_sizes (h : Nat) (F : List (Nat × Nat)) :
    ((layout h F).map (fun b => b.2.1)).sum = total F := by
  induction F generalizing h with
  | nil => rfl
  | cons c cs ih => simp only [layout, List.map_cons, List.sum_cons, total, ih]

/-- C5 counterexample: right after `mm_init` the provider has handed out 272
bytes, while the stored sizes of the walk (prologue 8, free block 256, epilogue
0) plus the 4 bytes of padding add up to 268. -/
theorem C5_sum_counterexample :
    ∃ W e, heap_walk st0.mem 5000 st0.heap_listp = some (W, e) ∧
      SIZE st0.mem (HEADP e) = 0 ∧ ALLOC_BIT st0.mem (HEADP e) = 1 ∧
      ¬ ((W.map (fun b => b.2.1)).sum + SIZE st0.mem (HEADP e) + 4 = st0.brk - pre0.brk) :=
  ⟨[(4104, 8, 1), (4112, 256, 0)], 4368, by decide, by decide, by decide, by decide⟩

/-- C5 as amended (invariants I5 and I3): on a reachable heap the walk from the
prologue ends, after finitely many steps, at a header word with size 0 and
allocated bit 1 that occupies the last 4 bytes handed out by the provider; and
the stored sizes of all blocks of the walk (prologue and zero-size epilogue
included) plus the 4 bytes of padding plus the 4 bytes of the epilogue header
itself equal the number of bytes obtained from the provider. -/
theorem C5_epilogue_and_sum (base : Nat) (st : State) (L : List Nat) (fuel : Nat)
    (hR : Reach base st L) (hfuel : st.brk ≤ fuel) :
    ∃ W e, heap_walk st.mem fuel st.heap_listp = some (W, e) ∧
      SIZE st.mem (HEADP e) = 0 ∧ ALLOC_BIT st.mem (HEADP e) = 1 ∧
      HEADP e + 4 = st.brk ∧ base ≤ st.brk ∧
      (W.map (fun b => b.2.1)).sum + SIZE st.mem (HEADP e) + 4 + 4 = st.brk - base := by
  obtain ⟨F, I⟩ := reach_inv base st L hR
  have hb := I.brk
  have he : HEADP st.brk = base + 4 + total F := by rw [hb]; simp [HEADP, WS]
  have h1 : SIZE st.mem (HEADP st.brk) = 0 := by
    rw [he]; exact SIZE_of _ _ 0 1 I.epi rfl (le_refl _)
  have h2 : ALLOC_BIT st.mem (HEADP st.brk) = 1 := by
    rw [he]; exact ALLOC_of _ _ 0 1 I.epi rfl (le_refl _)
  refine ⟨_, _, inv_walk base st F L I fuel hfuel, h1, h2, ?_, by omega, ?_⟩
  · rw [he, hb]
  · rw [h1, layout_sizes, hb]; omega

theorem C5_epilogue_and_sum_witness :
    Reach 4096 st2c [4224, 4112] ∧ st2c.brk ≤ 5000 ∧
    ∃ W e, heap_walk st2c.mem 5000 st2c.heap_listp = some (W, e) ∧
      SIZE st2c.mem (HEADP e) = 0 ∧ ALLOC_BIT st2c.mem (HEADP e) = 1 ∧
      HEADP e + 4 = st2c.brk ∧ 4096 ≤ st2c.brk ∧
      (W.map (fun b => b.2.1)).sum + SIZE st2c.mem (HEADP e) + 4 + 4 = st2c.brk - 4096 :=
  ⟨reach_st2c, by decide, C5_epilogue_and_sum 4096 st2c [4224, 4112] 5000 reach_st2c (by decide)⟩

theorem malloc_aligned (base : Nat) (st : State) (F : List (Nat × Nat)) (L : List Nat)
    (fuel size : Nat) (I : Inv base st F L) (hb : base % 8 = 0) (hlt : size < 2147483648)
    (hfuel : st.brk ≤ fuel) :
    ∃ p st1, mm_malloc fuel st size = some (p, st1) ∧ (p ≠ 0 → p % 8 = 0) := by
  obtain ⟨p, st1, F1, hm, I1, -, -, hp⟩ := malloc_inv base st F L fuel size I hlt hfuel
  refine ⟨p, st1, hm, fun hp0 => ?_⟩
  obtain ⟨G, S, R, rfl, rfl, -⟩ := hp hp0
  have := seg_total_mod _ _ _ ((seg_append _ _ _ _).1 I1.seg).1
  omega

/-- C6 (invariant I4): when the provider's region starts at an 8-byte-aligned
address, every non-null pointer returned by `mm_malloc` or `mm_realloc` on a
reachable heap is a multiple of 8. -/
theorem C6_alignment (base : Nat) (st : State) (L : List Nat) (fuel size : Nat)
    (hR : Reach base st L) (hb : base % 8 = 0) (hlt : size < 2147483648)
    (hfuel : st.brk ≤ fuel) :
    (∃ p st1, mm_malloc fuel st size = some (p, st1) ∧ (p ≠ 0 → p % 8 = 0)) ∧
    (∀ ptr, ptr = 0 ∨ ptr ∈ L →
      ∃ q st1, mm_realloc fuel st ptr size = some (q, st1) ∧ (q ≠ 0 → q % 8 = 0)) := by
  obtain ⟨F, I⟩ := reach_inv base st L hR
  obtain ⟨p, st1, hm, hp⟩ := malloc_aligned base st F L fuel size I hb hlt hfuel
  refine ⟨⟨p, st1, hm, hp⟩, ?_⟩
  intro ptr hptr
  by_cases h0 : ptr = 0
  · refine ⟨p, st1, ?_, hp⟩
    unfold mm_realloc; rw [if_pos h0]; exact hm
  · by_cases hs : size = 0
    · refine ⟨0, mm_free st ptr, ?_, fun h => absurd rfl h⟩
      unfold mm_realloc; rw [if_neg h0, if_pos hs]
    · exact ⟨p, _, mm_realloc_eq fuel st ptr size p st1 h0 hs hm, hp⟩

theorem C6_alignment_witness :
    Reach 4096 st2c [4224, 4112] ∧ 4096 % 8 = 0 ∧ 300 < 2147483648 ∧ st2c.brk ≤ 5000 ∧
    ((∃ p st1, mm_malloc 5000 st2c 300 = some (p, st1) ∧ (p ≠ 0 → p % 8 = 0)) ∧
    (∀ ptr, ptr = 0 ∨ ptr ∈ [4224, 4112] →
      ∃ q st1, mm_realloc 5000 st2c ptr 300 = some (q, st1) ∧ (q ≠ 0 → q % 8 = 0))) :=
  ⟨reach_st2c, by decide, by decide, by decide,
    C6_alignment 4096 st2c [4224, 4112] 5000 300 reach_st2c (by decide) (by decide) (by decide)⟩

theorem malloc_st2c : mm_malloc 5000 st2c 300 = some (4432, st3c) := by rfl

theorem reach_stA : Reach 4096 stA [] :=
  Reach.init pre1 stA rfl (by decide) (Prod.ext (by decide) rfl)

theorem malloc_stA : mm_malloc 5000 stA 8 = some (4112, stB) := by rfl

theorem reach_stB : Reach 4096 stB [4112] :=
  Reach.malloc stA [] 5000 8 4112 stB reach_stA (by decide) malloc_stA

/-- C7: on a reachable heap, for a live pointer `p` and `0 < newSize < 2^31`
for which the internal allocation returns a non-null `q`, `mm_realloc(p,
newSize)` returns `q`, `q ≠ p`, the first `min(S_old - 8, newSize)` payload
bytes at `q` equal the bytes that `p`'s payload held before the call, `q`'s
block is allocated with capacity at least `newSize`, and `p`'s old block lies
inside a free block of the walk afterwards. -/
theorem C7_realloc_copy (base : Nat) (st : State) (L : List Nat) (fuel p size q : Nat)
    (st1 : State) (hR : Reach base st L) (hp : p ∈ L) (h0 : 0 < size)
    (hlt : size < 2147483648) (hfuel : st.brk ≤ fuel)
    (hm : mm_malloc fuel st size = some (q, st1)) (hq : q ≠ 0) :
    ∃ st2, mm_realloc fuel st p size = some (q, st2) ∧ q ≠ p ∧
      (∀ i, i < min (SIZE st.mem (HEADP p) - 8) size → st2.mem (q + i) = st.mem (p + i)) ∧
      ALLOC_BIT st2.mem (HEADP q) = 1 ∧ ALLOC_BIT st2.mem (FOOTP st2.mem q) = 1 ∧
      size ≤ SIZE st2.mem (HEADP q) - 8 ∧
      ∀ fuel2, st2.brk ≤ fuel2 →
        ∃ W e, heap_walk st2.mem fuel2 st2.heap_listp = some (W, e) ∧
          ∃ b ∈ W, b.2.2 = 0 ∧ b.1 ≤ p ∧ p + SIZE st.mem (HEADP p) ≤ b.1 + b.2.1 := by
  obtain ⟨F, I⟩ := reach_inv base st L hR
  obtain ⟨F2, S, hr, I2, hqp, hcopy, hB, hq4, hS, G, T, R, rfl, hG1, hG2⟩ :=
    realloc_spec base st F L fuel p size q st1 I hp (by omega) hlt hfuel hm hq
  have ha := (adjust_facts size hlt).2.2.2
  have hB' : Blk (mm_free (copied st1 q p size) p).mem (q - 4) S 1 := hB
  have e : q - 4 + 4 = q := by omega
  obtain ⟨r1, r2, r3, r4⟩ := blk_reads _ _ _ _ hB'
  rw [e] at r1 r2 r3 r4
  refine ⟨_, hr, hqp, hcopy, r2, r4, by rw [r1]; omega, ?_⟩
  intro fuel2 hf2
  refine ⟨_, _, inv_walk base _ _ _ I2 fuel2 hf2, (base + 4 + total G + 4, T, 0), ?_, rfl, hG1,
    hG2⟩
  rw [layout_append]
  exact List.mem_append_right _ (List.mem_cons_self _ _)

theorem C7_realloc_copy_witness :
    Reach 4096 st2c [4224, 4112] ∧ 4112 ∈ [4224, 4112] ∧ 0 < 300 ∧ 300 < 2147483648 ∧
    st2c.brk ≤ 5000 ∧ mm_malloc 5000 st2c 300 = some (4432, st3c) ∧ 4432 ≠ 0 ∧
    ∃ st2, mm_realloc 5000 st2c 4112 300 = some (4432, st2) ∧ 4432 ≠ 4112 ∧
      (∀ i, i < min (SIZE st2c.mem (HEADP 4112) - 8) 300 →
        st2.mem (4432 + i) = st2c.mem (4112 + i)) ∧
      ALLOC_BIT st2.mem (HEADP 4432) = 1 ∧ ALLOC_BIT st2.mem (FOOTP st2.mem 4432) = 1 ∧
      300 ≤ SIZE st2.mem (HEADP 4432) - 8 ∧
      ∀ fuel2, st2.brk ≤ fuel2 →
        ∃ W e, heap_walk st2.mem fuel2 st2.heap_listp = some (W, e) ∧
          ∃ b ∈ W, b.2.2 = 0 ∧ b.1 ≤ 4112 ∧ 4112 + SIZE st2c.mem (HEADP 4112) ≤ b.1 + b.2.1 :=
  ⟨reach_st2c, by decide, by decide, by decide, by decide, malloc_st2c, by decide,
    C7_realloc_copy 4096 st2c [4224, 4112] 5000 4112 300 4432 st3c reach_st2c (by decide)
      (by decide) (by decide) (by decide) malloc_st2c (by decide)⟩

/-- C8 fails on the code: `mm_realloc` uses the result of `mm_malloc` without a
null check.  On the reachable heap `stB` (live block at `4112`, no free block
of 1008 bytes, provider exhausted) `mm_realloc(4112, 1000)` returns null, yet
the block at `4112`, allocated before the call, has been released. -/
theorem C8_realloc_failure_releases :
    Reach 4096 stB [4112] ∧ mem_sbrk stB 1008 = none ∧
    heap_walk stB.mem 5000 stB.heap_listp
      = some ([(4104, 8, 1), (4112, 16, 1), (4128, 240, 0)], 4368) ∧
    ALLOC_BIT stB.mem (HEADP 4112) = 1 ∧
    ∃ st2, mm_realloc 5000 stB 4112 1000 = some (0, st2) ∧
      ALLOC_BIT st2.mem (HEADP 4112) = 0 ∧
      heap_walk st2.mem 5000 st2.heap_listp = some ([(4104, 8, 1), (4112, 256, 0)], 4368) :=
  ⟨reach_stB, rfl, by decide, by decide, _, rfl, by decide, by decide⟩

theorem layout_mem_of (h : Nat) (F : List (Nat × Nat)) (c : Nat × Nat) (hc : c ∈ F) :
    ∃ b ∈ layout h F, b.2.1 = c.1 ∧ b.2.2 = c.2 := by
  induction F generalizing h with
  | nil => simp at hc
  | cons d ds ih =>
    rcases List.mem_cons.1 hc with rfl | hc
    · exact ⟨_, List.mem_cons_self _ _, rfl, rfl⟩
    · obtain ⟨b, hb, e⟩ := ih (h + d.1) hc
      exact ⟨b, List.mem_cons_of_mem _ hb, e⟩

/-- C9: on a reachable heap, for `0 < size < 2^31`, if no free block of the
walk has a stored size of at least `adjusted` and the provider refuses the
request of `max(adjusted, 256)` bytes, then `mm_malloc(size)` returns null and
the state (every byte, the heap end) is unchanged. -/
theorem C9_malloc_failure (base : Nat) (st : State) (L : List Nat) (fuel size adjusted : Nat)
    (hR : Reach base st L) (_h0 : 0 < size) (hlt : size < 2147483648) (hfuel : st.brk ≤ fuel)
    (h1 : size ≤ 8 → adjusted = 16)
    (h2 : 8 < size → adjusted % 8 = 0 ∧ size + 8 ≤ adjusted ∧
      ∀ k, k % 8 = 0 → size + 8 ≤ k → adjusted ≤ k)
    (hnofit : ∀ W e, heap_walk st.mem fuel st.heap_listp = some (W, e) →
      ∀ b ∈ W, b.2.2 = 0 → b.2.1 < adjusted)
    (hrefuse : mem_sbrk st (max adjusted CHUNKSIZE) = none) :
    mm_malloc fuel st size = some (0, st) := by
  obtain ⟨F, I⟩ := reach_inv base st L hR
  have ha := adjust_unique size adjusted hlt h1 h2
  have hw := hnofit _ _ (inv_walk base st F L I fuel hfuel)
  have hno : ∀ c ∈ F, ¬ fits (adjust size) c := by
    rintro c hc ⟨hc0, hcs⟩
    obtain ⟨b, hb, e1, e2⟩ := layout_mem_of (base + 4) F c hc
    have := hw b hb (by rw [e2]; exact hc0)
    rw [e1, ha] at this
    omega
  have hg : growSize (adjust size) = max adjusted CHUNKSIZE := by
    rw [ha]; unfold growSize CHUNKSIZE; split <;> omega
  have hfail : st.mem_max < st.brk + growSize (adjust size) := by
    rw [hg]
    unfold mem_sbrk at hrefuse
    by_cases h : st.brk + max adjusted CHUNKSIZE ≤ st.mem_max
    · rw [if_pos h] at hrefuse; simp at hrefuse
    · omega
  exact malloc_fail base st F L fuel size I hlt hno hfuel hfail

theorem C9_malloc_failure_witness :
    Reach 4096 stB [4112] ∧ 0 < 1000 ∧ 1000 < 2147483648 ∧ stB.brk ≤ 5000 ∧
    ((1000 : Nat) ≤ 8 → (1008 : Nat) = 16) ∧
    ((8 : Nat) < 1000 → 1008 % 8 = 0 ∧ 1000 + 8 ≤ 1008 ∧
      ∀ k, k % 8 = 0 → 1000 + 8 ≤ k → 1008 ≤ k) ∧
    (∀ W e, heap_walk stB.mem 5000 stB.heap_listp = some (W, e) →
      ∀ b ∈ W, b.2.2 = 0 → b.2.1 < 1008) ∧
    mem_sbrk stB (max 1008 CHUNKSIZE) = none ∧
    mm_malloc 5000 stB 1000 = some (0, stB) :=
  have hw : heap_walk stB.mem 5000 stB.heap_listp
      = some ([(4104, 8, 1), (4112, 16, 1), (4128, 240, 0)], 4368) := by decide
  have hnofit : ∀ W e, heap_walk stB.mem 5000 stB.heap_listp = some (W, e) →
      ∀ b ∈ W, b.2.2 = 0 → b.2.1 < 1008 := by
    intro W e h b hb _
    rw [hw] at h
    obtain ⟨rfl, -⟩ := Prod.mk.inj (Option.some.inj h)
    simp only [List.mem_cons, List.mem_singleton, List.not_mem_nil, or_false] at hb
    rcases hb with rfl | rfl | rfl <;> decide
  ⟨reach_stB, by decide, by decide, by decide, by decide,
    fun _ => ⟨by decide, by decide, fun k hk1 hk2 => by omega⟩, hnofit, rfl,
    C9_malloc_failure 4096 stB [4112] 5000 1000 1008 reach_stB (by decide) (by decide)
      (by decide) (by decide) (fun _ => ⟨by decide, by decide, fun k hk1 hk2 => by omega⟩)
      hnofit rfl⟩

/-- C10 counterexample: right after `mm_init` the free bytes are 256;
`p = mm_malloc(1000)` has to grow the heap by 1008 bytes, and after `mm_free(p)`
the free bytes are 1264. -/
theorem C10_growth_counterexample :
    ∃ p st1 W e W2 e2, mm_malloc 5000 st0 1000 = some (p, st1) ∧
      heap_walk st0.mem 5000 st0.heap_listp = some (W, e) ∧
      heap_walk (mm_free st1 p).mem 5000 (mm_free st1 p).heap_listp = some (W2, e2) ∧
      freeBytes W = 256 ∧ freeBytes W2 = 1264 ∧ ¬ (freeBytes W2 = freeBytes W) :=
  ⟨4112, _, [(4104, 8, 1), (4112, 256, 0)], 4368, [(4104, 8, 1), (4112, 1264, 0)], 5376,
    rfl, by decide, by decide, by decide, by decide, by decide⟩

/-- C10 as amended: on a reachable heap, `p = mm_malloc(size)` (size below
`2^31`) immediately followed by `mm_free(p)` leaves the total free heap bytes
equal to their value before the allocation plus the number of bytes by which
`mm_malloc` grew the heap; they return to the earlier value exactly when the
heap was not grown. -/
theorem C10_free_bytes (base : Nat) (st : State) (L : List Nat) (fuel size : Nat)
    (hR : Reach base st L) (hlt : size < 2147483648) (hfuel : st.brk ≤ fuel) :
    ∃ p st1 W e, mm_malloc fuel st size = some (p, st1) ∧
      heap_walk st.mem fuel st.heap_listp = some (W, e) ∧ st.brk ≤ st1.brk ∧
      ∀ fuel2, st1.brk ≤ fuel2 →
        ∃ W2 e2, heap_walk (mm_free st1 p).mem fuel2 (mm_free st1 p).heap_listp
            = some (W2, e2) ∧
          freeBytes W2 = freeBytes W + (st1.brk - st.brk) ∧
          (st1.brk = st.brk → freeBytes W2 = freeBytes W) := by
  obtain ⟨F, I⟩ := reach_inv base st L hR
  have hw := inv_walk base st F L I
  -- the cases in which the heap is left as it was
  have hsame : mm_malloc fuel st size = some (0, st) →
      ∃ p st1 W e, mm_malloc fuel st size = some (p, st1) ∧
      heap_walk st.mem fuel st.heap_listp = some (W, e) ∧ st.brk ≤ st1.brk ∧
      ∀ fuel2, st1.brk ≤ fuel2 →
        ∃ W2 e2, heap_walk (mm_free st1 p).mem fuel2 (mm_free st1 p).heap_listp
            = some (W2, e2) ∧
          freeBytes W2 = freeBytes W + (st1.brk - st.brk) ∧
          (st1.brk = st.brk → freeBytes W2 = freeBytes W) := by
    intro hm
    refine ⟨0, st, _, _, hm, hw fuel hfuel, le_refl _, fun fuel2 hf2 => ?_⟩
    have e : mm_free st 0 = st := rfl
    rw [e]
    exact ⟨_, _, hw fuel2 hf2, by omega, fun _ => rfl⟩
  -- the cases in which a block was installed and is released again
  have hinst : ∀ (p : Nat) (st1 : State) (G : List (Nat × Nat)) (gs : Nat) (R : List (Nat × Nat))
      (L1 : List Nat), mm_malloc fuel st size = some (p, st1) → p = base + 4 + total G + 4 →
      Inv base st1 (G ++ split gs (adjust size) ++ R) L1 → adjust size ≤ gs →
      st.brk ≤ st1.brk → freeTotal G + gs + freeTotal R = freeTotal F + (st1.brk - st.brk) →
      ∃ p st1 W e, mm_malloc fuel st size = some (p, st1) ∧
      heap_walk st.mem fuel st.heap_listp = some (W, e) ∧ st.brk ≤ st1.brk ∧
      ∀ fuel2, st1.brk ≤ fuel2 →
        ∃ W2 e2, heap_walk (mm_free st1 p).mem fuel2 (mm_free st1 p).heap_listp
            = some (W2, e2) ∧
          freeBytes W2 = freeBytes W + (st1.brk - st.brk) ∧
          (st1.brk = st.brk → freeBytes W2 = freeBytes W) := by
    intro p st1 G gs R L1 hm hp I1 hle hb hft
    refine ⟨p, st1, _, _, hm, hw fuel hfuel, hb, fun fuel2 hf2 => ?_⟩
    obtain ⟨F2, I2, hb2, hft2⟩ := free_after_split base st1 L1 G gs (adjust size) R I1 hle
      (adjust_facts size hlt).2.1
    rw [← hp] at I2 hb2
    refine ⟨_, _, inv_walk base _ _ _ I2 fuel2 (by rw [hb2]; exact hf2), ?_, ?_⟩
    · rw [freeBytes_layout, freeBytes_layout, hft2, hft]
    · intro hbe
      rw [freeBytes_layout, freeBytes_layout, hft2, hft, hbe]; omega
  by_cases hsize : size = 0
  · subst hsize; exact hsame rfl
  obtain ⟨a1, a2, a3, a4⟩ := adjust_facts size hlt
  by_cases hfit : ∃ b ∈ F, fits (adjust size) b
  · obtain ⟨pre, s, post, rfl, hno, hle⟩ := first_fit_split _ _ hfit
    obtain ⟨i1, i2, -⟩ := insert_inv base st L pre s post (adjust size) I a1 a2 hle
    refine hinst _ _ pre s post _ (malloc_fit base st L pre s post fuel size I hsize hno hle hfuel)
      rfl i1 hle (by rw [i2]) ?_
    rw [i2, freeTotal_append]; simp only [freeTotal, if_true]; omega
  · have hno : ∀ b ∈ F, ¬ fits (adjust size) b := fun b hb hf => hfit ⟨b, hb, hf⟩
    by_cases hok : st.brk + growSize (adjust size) ≤ st.mem_max
    · obtain ⟨bs, hbs⟩ := I.head
      rcases List.eq_nil_or_concat F with h | ⟨pre, x, h⟩
      · rw [h] at hbs; simp at hbs
      · rw [List.concat_eq_append] at h
        obtain ⟨sp, ap⟩ := x
        subst h
        obtain ⟨st1, h1, h2, h3, -⟩ := malloc_grow base st L pre sp ap fuel size I hsize hlt hno
          hfuel hok
        obtain ⟨g1, g2, g3, g4⟩ := growSize_facts (adjust size) a1 a3
        refine hinst _ st1 (grownPre pre sp ap) _ [] _ h1 ?_ h2 (by omega) (by omega) ?_
        · unfold grownPre
          split
          · simp
          · rw [total_append]; simp [total]; omega
        · rw [h3, freeTotal_append]
          unfold grownPre
          by_cases h0 : ap = 0
          · simp only [h0, if_true, freeTotal]; omega
          · simp only [h0, if_false, freeTotal, freeTotal_append]; omega
    · exact hsame (malloc_fail base st F L fuel size I hlt hno hfuel (by omega))

theorem C10_free_bytes_witness :
    Reach 4096 st2c [4224, 4112] ∧ 100 < 2147483648 ∧ st2c.brk ≤ 5000 ∧
    ∃ p st1 W e, mm_malloc 5000 st2c 100 = some (p, st1) ∧
      heap_walk st2c.mem 5000 st2c.heap_listp = some (W, e) ∧ st2c.brk ≤ st1.brk ∧
      ∀ fuel2, st1.brk ≤ fuel2 →
        ∃ W2 e2, heap_walk (mm_free st1 p).mem fuel2 (mm_free st1 p).heap_listp
            = some (W2, e2) ∧
          freeBytes W2 = freeBytes W + (st1.brk - st2c.brk) ∧
          (st1.brk = st2c.brk → freeBytes W2 = freeBytes W) :=
  ⟨reach_st2c, by decide, by decide,
    C10_free_bytes 4096 st2c [4224, 4112] 5000 100 reach_st2c (by decide) (by decide)⟩

/-! ## Initialisation, explicitly -/

theorem blk_reads_foot (m : Mem) (h s a : Nat) (hb : Blk m h s a) :
    SIZE m (FOOTP m (h + 4)) = s ∧ NEXT_BLP m (h + 4) = h + 4 + s ∧
    GET m (HEADP (h + 4)) = GET m (FOOTP m (h + 4)) := by
  obtain ⟨r1, _, r3, _⟩ := blk_reads m h s a hb
  obtain ⟨b1, b2, b3, b4, b5⟩ := hb
  have e0 : HEADP (h + 4) = h := by simp [HEADP, WS]
  refine ⟨?_, ?_, ?_⟩
  · rw [r3]; exact SIZE_of _ _ _ _ b5 b2 b3
  · unfold NEXT_BLP; rw [r1]
  · rw [r3, e0, b4, b5]

theorem init_extend (pre : State) (h : pre.brk + 16 + 256 ≤ pre.mem_max) :
    extend_heap (initState pre) (CHUNKSIZE / WS) =
      (pre.brk + 16, { initState pre with
        brk := pre.brk + 16 + 256
        mem := PUT (tag2 (initState pre).mem (pre.brk + 12) 256 0) (pre.brk + 268) 1 }) := by
  have hE : (if (CHUNKSIZE / WS) % 2 = 0 then (CHUNKSIZE / WS * WS) % WORD
      else ((CHUNKSIZE / WS + 1) * WS) % WORD) = 256 := by decide
  have hs : SUM DS 1 = 9 := by decide
  have e0 : HEADP (pre.brk + 16) = pre.brk + 12 := by simp only [HEADP, WS]; omega
  have e1 := put_pair (initState pre).mem (pre.brk + 12) 256 0 (by omega) (by omega) (by omega)
    (by omega)
  have e1b : pre.brk + 12 + 4 = pre.brk + 16 := by omega
  rw [e1b] at e1
  have e2 : pre.brk + 16 + 256 - WS = pre.brk + 268 := by simp only [WS]; omega
  have hb : (initState pre).brk = pre.brk + 16 := rfl
  have hmx : (initState pre).mem_max = pre.mem_max := rfl
  have hm : extend_heap (initState pre) (CHUNKSIZE / WS) =
      coalesce { initState pre with
        brk := pre.brk + 16 + 256
        mem := PUT (tag2 (initState pre).mem (pre.brk + 12) 256 0) (pre.brk + 268) 1 }
        (pre.brk + 16) := by
    unfold extend_heap
    simp only [hE, mem_sbrk, hb, hmx]
    rw [if_pos h]
    simp only [e0, e1, e2]
  rw [hm]
  have g1 : GET (initState pre).mem (pre.brk + 4) = 9 := by
    simp only [initState, hs]
    rw [GET_PUT_other _ _ _ _ (by omega), GET_PUT_other _ _ _ _ (by omega), GET_PUT_same]
  have g2 : GET (initState pre).mem (pre.brk + 8) = 9 := by
    simp only [initState, hs]
    rw [GET_PUT_other _ _ _ _ (by omega), GET_PUT_same]
  have hB := tag2_blk (initState pre).mem (pre.brk + 12) 256 0 (by omega) (by omega) (by omega)
    (by omega)
  have A : Around (PUT (tag2 (initState pre).mem (pre.brk + 12) 256 0) (pre.brk + 268) 1)
      (pre.brk + 4) 8 1 256 0 1 := by
    refine ⟨by omega, by omega, by omega, ?_, ?_, by omega, by omega, ?_, by omega, by omega, ?_⟩
    · rw [GET_PUT_other _ _ _ _ (by omega)]
      exact (GET_congr _ _ _ (fun x _ _ => tag2_other _ _ _ _ _ (by omega) (by omega))).trans g1
    · rw [GET_PUT_other _ _ _ _ (by omega)]
      exact (GET_congr _ _ _ (fun x _ _ => tag2_other _ _ _ _ _ (by omega) (by omega))).trans g2
    · rw [GET_PUT_other _ _ _ _ (by omega)]
      have := hB.2.2.2.1
      have e : pre.brk + 4 + 8 = pre.brk + 12 := by omega
      rw [e]; simpa using this
    · have e : pre.brk + 4 + 8 + 256 = pre.brk + 268 := by omega
      rw [e, GET_PUT_same]
  have e3 : pre.brk + 4 + 8 + 4 = pre.brk + 16 := by omega
  have := coalesce_11 { initState pre with
        brk := pre.brk + 16 + 256
        mem := PUT (tag2 (initState pre).mem (pre.brk + 12) 256 0) (pre.brk + 268) 1 }
      (pre.brk + 4) 8 256 0 A
  rw [e3] at this
  exact this

/-- The heap that `mm_init` leaves when both requests are granted. -/
theorem init_heap (pre : State) (h : pre.brk + 16 + 256 ≤ pre.mem_max) :
    ∃ st, mm_init pre = (0, st) ∧ st.heap_listp = pre.brk + 8 ∧ st.brk = pre.brk + 16 + 256 ∧
      GET st.mem pre.brk = 0 ∧ Seg st.mem (pre.brk + 4) [(8, 1), (256, 0)] ∧
      GET st.mem (pre.brk + 268) = 1 := by
  have hs : SUM DS 1 = 9 := by decide
  have g0 : GET (initState pre).mem pre.brk = 0 := by
    simp only [initState, hs]
    rw [GET_PUT_other _ _ _ _ (by omega), GET_PUT_other _ _ _ _ (by omega),
      GET_PUT_other _ _ _ _ (by omega), GET_PUT_same]
  have g1 : GET (initState pre).mem (pre.brk + 4) = 9 := by
    simp only [initState, hs]
    rw [GET_PUT_other _ _ _ _ (by omega), GET_PUT_other _ _ _ _ (by omega), GET_PUT_same]
  have g2 : GET (initState pre).mem (pre.brk + 8) = 9 := by
    simp only [initState, hs]
    rw [GET_PUT_other _ _ _ _ (by omega), GET_PUT_same]
  have hB := tag2_blk (initState pre).mem (pre.brk + 12) 256 0 (by omega) (by omega) (by omega)
    (by omega)
  refine ⟨{ initState pre with
        brk := pre.brk + 16 + 256
        mem := PUT (tag2 (initState pre).mem (pre.brk + 12) 256 0) (pre.brk + 268) 1 },
    ?_, ?_, ?_, ?_, ?_, ?_⟩
  · rw [mm_init_eq pre (by omega), init_extend pre h]
    rw [if_neg (by show ¬ pre.brk + 16 = 0; omega)]
  · simp [initState, DS]
  · rfl
  · show GET (PUT _ _ _) _ = _
    rw [GET_PUT_other _ _ _ _ (by omega)]
    exact (GET_congr _ _ _ (fun x _ _ => tag2_other _ _ _ _ _ (by omega) (by omega))).trans g0
  · show Seg (PUT _ _ _) _ _
    have e : pre.brk + 4 + 8 = pre.brk + 12 := by omega
    refine ⟨⟨by omega, by omega, by omega, ?_, ?_⟩, ?_, trivial⟩
    · rw [GET_PUT_other _ _ _ _ (by omega)]
      exact (GET_congr _ _ _ (fun x _ _ => tag2_other _ _ _ _ _ (by omega) (by omega))).trans g1
    · rw [GET_PUT_other _ _ _ _ (by omega)]
      exact (GET_congr _ _ _ (fun x _ _ => tag2_other _ _ _ _ _ (by omega) (by omega))).trans g2
    · simp only [e]
      exact blk_frame _ _ _ _ _ (fun x _ hx2 => PUT_other _ _ _ _ (by omega)) hB
  · show GET (PUT _ _ _) _ = _
    rw [GET_PUT_same]

/-! ## Growth, live blocks and the size adjustment -/

/-- Growing: the block handed out and the new break. -/
theorem malloc_grow_block (base : Nat) (st : State) (F : List (Nat × Nat)) (L : List Nat)
    (fuel size : Nat) (I : Inv base st F L) (hsize : size ≠ 0) (hlt : size < 2147483648)
    (hno : ∀ b ∈ F, ¬ fits (adjust size) b) (hfuel : st.brk ≤ fuel)
    (hok : st.brk + growSize (adjust size) ≤ st.mem_max) :
    ∃ p st1 G S R, mm_malloc fuel st size = some (p, st1) ∧
      Inv base st1 (G ++ (S, 1) :: R) (p :: L) ∧ p = base + 4 + total G + 4 ∧
      adjust size ≤ S ∧ st1.brk = st.brk + growSize (adjust size) := by
  obtain ⟨a1, a2, a3, a4⟩ := adjust_facts size hlt
  obtain ⟨bs, hbs⟩ := I.head
  rcases List.eq_nil_or_concat F with h | ⟨pre, x, h⟩
  · rw [h] at hbs; simp at hbs
  · rw [List.concat_eq_append] at h
    obtain ⟨sp, ap⟩ := x
    subst h
    obtain ⟨st1, h1, h2, h3, h4⟩ := malloc_grow base st L pre sp ap fuel size I hsize hlt hno
      hfuel hok
    obtain ⟨g1, g2, g3, g4⟩ := growSize_facts (adjust size) a1 a3
    obtain ⟨S, R, hS, hS2⟩ := split_head ((if ap = 0 then sp else 0) + growSize (adjust size))
      (adjust size)
    have hS3 := hS2 (by omega)
    refine ⟨_, st1, grownPre pre sp ap, S, R, h1, ?_, ?_, hS3.1, h3⟩
    · rw [hS, List.append_nil] at h2; exact h2
    · unfold grownPre
      split
      · simp
      · rw [total_append]; simp [total]; omega

/-- The walk around a block of a heap that satisfies the invariant. -/
theorem inv_block_walk (base : Nat) (st : State) (L : List Nat) (G : List (Nat × Nat))
    (S : Nat) (R : List (Nat × Nat)) (I : Inv base st (G ++ (S, 1) :: R) L) (h16 : 16 ≤ S)
    (fuel : Nat) (hfuel : st.brk ≤ fuel) :
    st.heap_listp + 8 ≤ base + 4 + total G + 4 ∧ base + 4 + total G + 4 + S ≤ st.brk ∧
    ∃ W, heap_walk st.mem fuel st.heap_listp = some (W, st.brk) ∧
      (base + 4 + total G + 4, S, 1) ∈ W ∧
      ((base + 4 + total G + 4 + S = st.brk ∧
          SIZE st.mem (HEADP (base + 4 + total G + 4 + S)) = 0 ∧
          ALLOC_BIT st.mem (HEADP (base + 4 + total G + 4 + S)) = 1) ∨
        ∃ c ∈ W, c.1 = base + 4 + total G + 4 + S) := by
  have hw := inv_walk base st _ L I fuel hfuel
  have htot : total (G ++ (S, 1) :: R) = total G + S + total R := by
    rw [total_append]; simp only [total]; omega
  have hG : 8 ≤ total G := by
    obtain ⟨bs, hbs⟩ := I.head
    cases G with
    | nil =>
      simp only [List.nil_append] at hbs
      have := (List.cons.inj hbs).1
      have : S = 8 := (Prod.mk.inj this).1
      omega
    | cons g gs =>
      simp only [List.cons_append] at hbs
      have := (List.cons.inj hbs).1
      subst this
      simp only [total]; omega
  have hbrk := I.brk
  rw [htot] at hbrk
  have hepi := I.epi
  rw [htot] at hepi
  refine ⟨by rw [I.hl]; omega, by omega, _, hw, ?_, ?_⟩
  · rw [layout_append]
    exact List.mem_append_right _ (List.mem_cons_self _ _)
  · cases R with
    | nil =>
      left
      simp only [total, Nat.add_zero] at hbrk hepi
      have e : HEADP (base + 4 + total G + 4 + S) = base + 4 + (total G + S) := by
        simp only [HEADP, WS]; omega
      rw [e]
      exact ⟨by omega, SIZE_of _ _ 0 1 (by simpa using hepi) rfl (le_refl _),
        ALLOC_of _ _ 0 1 (by simpa using hepi) rfl (le_refl _)⟩
    | cons c R =>
      right
      refine ⟨(base + 4 + total G + S + 4, c.1, c.2), ?_, by simp only; omega⟩
      rw [layout_append]
      refine List.mem_append_right _ ?_
      simp only [layout]
      exact List.mem_cons_of_mem _ (List.mem_cons_self _ _)

/-- A live pointer is an allocated block of the walk. -/
theorem live_in_layout (base : Nat) (st : State) (F : List (Nat × Nat)) (L : List Nat)
    (I : Inv base st F L) (q : Nat) (hq : q ∈ L) :
    ∃ s, (q, s, 1) ∈ layout (base + 4) F ∧ SIZE st.mem (HEADP q) = s ∧ 8 ≤ s := by
  obtain ⟨pre, sp, ap, s, post, rfl, rfl⟩ := live_split base st F L I q hq
  have e : pre ++ (sp, ap) :: (s, 1) :: post = (pre ++ [(sp, ap)]) ++ (s, 1) :: post := by simp
  have ht : total (pre ++ [(sp, ap)]) = total pre + sp := by
    rw [total_append]; simp [total]
  rw [e] at I
  have hB := inv_blk base st L _ s 1 post I
  rw [ht, ← Nat.add_assoc] at hB
  refine ⟨s, ?_, (blk_reads _ _ _ _ hB).1, hB.1⟩
  rw [e, layout_append, ht]
  refine List.mem_append_right _ ?_
  simp only [layout]
  rw [← Nat.add_assoc]
  exact List.mem_cons_self _ _

/-- Without wrap-around the adjusted size is the least multiple of 8 that is
at least `size + 8`. -/
theorem adjust_no_wrap (size : Nat) (h : 8 < size) (hlt : size + 15 < 4294967296) :
    adjust size = (size + 15) / 8 * 8 ∧ adjust size % 8 = 0 ∧ size + 8 ≤ adjust size ∧
      adjust size < size + 16 := by
  have h1 : ¬ size ≤ DS := by simp only [DS]; omega
  have h2 : (size + DS) % WORD = size + 8 := by simp only [DS, WORD]; omega
  have h3 : (size + 8 + (ALIGNMENT - 1)) % WORD = size + 15 := by
    simp only [ALIGNMENT, WORD]; omega
  have e : adjust size = (size + 15) / 8 * 8 := by
    unfold adjust
    rw [if_neg h1, h2]
    unfold ALIGN
    rw [h3, mask_eq _ (by omega)]
  rw [e]; omega

/-- Within 15 of the largest 32-bit value the adjusted size wraps to 0 or 8. -/
theorem adjust_near_max (size : Nat) (h : 4294967296 ≤ size + 15) (hlt : size < 4294967296) :
    adjust size ≤ 8 := by
  have h1 : ¬ size ≤ DS := by simp only [DS]; omega
  unfold adjust
  rw [if_neg h1]
  unfold ALIGN
  have hb : ((size + DS) % WORD + (ALIGNMENT - 1)) % WORD < 15 := by
    simp only [DS, WORD, ALIGNMENT]; omega
  rw [mask_eq _ (by omega)]
  omega

/-! ## Claims on growth, the special cases, `mm_init` and the helpers -/

/-- C11: on a reachable heap where no free block has `adjusted` bytes,
`mm_malloc(size)` asks the provider for exactly `max(adjusted, 256)` bytes. If
the provider refuses, null is returned and the heap is unchanged. If it grants,
the break moves by exactly that amount, and the returned pointer is non-null:
its block is allocated in the walk of the new heap, has stored size at least
`adjusted`, lies between the prologue and the new break, and is followed by
another block of the walk or by the epilogue header. In particular
`mm_malloc(512)` right after a successful `mm_init` is not served from the
initial 256-byte block: when the provider grants the 520 bytes asked for, the
break moves by at least 512. -/
theorem C11_growth (base : Nat) (st : State) (L : List Nat) (fuel size adjusted : Nat)
    (hR : Reach base st L) (h0 : 0 < size) (hlt : size < 2147483648) (hfuel : st.brk ≤ fuel)
    (h1 : size ≤ 8 → adjusted = 16)
    (h2 : 8 < size → adjusted % 8 = 0 ∧ size + 8 ≤ adjusted ∧
      ∀ k, k % 8 = 0 → size + 8 ≤ k → adjusted ≤ k)
    (hnofit : ∀ W e, heap_walk st.mem fuel st.heap_listp = some (W, e) →
      ∀ b ∈ W, b.2.2 = 0 → b.2.1 < adjusted) :
    (mem_sbrk st (max adjusted CHUNKSIZE) = none → mm_malloc fuel st size = some (0, st)) ∧
    (∀ old sg, mem_sbrk st (max adjusted CHUNKSIZE) = some (old, sg) →
      ∃ p st1 S, mm_malloc fuel st size = some (p, st1) ∧ p ≠ 0 ∧
        st1.brk = st.brk + max adjusted CHUNKSIZE ∧ st1.brk = sg.brk ∧
        st1.heap_listp = st.heap_listp ∧
        adjusted ≤ S ∧ st1.heap_listp + 8 ≤ p ∧ p + S ≤ st1.brk ∧
        ∀ fuel1, st1.brk ≤ fuel1 →
          ∃ W, heap_walk st1.mem fuel1 st1.heap_listp = some (W, st1.brk) ∧
            (p, S, 1) ∈ W ∧
            ((p + S = st1.brk ∧ SIZE st1.mem (HEADP (p + S)) = 0 ∧
                ALLOC_BIT st1.mem (HEADP (p + S)) = 1) ∨
              ∃ c ∈ W, c.1 = p + S)) ∧
    (∀ pre s0 fuel0 old sg, pre.mem_max < 4294967296 → mm_init pre = (0, s0) →
      s0.brk ≤ fuel0 → mem_sbrk s0 520 = some (old, sg) →
      ∃ p st1, mm_malloc fuel0 s0 512 = some (p, st1) ∧ p ≠ 0 ∧ s0.brk + 512 ≤ st1.brk) := by
  obtain ⟨F, I⟩ := reach_inv base st L hR
  have ha := adjust_unique size adjusted hlt h1 h2
  have hw := hnofit _ _ (inv_walk base st F L I fuel hfuel)
  have hno : ∀ c ∈ F, ¬ fits (adjust size) c := by
    rintro c hc ⟨hc0, hcs⟩
    obtain ⟨b, hb, e1, e2⟩ := layout_mem_of (base + 4) F c hc
    have := hw b hb (by rw [e2]; exact hc0)
    rw [e1, ha] at this
    omega
  have hg : growSize (adjust size) = max adjusted CHUNKSIZE := by
    rw [ha]; unfold growSize CHUNKSIZE; split <;> omega
  obtain ⟨a1, a2, a3, a4⟩ := adjust_facts size hlt
  clear hnofit hw h1 h2
  refine ⟨?_, ?_, ?_⟩
  · intro hrefuse
    have hfail : st.mem_max < st.brk + growSize (adjust size) := by
      rw [hg]
      unfold mem_sbrk at hrefuse
      by_cases h : st.brk + max adjusted CHUNKSIZE ≤ st.mem_max
      · rw [if_pos h] at hrefuse; simp at hrefuse
      · omega
    exact malloc_fail base st F L fuel size I hlt hno hfuel hfail
  · intro old sg hgrant
    unfold mem_sbrk at hgrant
    split at hgrant
    · rename_i hle
      obtain ⟨-, rfl⟩ := Prod.mk.inj (Option.some.inj hgrant)
      rw [← hg] at hle
      obtain ⟨p, st1, G, S, R, e1, I1, e2, e3, e4⟩ :=
        malloc_grow_block base st F L fuel size I (by omega) hlt hno hfuel hle
      have hi := inv_block_walk base st1 (p :: L) G S R I1 (by omega)
      rw [← e2] at hi
      refine ⟨p, st1, S, e1, by omega, by rw [e4, hg], by rw [e4, hg], by rw [I1.hl, I.hl],
        by omega, (hi st1.brk (le_refl _)).1, (hi st1.brk (le_refl _)).2.1, ?_⟩
      intro fuel1 hf1
      exact (hi fuel1 hf1).2.2
    · simp at hgrant
  · intro pre s0 fuel0 old sg hmax hinit hf0 hgrant
    obtain ⟨I0, -⟩ := mm_init_inv pre s0 hmax hinit
    have hadj : adjust 512 = 520 := by decide
    have hgs : growSize 520 = 520 := by decide
    have hle : s0.brk + growSize (adjust 512) ≤ s0.mem_max := by
      rw [hadj, hgs]
      unfold mem_sbrk at hgrant
      split at hgrant
      · assumption
      · simp at hgrant
    obtain ⟨p, st1, G, S, R, e1, -, e2, -, e4⟩ :=
      malloc_grow_block pre.brk s0 _ [] fuel0 512 I0 (by omega) (by omega)
        (by
          intro b hb hfit
          rw [hadj] at hfit
          simp only [List.mem_cons, List.mem_singleton, List.not_mem_nil, or_false] at hb
          rcases hb with rfl | rfl
          · exact absurd hfit.1 (by decide)
          · exact absurd hfit.2 (by decide))
        hf0 hle
    rw [hadj, hgs] at e4
    exact ⟨p, st1, e1, by omega, by omega⟩

theorem C11_growth_witness :
    Reach 4096 st1c [4112] ∧ 0 < 200 ∧ 200 < 2147483648 ∧ st1c.brk ≤ 5000 ∧
    ((200 : Nat) ≤ 8 → (208 : Nat) = 16) ∧
    ((8 : Nat) < 200 → 208 % 8 = 0 ∧ 200 + 8 ≤ 208 ∧
      ∀ k, k % 8 = 0 → 200 + 8 ≤ k → 208 ≤ k) ∧
    (∀ W e, heap_walk st1c.mem 5000 st1c.heap_listp = some (W, e) →
      ∀ b ∈ W, b.2.2 = 0 → b.2.1 < 208) ∧
    mem_sbrk st1c (max 208 CHUNKSIZE) = some (4368, { st1c with brk := 4624 }) ∧
    ∃ p st1 S, mm_malloc 5000 st1c 200 = some (p, st1) ∧ p ≠ 0 ∧
      st1.brk = st1c.brk + max 208 CHUNKSIZE ∧
      st1.brk = ({ st1c with brk := 4624 } : State).brk ∧
      st1.heap_listp = st1c.heap_listp ∧
      208 ≤ S ∧ st1.heap_listp + 8 ≤ p ∧ p + S ≤ st1.brk ∧
      ∀ fuel1, st1.brk ≤ fuel1 →
        ∃ W, heap_walk st1.mem fuel1 st1.heap_listp = some (W, st1.brk) ∧
          (p, S, 1) ∈ W ∧
          ((p + S = st1.brk ∧ SIZE st1.mem (HEADP (p + S)) = 0 ∧
              ALLOC_BIT st1.mem (HEADP (p + S)) = 1) ∨
            ∃ c ∈ W, c.1 = p + S) :=
  have hw : heap_walk st1c.mem 5000 st1c.heap_listp
      = some ([(4104, 8, 1), (4112, 112, 1), (4224, 144, 0)], 4368) := by decide
  have hnofit : ∀ W e, heap_walk st1c.mem 5000 st1c.heap_listp = some (W, e) →
      ∀ b ∈ W, b.2.2 = 0 → b.2.1 < 208 := by
    intro W e h b hb hfree
    rw [hw] at h
    obtain ⟨rfl, -⟩ := Prod.mk.inj (Option.some.inj h)
    simp only [List.mem_cons, List.mem_singleton, List.not_mem_nil, or_false] at hb
    rcases hb with rfl | rfl | rfl
    · exact absurd hfree (by decide)
    · exact absurd hfree (by decide)
    · decide
  ⟨reach_st1c, by decide, by decide, by decide, by decide,
    fun _ => ⟨by decide, by decide, fun k hk1 hk2 => by omega⟩, hnofit, rfl,
    (C11_growth 4096 st1c [4112] 5000 200 208 reach_st1c (by decide) (by decide)
      (by decide) (by decide) (fun _ => ⟨by decide, by decide, fun k hk1 hk2 => by omega⟩)
      hnofit).2.1 4368 { st1c with brk := 4624 } rfl⟩


/-- C12: for every heap state (and every bound on the search loop, which is
not entered) `mm_malloc(0)` returns null and the state is returned as it was:
no byte is written and the break is not moved, so nothing is asked of the
provider. -/
theorem C12_malloc_zero (fuel : Nat) (st : State) :
    mm_malloc fuel st 0 = some (0, st) ∧
    ∀ p st1, mm_malloc fuel st 0 = some (p, st1) →
      p = 0 ∧ st1.mem = st.mem ∧ st1.brk = st.brk ∧ st1.heap_listp = st.heap_listp := by
  have h : mm_malloc fuel st 0 = some (0, st) := by
    unfold mm_malloc; rw [if_pos rfl]
  refine ⟨h, ?_⟩
  intro p st1 h1
  rw [h] at h1
  obtain ⟨rfl, rfl⟩ := Prod.mk.inj (Option.some.inj h1)
  exact ⟨rfl, rfl, rfl, rfl⟩

/-- C13: on a reachable heap, for a live pointer `p` (which is not null),
`mm_realloc(p, 0)` returns null and leaves exactly the state that `mm_free(p)`
produces from the same heap. -/
theorem C13_realloc_zero (base : Nat) (st : State) (L : List Nat) (fuel p : Nat)
    (hR : Reach base st L) (hp : p ∈ L) :
    p ≠ 0 ∧ mm_realloc fuel st p 0 = some (0, mm_free st p) := by
  obtain ⟨F, I⟩ := reach_inv base st L hR
  have hp0 : p ≠ 0 := by
    intro h
    rw [h] at hp
    exact inv_zero_not_live base st F L I hp
  refine ⟨hp0, ?_⟩
  unfold mm_realloc
  rw [if_neg hp0, if_pos rfl]

theorem C13_realloc_zero_witness :
    Reach 4096 st2c [4224, 4112] ∧ 4112 ∈ [4224, 4112] ∧
    ((4112 : Nat) ≠ 0 ∧ mm_realloc 5000 st2c 4112 0 = some (0, mm_free st2c 4112)) :=
  ⟨reach_st2c, by decide, C13_realloc_zero 4096 st2c [4224, 4112] 5000 4112 reach_st2c (by decide)⟩

/-- C14: for every heap state and every `n` (zero included) `mm_realloc(null, n)`
is `mm_malloc(n)`: the same returned pointer and the same final state, for the
same provider and the same bound on the search loop. -/
theorem C14_realloc_null (fuel : Nat) (st : State) (n : Nat) :
    mm_realloc fuel st 0 n = mm_malloc fuel st n := by
  unfold mm_realloc
  rw [if_pos rfl]

/-- C15: `mm_init` from any prior state `pre`. If the provider refuses the
first request (16 bytes), or grants it and refuses the second (256 bytes),
`mm_init` returns -1. If it grants both, `mm_init` returns 0 and the heap is:
a zero padding word at the old break `p`, then the walk from the list pointer
`p + 8` is exactly the prologue `(8, allocated)` and one free block of 256
bytes, each with header equal to footer, ended by the epilogue header
`(0, allocated)` in the last word below the new break. -/
theorem C15_init (pre : State) :
    (mem_sbrk pre 16 = none → (mm_init pre).1 = -1) ∧
    (∀ p s1, mem_sbrk pre 16 = some (p, s1) → mem_sbrk s1 256 = none → (mm_init pre).1 = -1) ∧
    (∀ p s1 q s2, mem_sbrk pre 16 = some (p, s1) → mem_sbrk s1 256 = some (q, s2) →
      ∃ st, mm_init pre = (0, st) ∧ st.heap_listp = p + 8 ∧ st.brk = s2.brk ∧
        s2.brk = p + 272 ∧ GET st.mem p = 0 ∧
        (∀ fuel, 3 ≤ fuel → heap_walk st.mem fuel st.heap_listp
          = some ([(p + 8, 8, 1), (p + 16, 256, 0)], st.brk)) ∧
        GET st.mem (HEADP (p + 8)) = GET st.mem (FOOTP st.mem (p + 8)) ∧
        GET st.mem (HEADP (p + 16)) = GET st.mem (FOOTP st.mem (p + 16)) ∧
        NEXT_BLP st.mem (p + 16) = p + 272 ∧
        SIZE st.mem (HEADP (p + 272)) = 0 ∧ ALLOC_BIT st.mem (HEADP (p + 272)) = 1 ∧
        HEADP (p + 272) + 4 = st.brk) := by
  refine ⟨?_, ?_, ?_⟩
  · intro h
    unfold mem_sbrk at h
    split at h
    · simp at h
    · rw [mm_init_fail1 pre (by omega)]
  · intro p s1 h1 h2
    unfold mem_sbrk at h1
    split at h1
    · rename_i hle
      obtain ⟨rfl, rfl⟩ := Prod.mk.inj (Option.some.inj h1)
      unfold mem_sbrk at h2
      split at h2
      · simp at h2
      · rename_i hgt
        simp only at hgt
        have hE : (if (CHUNKSIZE / WS) % 2 = 0 then (CHUNKSIZE / WS * WS) % WORD
            else ((CHUNKSIZE / WS + 1) * WS) % WORD) = 256 := by decide
        rw [mm_init_eq pre hle, extend_heap_fail _ _ 256 hE (by simp only [initState]; omega)]
        simp
    · simp at h1
  · intro p s1 q s2 h1 h2
    unfold mem_sbrk at h1
    split at h1
    · obtain ⟨rfl, rfl⟩ := Prod.mk.inj (Option.some.inj h1)
      unfold mem_sbrk at h2
      split at h2
      · rename_i hle
        simp only at hle
        obtain ⟨rfl, rfl⟩ := Prod.mk.inj (Option.some.inj h2)
        obtain ⟨st, e1, e2, e3, e4, e5, e6⟩ := init_heap pre hle
        have hw : ∀ fuel, 3 ≤ fuel → heap_walk st.mem fuel st.heap_listp
            = some ([(pre.brk + 8, 8, 1), (pre.brk + 16, 256, 0)], st.brk) := by
          intro fuel hf
          have := heap_walk_seg st.mem fuel (pre.brk + 4) [(8, 1), (256, 0)] e5
            (by simpa [total] using e6) (by simpa using hf)
          rw [e2, e3]
          simpa [layout, total, Nat.add_assoc] using this
        obtain ⟨b1, b2, -⟩ := e5
        simp only at b1 b2
        have a1 : pre.brk + 4 + 4 = pre.brk + 8 := by omega
        have a2 : pre.brk + 4 + 8 + 4 = pre.brk + 16 := by omega
        have a3 : pre.brk + 16 + 256 = pre.brk + 272 := by omega
        have a4 : HEADP (pre.brk + 272) = pre.brk + 268 := by simp only [HEADP, WS]; omega
        have r1 := (blk_reads_foot _ _ _ _ b1).2.2
        obtain ⟨-, r3, r2⟩ := blk_reads_foot _ _ _ _ b2
        rw [a1] at r1
        rw [a2] at r2 r3
        refine ⟨st, e1, e2, e3, a3, e4, hw, r1, r2, by rw [r3], ?_, ?_, ?_⟩
        · rw [a4]; exact SIZE_of _ _ 0 1 (by simpa using e6) rfl (le_refl _)
        · rw [a4]; exact ALLOC_of _ _ 0 1 (by simpa using e6) rfl (le_refl _)
        · rw [a4, e3]
      · simp at h2
    · simp at h1

theorem C15_init_witness :
    ∃ st, mm_init pre0 = (0, st) ∧ st.heap_listp = 4096 + 8 ∧
        st.brk = ({ pre0 with brk := 4368 } : State).brk ∧
        ({ pre0 with brk := 4368 } : State).brk = 4096 + 272 ∧ GET st.mem 4096 = 0 ∧
        (∀ fuel, 3 ≤ fuel → heap_walk st.mem fuel st.heap_listp
          = some ([(4096 + 8, 8, 1), (4096 + 16, 256, 0)], st.brk)) ∧
        GET st.mem (HEADP (4096 + 8)) = GET st.mem (FOOTP st.mem (4096 + 8)) ∧
        GET st.mem (HEADP (4096 + 16)) = GET st.mem (FOOTP st.mem (4096 + 16)) ∧
        NEXT_BLP st.mem (4096 + 16) = 4096 + 272 ∧
        SIZE st.mem (HEADP (4096 + 272)) = 0 ∧ ALLOC_BIT st.mem (HEADP (4096 + 272)) = 1 ∧
        HEADP (4096 + 272) + 4 = st.brk :=
  (C15_init pre0).2.2 4096 { pre0 with brk := 4112 } 4112 { pre0 with brk := 4368 } rfl rfl

/-- C16: on a reachable heap the walk starts with the prologue, and every block
after it (the blocks strictly between the prologue and the epilogue) has a
stored size that is a multiple of 8 and at least 16. -/
theorem C16_block_sizes (base : Nat) (st : State) (L : List Nat) (fuel : Nat)
    (hR : Reach base st L) (hfuel : st.brk ≤ fuel) :
    ∃ rest e, heap_walk st.mem fuel st.heap_listp = some ((st.heap_listp, 8, 1) :: rest, e) ∧
      ∀ b ∈ rest, b.2.1 % 8 = 0 ∧ 16 ≤ b.2.1 := by
  obtain ⟨F, I⟩ := reach_inv base st L hR
  have hw := inv_walk base st F L I fuel hfuel
  obtain ⟨bs, rfl⟩ := I.head
  refine ⟨layout (base + 4 + 8) bs, st.brk, ?_, ?_⟩
  · rw [hw, I.hl]; rfl
  · intro b hb
    have hm := (layout_mem _ _ _ hb).1
    refine ⟨?_, I.min16 _ hm⟩
    obtain ⟨pre, post, e1, -⟩ := layout_split _ _ _ hb
    have I2 : Inv base st (((8, 1) :: pre) ++ (b.2.1, b.2.2) :: post) L := by
      rw [List.cons_append, ← e1]; exact I
    exact (inv_blk base st L _ _ _ post I2).2.1

theorem C16_block_sizes_witness :
    Reach 4096 st2c [4224, 4112] ∧ st2c.brk ≤ 5000 ∧
    ∃ rest e, heap_walk st2c.mem 5000 st2c.heap_listp
        = some ((st2c.heap_listp, 8, 1) :: rest, e) ∧
      ∀ b ∈ rest, b.2.1 % 8 = 0 ∧ 16 ≤ b.2.1 :=
  ⟨reach_st2c, by decide, C16_block_sizes 4096 st2c [4224, 4112] 5000 reach_st2c (by decide)⟩

/-- C17: `coalesce(b)` for a free block `b` of size `s` with header at
`hp + sp`, payload pointer `hp + sp + 4`, whose predecessor (header at `hp`) has
tags `(sp, ap)` and whose successor's header holds `(sn, an)`; the successor is
a block with equal tags when it is free, a block or the epilogue otherwise.
Both neighbours allocated: returns `b`, nothing is written. Predecessor free
only: returns the predecessor, new size `sp + s`. Successor free only: returns
`b`, new size `s + sn`. Both free: returns the predecessor, new size
`sp + s + sn`. In the merging cases the header at the returned block and the
footer at the end of the last merged block hold `(new size, free)`, and no byte
outside the merged blocks (nor the break or the list pointer) is changed. -/
theorem C17_coalesce (st : State) (hp sp ap s sn an : Nat)
    (hprev : Blk st.mem hp sp ap) (hb : Blk st.mem (hp + sp) s 0)
    (hnext : GET st.mem (hp + sp + s) = sn + an) (hsn : sn % 8 = 0) (han : an ≤ 1)
    (hnf : an = 0 → Blk st.mem (hp + sp + s) sn 0)
    (hlt : hp + sp + s + sn < 4294967296) :
    (ap = 1 → an = 1 → coalesce st (hp + sp + 4) = (hp + sp + 4, st)) ∧
    (ap = 0 → an = 1 →
      (coalesce st (hp + sp + 4)).1 = hp + 4 ∧
      Blk (coalesce st (hp + sp + 4)).2.mem hp (sp + s) 0 ∧
      ∀ x, x < hp ∨ hp + (sp + s) ≤ x → (coalesce st (hp + sp + 4)).2.mem x = st.mem x) ∧
    (ap = 1 → an = 0 →
      (coalesce st (hp + sp + 4)).1 = hp + sp + 4 ∧
      Blk (coalesce st (hp + sp + 4)).2.mem (hp + sp) (s + sn) 0 ∧
      ∀ x, x < hp + sp ∨ hp + sp + (s + sn) ≤ x →
        (coalesce st (hp + sp + 4)).2.mem x = st.mem x) ∧
    (ap = 0 → an = 0 →
      (coalesce st (hp + sp + 4)).1 = hp + 4 ∧
      Blk (coalesce st (hp + sp + 4)).2.mem hp (sp + s + sn) 0 ∧
      ∀ x, x < hp ∨ hp + (sp + s + sn) ≤ x →
        (coalesce st (hp + sp + 4)).2.mem x = st.mem x) ∧
    (coalesce st (hp + sp + 4)).2.brk = st.brk ∧
    (coalesce st (hp + sp + 4)).2.heap_listp = st.heap_listp := by
  obtain ⟨p1, p2, p3, p4, p5⟩ := hprev
  obtain ⟨b1, b2, _, b4, _⟩ := hb
  have A : Around st.mem hp sp ap s sn an :=
    ⟨p1, p2, p3, p4, p5, b1, b2, by simpa using b4, hsn, han, hnext⟩
  have c1 : ap = 1 → an = 1 → coalesce st (hp + sp + 4) = (hp + sp + 4, st) := by
    intro h1 h2; subst h1; subst h2
    exact coalesce_11 st hp sp s sn A
  have c2 : ap = 0 → an = 1 → coalesce st (hp + sp + 4) =
      (hp + 4, { st with mem := PUT (PUT st.mem (hp + (sp + s) - 4) (sp + s + 0)) hp (sp + s + 0) }) := by
    intro h1 h2; subst h1; subst h2
    exact coalesce_01 st hp sp s sn A (by omega)
  have c3 : ap = 1 → an = 0 → coalesce st (hp + sp + 4) =
      (hp + sp + 4, { st with mem := tag2 st.mem (hp + sp) (s + sn) 0 }) := by
    intro h1 h2; subst h1; subst h2
    exact coalesce_10 st hp sp s sn A (by omega)
  have c4 : ap = 0 → an = 0 → coalesce st (hp + sp + 4) =
      (hp + 4, { st with mem := tag2 st.mem hp (sp + s + sn) 0 }) := by
    intro h1 h2; subst h1
    have hn := hnf h2
    subst h2
    have hn1 := hn.1
    have hn5 := hn.2.2.2.2
    exact coalesce_00 st hp sp s sn A hn1 (by simpa using hn5) (by omega)
  have hsn8 : an = 0 → 8 ≤ sn := fun h => (hnf h).1
  clear A hnf p4 p5 b4 hnext
  refine ⟨c1, ?_, ?_, ?_, ?_, ?_⟩
  · intro h1 h2
    rw [c2 h1 h2]
    refine ⟨rfl, ⟨by omega, by omega, by omega, ?_, ?_⟩, ?_⟩
    · show GET (PUT _ hp _) hp = _
      rw [GET_PUT_same, Nat.mod_eq_of_lt (by omega)]
    · show GET (PUT _ hp _) _ = _
      rw [GET_PUT_other _ _ _ _ (by omega), GET_PUT_same, Nat.mod_eq_of_lt (by omega)]
    · intro x hx
      show PUT _ hp _ x = _
      rw [PUT_other _ _ _ _ (by omega), PUT_other _ _ _ _ (by omega)]
  · intro h1 h2
    have := hsn8 h2
    rw [c3 h1 h2]
    refine ⟨rfl, tag2_blk _ _ _ _ (by omega) (by omega) (by omega) (by omega), ?_⟩
    intro x hx
    exact tag2_other _ _ _ _ _ (by omega) hx
  · intro h1 h2
    have := hsn8 h2
    rw [c4 h1 h2]
    refine ⟨rfl, tag2_blk _ _ _ _ (by omega) (by omega) (by omega) (by omega), ?_⟩
    intro x hx
    exact tag2_other _ _ _ _ _ (by omega) hx
  · have h1 : ap = 0 ∨ ap = 1 := by omega
    have h2 : an = 0 ∨ an = 1 := by omega
    rcases h1 with h1 | h1 <;> rcases h2 with h2 | h2
    · rw [c4 h1 h2]
    · rw [c2 h1 h2]
    · rw [c3 h1 h2]
    · rw [c1 h1 h2]
  · have h1 : ap = 0 ∨ ap = 1 := by omega
    have h2 : an = 0 ∨ an = 1 := by omega
    rcases h1 with h1 | h1 <;> rcases h2 with h2 | h2
    · rw [c4 h1 h2]
    · rw [c2 h1 h2]
    · rw [c3 h1 h2]
    · rw [c1 h1 h2]

theorem C17_coalesce_witness :
    Blk stM.mem 4100 8 1 ∧ Blk stM.mem (4100 + 8) 112 0 ∧
    GET stM.mem (4100 + 8 + 112) = 144 + 0 ∧ 144 % 8 = 0 ∧ 0 ≤ 1 ∧
    (0 = 0 → Blk stM.mem (4100 + 8 + 112) 144 0) ∧
    4100 + 8 + 112 + 144 < 4294967296 ∧
    ((1 = 1 → 0 = 1 → coalesce stM (4100 + 8 + 4) = (4100 + 8 + 4, stM)) ∧
    (1 = 0 → 0 = 1 →
      (coalesce stM (4100 + 8 + 4)).1 = 4100 + 4 ∧
      Blk (coalesce stM (4100 + 8 + 4)).2.mem 4100 (8 + 112) 0 ∧
      ∀ x, x < 4100 ∨ 4100 + (8 + 112) ≤ x → (coalesce stM (4100 + 8 + 4)).2.mem x = stM.mem x) ∧
    (1 = 1 → 0 = 0 →
      (coalesce stM (4100 + 8 + 4)).1 = 4100 + 8 + 4 ∧
      Blk (coalesce stM (4100 + 8 + 4)).2.mem (4100 + 8) (112 + 144) 0 ∧
      ∀ x, x < 4100 + 8 ∨ 4100 + 8 + (112 + 144) ≤ x →
        (coalesce stM (4100 + 8 + 4)).2.mem x = stM.mem x) ∧
    (1 = 0 → 0 = 0 →
      (coalesce stM (4100 + 8 + 4)).1 = 4100 + 4 ∧
      Blk (coalesce stM (4100 + 8 + 4)).2.mem 4100 (8 + 112 + 144) 0 ∧
      ∀ x, x < 4100 ∨ 4100 + (8 + 112 + 144) ≤ x →
        (coalesce stM (4100 + 8 + 4)).2.mem x = stM.mem x) ∧
    (coalesce stM (4100 + 8 + 4)).2.brk = stM.brk ∧
    (coalesce stM (4100 + 8 + 4)).2.heap_listp = stM.heap_listp) :=
  ⟨by unfold Blk; decide, by unfold Blk; decide, by decide, by decide, by decide,
    fun _ => by unfold Blk; decide, by decide,
    C17_coalesce stM 4100 8 1 112 144 0 (by unfold Blk; decide) (by unfold Blk; decide)
      (by decide) (by decide) (by decide) (fun _ => by unfold Blk; decide) (by decide)⟩

/-- C18: `insert(bp, r)` on a free block of stored size `B` whose payload
pointer is `bp = h + 4`, with `r` a multiple of 8 and `16 ≤ r ≤ B`. When
`B - r < 16` both tags of the block become `(B, allocated)`. Otherwise both
tags of the block at `bp` become `(r, allocated)` and the block that starts at
`bp + r` gets both tags `(B - r, free)`. In either case the blocks written end
where the original block ended, and no byte outside the original `B` bytes
(nor the break or the list pointer) is changed. -/
theorem C18_insert (st : State) (h B r : Nat) (hb : Blk st.mem h B 0)
    (hr8 : r % 8 = 0) (hr16 : 16 ≤ r) (hle : r ≤ B) :
    (B - r < 16 →
      SIZE (insert st (h + 4) r).mem (HEADP (h + 4)) = B ∧
      ALLOC_BIT (insert st (h + 4) r).mem (HEADP (h + 4)) = 1 ∧
      SIZE (insert st (h + 4) r).mem (FOOTP (insert st (h + 4) r).mem (h + 4)) = B ∧
      ALLOC_BIT (insert st (h + 4) r).mem (FOOTP (insert st (h + 4) r).mem (h + 4)) = 1 ∧
      NEXT_BLP (insert st (h + 4) r).mem (h + 4) = h + 4 + B) ∧
    (¬ B - r < 16 →
      SIZE (insert st (h + 4) r).mem (HEADP (h + 4)) = r ∧
      ALLOC_BIT (insert st (h + 4) r).mem (HEADP (h + 4)) = 1 ∧
      SIZE (insert st (h + 4) r).mem (FOOTP (insert st (h + 4) r).mem (h + 4)) = r ∧
      ALLOC_BIT (insert st (h + 4) r).mem (FOOTP (insert st (h + 4) r).mem (h + 4)) = 1 ∧
      NEXT_BLP (insert st (h + 4) r).mem (h + 4) = h + 4 + r ∧
      SIZE (insert st (h + 4) r).mem (HEADP (h + 4 + r)) = B - r ∧
      ALLOC_BIT (insert st (h + 4) r).mem (HEADP (h + 4 + r)) = 0 ∧
      SIZE (insert st (h + 4) r).mem (FOOTP (insert st (h + 4) r).mem (h + 4 + r)) = B - r ∧
      ALLOC_BIT (insert st (h + 4) r).mem (FOOTP (insert st (h + 4) r).mem (h + 4 + r)) = 0 ∧
      NEXT_BLP (insert st (h + 4) r).mem (h + 4 + r) = h + 4 + B) ∧
    (∀ x, x < h ∨ h + B ≤ x → (insert st (h + 4) r).mem x = st.mem x) ∧
    (insert st (h + 4) r).brk = st.brk ∧
    (insert st (h + 4) r).heap_listp = st.heap_listp := by
  obtain ⟨i1, _, i3, i4, i5⟩ := insert_seg st h B r hb hr8 hr16 hle
  refine ⟨?_, ?_, i5, i1, i3⟩
  · intro ht
    simp only [split, ht, if_true] at i4
    obtain ⟨b, -⟩ := i4
    obtain ⟨r1, r2, _, r4⟩ := blk_reads _ _ _ _ b
    obtain ⟨q1, q2, _⟩ := blk_reads_foot _ _ _ _ b
    exact ⟨r1, r2, q1, r4, q2⟩
  · intro ht
    simp only [split, ht, if_false] at i4
    obtain ⟨b, b2, -⟩ := i4
    simp only at b b2
    obtain ⟨r1, r2, _, r4⟩ := blk_reads _ _ _ _ b
    obtain ⟨q1, q2, _⟩ := blk_reads_foot _ _ _ _ b
    obtain ⟨s1, s2, _, s4⟩ := blk_reads _ _ _ _ b2
    obtain ⟨t1, t2, _⟩ := blk_reads_foot _ _ _ _ b2
    have e : h + r + 4 = h + 4 + r := by omega
    rw [e] at s1 s2 s4 t1 t2
    refine ⟨r1, r2, q1, r4, q2, s1, s2, t1, s4, ?_⟩
    rw [t2]; omega

theorem C18_insert_witness :
    Blk st0.mem 4108 256 0 ∧ 112 % 8 = 0 ∧ 16 ≤ 112 ∧ 112 ≤ 256 ∧
    ((256 - 112 < 16 →
      SIZE (insert st0 (4108 + 4) 112).mem (HEADP (4108 + 4)) = 256 ∧
      ALLOC_BIT (insert st0 (4108 + 4) 112).mem (HEADP (4108 + 4)) = 1 ∧
      SIZE (insert st0 (4108 + 4) 112).mem (FOOTP (insert st0 (4108 + 4) 112).mem (4108 + 4)) = 256 ∧
      ALLOC_BIT (insert st0 (4108 + 4) 112).mem
        (FOOTP (insert st0 (4108 + 4) 112).mem (4108 + 4)) = 1 ∧
      NEXT_BLP (insert st0 (4108 + 4) 112).mem (4108 + 4) = 4108 + 4 + 256) ∧
    (¬ 256 - 112 < 16 →
      SIZE (insert st0 (4108 + 4) 112).mem (HEADP (4108 + 4)) = 112 ∧
      ALLOC_BIT (insert st0 (4108 + 4) 112).mem (HEADP (4108 + 4)) = 1 ∧
      SIZE (insert st0 (4108 + 4) 112).mem (FOOTP (insert st0 (4108 + 4) 112).mem (4108 + 4)) = 112 ∧
      ALLOC_BIT (insert st0 (4108 + 4) 112).mem
        (FOOTP (insert st0 (4108 + 4) 112).mem (4108 + 4)) = 1 ∧
      NEXT_BLP (insert st0 (4108 + 4) 112).mem (4108 + 4) = 4108 + 4 + 112 ∧
      SIZE (insert st0 (4108 + 4) 112).mem (HEADP (4108 + 4 + 112)) = 256 - 112 ∧
      ALLOC_BIT (insert st0 (4108 + 4) 112).mem (HEADP (4108 + 4 + 112)) = 0 ∧
      SIZE (insert st0 (4108 + 4) 112).mem
        (FOOTP (insert st0 (4108 + 4) 112).mem (4108 + 4 + 112)) = 256 - 112 ∧
      ALLOC_BIT (insert st0 (4108 + 4) 112).mem
        (FOOTP (insert st0 (4108 + 4) 112).mem (4108 + 4 + 112)) = 0 ∧
      NEXT_BLP (insert st0 (4108 + 4) 112).mem (4108 + 4 + 112) = 4108 + 4 + 256) ∧
    (∀ x, x < 4108 ∨ 4108 + 256 ≤ x → (insert st0 (4108 + 4) 112).mem x = st0.mem x) ∧
    (insert st0 (4108 + 4) 112).brk = st0.brk ∧
    (insert st0 (4108 + 4) 112).heap_listp = st0.heap_listp) :=
  ⟨by unfold Blk; decide, by decide, by decide, by decide,
    C18_insert st0 4108 256 112 (by unfold Blk; decide) (by decide) (by decide) (by decide)⟩

/-- C19: the size adjustment wraps around. For `size = 2^32 - 1` the adjusted
size is 8, not at least `size + 8`, and `mm_malloc` on the heap right after
`mm_init` returns the non-null pointer 4112 to a block of stored size 8 without
growing the heap; for `size = 2^32 - 8` the adjusted size is 0. -/
theorem C19_adjust_wraps :
    adjust 4294967295 = 8 ∧ ¬ (4294967295 + 8 ≤ adjust 4294967295) ∧
    mm_malloc 5000 st0 4294967295 = some (4112, insert st0 4112 8) ∧
    SIZE (insert st0 4112 8).mem (HEADP 4112) = 8 ∧
    ALLOC_BIT (insert st0 4112 8).mem (HEADP 4112) = 1 ∧
    (insert st0 4112 8).brk = st0.brk ∧
    adjust 4294967288 = 0 :=
  ⟨by decide, by decide, rfl, by decide, by decide, by decide, by decide⟩

/-- C20: non-interference on a reachable heap. Every live pointer is an
allocated block of the walk. `mm_malloc(n)` (`n < 2^31`) leaves every byte of
every allocated block of the walk (header, payload and footer: the bytes from
the header address up to the block's stored size) unchanged, and when it
returns a non-null `p` the payload of `p` is disjoint from the payload of every
live pointer. `mm_free(p)` for a live `p` leaves every byte of every allocated
block other than the block of `p` unchanged. -/
theorem C20_non_interference (base : Nat) (st : State) (L : List Nat) (fuel : Nat)
    (hR : Reach base st L) (hfuel : st.brk ≤ fuel) :
    ∃ W e, heap_walk st.mem fuel st.heap_listp = some (W, e) ∧
      (∀ q ∈ L, (q, SIZE st.mem (HEADP q), 1) ∈ W) ∧
      (∀ n, n < 2147483648 → ∃ p st1, mm_malloc fuel st n = some (p, st1) ∧
        (∀ b ∈ W, b.2.2 = 1 →
          ∀ x, HEADP b.1 ≤ x → x < HEADP b.1 + b.2.1 → st1.mem x = st.mem x) ∧
        (p ≠ 0 → ∀ q ∈ L, SIZE st1.mem (HEADP q) = SIZE st.mem (HEADP q) ∧
          (q + (SIZE st.mem (HEADP q) - 8) ≤ p ∨ p + (SIZE st1.mem (HEADP p) - 8) ≤ q))) ∧
      (∀ p ∈ L, ∀ b ∈ W, b.2.2 = 1 → b.1 ≠ p →
        ∀ x, HEADP b.1 ≤ x → x < HEADP b.1 + b.2.1 → (mm_free st p).mem x = st.mem x) := by
  obtain ⟨F, I⟩ := reach_inv base st L hR
  refine ⟨_, _, inv_walk base st F L I fuel hfuel, ?_, ?_, ?_⟩
  · intro q hq
    obtain ⟨s, h1, h2, -⟩ := live_in_layout base st F L I q hq
    rw [h2]; exact h1
  · intro n hn
    obtain ⟨p, st1, F1, hm, I1, hfr, -, hp⟩ := malloc_inv base st F L fuel n I hn hfuel
    refine ⟨p, st1, hm, ?_, ?_⟩
    · intro b hb hb1 x hx1 hx2
      obtain ⟨X, Y, hF, hb2⟩ := layout_split _ _ _ hb
      rw [hb1] at hF
      have e : HEADP b.1 = base + 4 + total X := by
        rw [hb2]; simp [HEADP, WS]
      rw [e] at hx1 hx2
      exact hfr X b.2.1 Y hF x hx1 hx2
    · intro hp0 q hq
      obtain ⟨G, S, R, rfl, rfl, -, -⟩ := hp hp0
      rw [if_neg hp0] at I1
      have hB := inv_blk base st1 _ G S 1 R I1
      have hS : SIZE st1.mem (HEADP (base + 4 + total G + 4)) = S := (blk_reads _ _ _ _ hB).1
      have hS8 := hB.1
      have hnd := I1.nodup
      have hne : q ≠ base + 4 + total G + 4 := by
        intro h
        rw [h] at hq
        exact (List.nodup_cons.1 hnd).1 hq
      obtain ⟨s0, hl0, hs0, -⟩ := live_in_layout base st F L I q hq
      obtain ⟨X, Y, hF, hb2⟩ := layout_split _ _ _ hl0
      simp only at hF hb2
      have hfq := hfr X s0 Y hF
      have hB0 := inv_blk base st L X s0 1 Y (by rw [← hF]; exact I)
      have hh : HEADP q = base + 4 + total X := by rw [hb2]; simp [HEADP, WS]
      have hs8 := hB0.1
      have hsz : SIZE st1.mem (HEADP q) = SIZE st.mem (HEADP q) := by
        unfold SIZE
        rw [hh, GET_congr st.mem st1.mem _ (fun x hx1 hx2 => hfq x hx1 (by omega))]
      obtain ⟨pre, sp, ap, s, post, hF1, hq1⟩ :=
        live_split base st1 _ _ I1 q (List.mem_cons_of_mem _ hq)
      have e1 : pre ++ (sp, ap) :: (s, 1) :: post = (pre ++ [(sp, ap)]) ++ (s, 1) :: post := by
        simp
      have ht : total (pre ++ [(sp, ap)]) = total pre + sp := by
        rw [total_append]; simp [total]
      rw [e1] at hF1
      have hBq := inv_blk base st1 _ (pre ++ [(sp, ap)]) s 1 post (by rw [← hF1]; exact I1)
      rw [ht, ← Nat.add_assoc] at hBq
      have hsq : SIZE st1.mem (HEADP q) = s := by
        rw [hq1]; exact (blk_reads _ _ _ _ hBq).1
      have hd := split_disjoint _ _ _ _ _ _ hF1
      rw [ht] at hd
      simp only at hd
      refine ⟨hsz, ?_⟩
      rw [hS, ← hsz, hsq]
      clear hfr hfq hp hB hB0 hBq hm hl0
      rcases hd with ⟨h1, -, -⟩ | h | h
      · have : total G = total pre + sp := by rw [h1, ht]
        omega
      · right; omega
      · left; omega
  · intro p hp b hb hb1 hbp x hx1 hx2
    obtain ⟨pre, sp, ap, s, post, rfl, rfl⟩ := live_split base st F L I p hp
    obtain ⟨-, -, hf⟩ := free_spec base st L pre sp ap s post I
    obtain ⟨X, Y, hF, hb2⟩ := layout_split _ _ _ hb
    rw [hb1] at hF
    have e : HEADP b.1 = base + 4 + total X := by
      rw [hb2]; simp [HEADP, WS]
    rw [e] at hx1 hx2
    have hne : total X ≠ total pre + sp := by
      intro h
      apply hbp
      rw [hb2, h]; omega
    exact free_frame base st.mem _ pre sp ap s post (seg_pos _ _ _ I.seg) hf X b.2.1 Y hF hne
      x hx1 hx2

theorem C20_non_interference_witness :
    Reach 4096 st2c [4224, 4112] ∧ st2c.brk ≤ 5000 ∧
    ∃ W e, heap_walk st2c.mem 5000 st2c.heap_listp = some (W, e) ∧
      (∀ q ∈ [4224, 4112], (q, SIZE st2c.mem (HEADP q), 1) ∈ W) ∧
      (∀ n, n < 2147483648 → ∃ p st1, mm_malloc 5000 st2c n = some (p, st1) ∧
        (∀ b ∈ W, b.2.2 = 1 →
          ∀ x, HEADP b.1 ≤ x → x < HEADP b.1 + b.2.1 → st1.mem x = st2c.mem x) ∧
        (p ≠ 0 → ∀ q ∈ [4224, 4112], SIZE st1.mem (HEADP q) = SIZE st2c.mem (HEADP q) ∧
          (q + (SIZE st2c.mem (HEADP q) - 8) ≤ p ∨ p + (SIZE st1.mem (HEADP p) - 8) ≤ q))) ∧
      (∀ p ∈ [4224, 4112], ∀ b ∈ W, b.2.2 = 1 → b.1 ≠ p →
        ∀ x, HEADP b.1 ≤ x → x < HEADP b.1 + b.2.1 → (mm_free st2c p).mem x = st2c.mem x) :=
  ⟨reach_st2c, by decide,
    C20_non_interference 4096 st2c [4224, 4112] 5000 reach_st2c (by decide)⟩

end MM
